import Mathlib

/-!
Verification of the OmniSciDB privilege graph (`Catalog/Grantee.cpp`,
`Catalog/Grantee.h`), the catalog reader/writer lock guards, and the
`/proc/meminfo` parser (`DataMgr/DataMgr.h`), as a shallow embedding in Lean.

C++ objects linked by pointers are modelled by nodes identified by their
(unique) name inside an explicit graph state; `std::map` becomes an
association list kept sorted by a fixed key order; machine integers become
`Int` (ids) and `Nat` (bitsets); throwing functions return `Except`.
-/

namespace OmniSci

/-- Modelled from the spec: `DBObjectKey` from `Catalog/DBObject.h` (the header
is not under `src/`); a key is `(permissionType, dbId, objectId)` and `-1`
denotes the wildcard. -/
structure DBObjectKey where
  permissionType : Int
  dbId : Int
  objectId : Int
deriving DecidableEq, Repr

/-- Modelled from the spec: the `AccessPrivileges` bitset of `DBObject.h`
(not under `src/`): a fixed-width integer bitfield, here a `Nat` used through
bitwise operations only. -/
structure AccessPrivileges where
  privileges : Nat
deriving DecidableEq, Repr

/-- Modelled from the spec: `AccessPrivileges::hasAny` — some bit is set. -/
def AccessPrivileges.hasAny (p : AccessPrivileges) : Bool :=
  p.privileges != 0

/-- Modelled from the spec: `DBObject` is `(key, objectName, owner, privileges)`. -/
structure DBObject where
  objectKey : DBObjectKey
  objectName : String
  ownerId : Int
  privs : AccessPrivileges
deriving DecidableEq, Repr

/-- Modelled from the spec: `DBObject::grantPrivileges` — bitwise union
("Bitwise union defines grant"). -/
def DBObject.grantPrivileges (o src : DBObject) : DBObject :=
  { o with privs := ⟨o.privs.privileges ||| src.privs.privileges⟩ }

/-- Modelled from the spec: `DBObject::updatePrivileges` — bitwise union of
the source object's bits into this object. -/
def DBObject.updatePrivileges (o src : DBObject) : DBObject :=
  { o with privs := ⟨o.privs.privileges ||| src.privs.privileges⟩ }

/-- Modelled from the spec: `DBObject::revokePrivileges` — clears the source
object's bits ("Subtracts `object.privileges`"). -/
def DBObject.revokePrivileges (o src : DBObject) : DBObject :=
  { o with privs := ⟨Nat.ldiff o.privs.privileges src.privs.privileges⟩ }

/-- Modelled from the spec: `DBObject::resetPrivileges` — zero the bitset. -/
def DBObject.resetPrivileges (o : DBObject) : DBObject :=
  { o with privs := ⟨0⟩ }

/-- Strict lexicographic order on keys, standing in for the `operator<` that
`std::map<DBObjectKey, ...>` sorts by (`DBObject.h` is not under `src/`; the
particular total order is irrelevant to every property proved below, it only
fixes a canonical association-list representation). -/
def DBObjectKey.lt (a b : DBObjectKey) : Bool :=
  decide (a.permissionType < b.permissionType) ||
    (a.permissionType == b.permissionType &&
      (decide (a.dbId < b.dbId) ||
        (a.dbId == b.dbId && decide (a.objectId < b.objectId))))

/-- `std::map<DBObjectKey, std::unique_ptr<DBObject>>` as a sorted
association list. -/
abbrev DBObjectMap := List (DBObjectKey × DBObject)

/-- Lookup (`map::find`). -/
def mapLookup (m : DBObjectMap) (k : DBObjectKey) : Option DBObject :=
  match m with
  | [] => none
  | (k', v) :: t => if k' = k then some v else mapLookup t k

/-- Insert-or-assign (`map::operator[] = `), keeping the sorted order. -/
def mapInsert (m : DBObjectMap) (k : DBObjectKey) (v : DBObject) : DBObjectMap :=
  match m with
  | [] => [(k, v)]
  | (k', v') :: t =>
    if k' = k then (k, v) :: t
    else if DBObjectKey.lt k k' then (k, v) :: (k', v') :: t
    else (k', v') :: mapInsert t k v

/-- Erase by key (`map::erase`). -/
def mapErase (m : DBObjectMap) (k : DBObjectKey) : DBObjectMap :=
  m.filter (fun e => e.1 ≠ k)

/-- One `Grantee` / `Role` object (`Grantee.h`): a `User` has `isUser = true`
and an always-empty `grantees`; the two privilege maps are those of
`Grantee`; `roles` and `grantees` hold the names of the linked nodes. -/
structure GranteeNode where
  name : String
  isUser : Bool
  roles : List String
  grantees : List String
  effectivePrivileges : DBObjectMap
  directPrivileges : DBObjectMap
deriving DecidableEq, Repr

/-- `Grantee::findDbObject`: look the key up in the map selected by
`only_direct`. -/
def GranteeNode.findDbObject (g : GranteeNode) (objectKey : DBObjectKey)
    (only_direct : Bool) : Option DBObject :=
  mapLookup (if only_direct then g.directPrivileges else g.effectivePrivileges)
    objectKey

/-- `hasEnoughPrivs` (file-static in `Grantee.cpp`): all requested bits are
present in the found object, false when nothing was found. -/
def hasEnoughPrivs (real : Option DBObject) (requested : DBObject) : Bool :=
  match real with
  | some r =>
    let req := requested.privs.privileges
    let base := r.privs.privileges
    req == (base &&& req)
  | none => false

/-- `hasAnyPrivs` (file-static in `Grantee.cpp`): the found object has some
bit set; the requested object is ignored. -/
def hasAnyPrivs (real : Option DBObject) (_requested : DBObject) : Bool :=
  match real with
  | some r => r.privs.hasAny
  | none => false

/-- `Grantee::checkPrivileges`: try the exact key, then the key with
`objectId` reset to `-1`, then additionally with `dbId` reset to `-1`. -/
def GranteeNode.checkPrivileges (g : GranteeNode) (objectRequested : DBObject) :
    Bool :=
  let key0 := objectRequested.objectKey
  if hasEnoughPrivs (g.findDbObject key0 false) objectRequested then true
  else
    let key1 := if key0.objectId != -1 then { key0 with objectId := -1 } else key0
    if key0.objectId != -1 &&
        hasEnoughPrivs (g.findDbObject key1 false) objectRequested then true
    else
      let key2 := if key1.dbId != -1 then { key1 with dbId := -1 } else key1
      if key1.dbId != -1 &&
          hasEnoughPrivs (g.findDbObject key2 false) objectRequested then true
      else false

/-- `Grantee::hasAnyPrivileges`: same key widening as `checkPrivileges`, with
`hasAnyPrivs` as the per-key test, on the map chosen by `only_direct`. -/
def GranteeNode.hasAnyPrivileges (g : GranteeNode) (objectRequested : DBObject)
    (only_direct : Bool) : Bool :=
  let key0 := objectRequested.objectKey
  if hasAnyPrivs (g.findDbObject key0 only_direct) objectRequested then true
  else
    let key1 := if key0.objectId != -1 then { key0 with objectId := -1 } else key0
    if key0.objectId != -1 &&
        hasAnyPrivs (g.findDbObject key1 only_direct) objectRequested then true
    else
      let key2 := if key1.dbId != -1 then { key1 with dbId := -1 } else key1
      if key1.dbId != -1 &&
          hasAnyPrivs (g.findDbObject key2 only_direct) objectRequested then true
      else false

/-- The widening sequence of keys that `checkPrivileges` and
`hasAnyPrivileges` probe: exact, `objectId := -1`, then also `dbId := -1`. -/
def wideningKeys (k : DBObjectKey) : List DBObjectKey :=
  [k, { k with objectId := -1 }, { k with objectId := -1, dbId := -1 }]

theorem hasEnoughPrivs_iff (real : Option DBObject) (requested : DBObject) :
    hasEnoughPrivs real requested = true ↔
      ∃ o, real = some o ∧
        o.privs.privileges &&& requested.privs.privileges =
          requested.privs.privileges := by
  cases real with
  | none => simp [hasEnoughPrivs]
  | some r =>
    simp only [hasEnoughPrivs, Option.some.injEq, beq_iff_eq]
    constructor
    · intro h
      exact ⟨r, rfl, h.symm⟩
    · rintro ⟨o, rfl, h⟩
      exact h.symm

theorem hasAnyPrivs_iff (real : Option DBObject) (requested : DBObject) :
    hasAnyPrivs real requested = true ↔
      ∃ o, real = some o ∧ o.privs.privileges ≠ 0 := by
  cases real with
  | none => simp [hasAnyPrivs]
  | some r => simp [hasAnyPrivs, AccessPrivileges.hasAny]

theorem widening_collapse_objectId (k : DBObjectKey) (h : k.objectId = -1) :
    ({ k with objectId := -1 } : DBObjectKey) = k := by
  cases k
  simp_all

theorem widening_collapse_dbId (k : DBObjectKey) (h : k.dbId = -1) :
    ({ k with objectId := -1, dbId := -1 } : DBObjectKey)
      = { k with objectId := -1 } := by
  cases k
  simp_all

theorem checkPrivileges_eq_or (g : GranteeNode) (req : DBObject) :
    g.checkPrivileges req =
      (hasEnoughPrivs (g.findDbObject req.objectKey false) req ||
        hasEnoughPrivs
          (g.findDbObject { req.objectKey with objectId := -1 } false) req ||
        hasEnoughPrivs
          (g.findDbObject { req.objectKey with objectId := -1, dbId := -1 }
            false) req) := by
  obtain ⟨⟨p, d, oid⟩, nm, ow, pr⟩ := req
  unfold GranteeNode.checkPrivileges
  by_cases h1 : oid = -1 <;> by_cases h2 : d = -1
  · subst h1; subst h2
    cases hE : hasEnoughPrivs
        (g.findDbObject ⟨p, -1, -1⟩ false) ⟨⟨p, -1, -1⟩, nm, ow, pr⟩ <;>
      simp [hE]
  · subst h1
    cases hE : hasEnoughPrivs
        (g.findDbObject ⟨p, d, -1⟩ false) ⟨⟨p, d, -1⟩, nm, ow, pr⟩ <;>
      simp [hE, h2]
  · subst h2
    cases hE0 : hasEnoughPrivs
        (g.findDbObject ⟨p, -1, oid⟩ false) ⟨⟨p, -1, oid⟩, nm, ow, pr⟩ <;>
      cases hE1 : hasEnoughPrivs
        (g.findDbObject ⟨p, -1, -1⟩ false) ⟨⟨p, -1, oid⟩, nm, ow, pr⟩ <;>
      simp [hE0, hE1, h1]
  · cases hE0 : hasEnoughPrivs
        (g.findDbObject ⟨p, d, oid⟩ false) ⟨⟨p, d, oid⟩, nm, ow, pr⟩ <;>
      cases hE1 : hasEnoughPrivs
        (g.findDbObject ⟨p, d, -1⟩ false) ⟨⟨p, d, oid⟩, nm, ow, pr⟩ <;>
      cases hE2 : hasEnoughPrivs
        (g.findDbObject ⟨p, -1, -1⟩ false) ⟨⟨p, d, oid⟩, nm, ow, pr⟩ <;>
      simp [hE0, hE1, hE2, h1, h2]

/-- C1: `checkPrivileges` returns true iff the requested bitset is contained
in the effective-privileges entry at some key of the widening sequence
(exact key, then `objectId := -1`, then additionally `dbId := -1`); in
particular an entry at the database-wide key `(perm, dbId, -1)` containing
the requested bits makes a request on any specific object of that database
succeed. -/
theorem checkPrivileges_widening (g : GranteeNode) (req : DBObject) :
    (g.checkPrivileges req = true ↔
      ∃ k ∈ wideningKeys req.objectKey, ∃ o,
        g.findDbObject k false = some o ∧
          o.privs.privileges &&& req.privs.privileges =
            req.privs.privileges) ∧
    (∀ o, g.findDbObject { req.objectKey with objectId := -1 } false = some o →
      o.privs.privileges &&& req.privs.privileges = req.privs.privileges →
      g.checkPrivileges req = true) := by
  have main : g.checkPrivileges req = true ↔
      ∃ k ∈ wideningKeys req.objectKey, ∃ o,
        g.findDbObject k false = some o ∧
          o.privs.privileges &&& req.privs.privileges =
            req.privs.privileges := by
    rw [checkPrivileges_eq_or]
    simp only [wideningKeys, List.mem_cons, List.not_mem_nil, or_false,
      exists_eq_or_imp, exists_eq_left, Bool.or_eq_true, hasEnoughPrivs_iff]
    exact or_assoc
  refine ⟨main, fun o ho hbits => ?_⟩
  exact main.mpr ⟨{ req.objectKey with objectId := -1 }, by simp [wideningKeys],
    o, ho, hbits⟩

theorem hasAnyPrivileges_eq_or (g : GranteeNode) (req : DBObject)
    (od : Bool) :
    g.hasAnyPrivileges req od =
      (hasAnyPrivs (g.findDbObject req.objectKey od) req ||
        hasAnyPrivs
          (g.findDbObject { req.objectKey with objectId := -1 } od) req ||
        hasAnyPrivs
          (g.findDbObject { req.objectKey with objectId := -1, dbId := -1 }
            od) req) := by
  obtain ⟨⟨p, d, oid⟩, nm, ow, pr⟩ := req
  unfold GranteeNode.hasAnyPrivileges
  by_cases h1 : oid = -1 <;> by_cases h2 : d = -1
  · subst h1; subst h2
    cases hE : hasAnyPrivs
        (g.findDbObject ⟨p, -1, -1⟩ od) ⟨⟨p, -1, -1⟩, nm, ow, pr⟩ <;>
      simp [hE]
  · subst h1
    cases hE : hasAnyPrivs
        (g.findDbObject ⟨p, d, -1⟩ od) ⟨⟨p, d, -1⟩, nm, ow, pr⟩ <;>
      simp [hE, h2]
  · subst h2
    cases hE0 : hasAnyPrivs
        (g.findDbObject ⟨p, -1, oid⟩ od) ⟨⟨p, -1, oid⟩, nm, ow, pr⟩ <;>
      cases hE1 : hasAnyPrivs
        (g.findDbObject ⟨p, -1, -1⟩ od) ⟨⟨p, -1, oid⟩, nm, ow, pr⟩ <;>
      simp [hE0, hE1, h1]
  · cases hE0 : hasAnyPrivs
        (g.findDbObject ⟨p, d, oid⟩ od) ⟨⟨p, d, oid⟩, nm, ow, pr⟩ <;>
      cases hE1 : hasAnyPrivs
        (g.findDbObject ⟨p, d, -1⟩ od) ⟨⟨p, d, oid⟩, nm, ow, pr⟩ <;>
      cases hE2 : hasAnyPrivs
        (g.findDbObject ⟨p, -1, -1⟩ od) ⟨⟨p, d, oid⟩, nm, ow, pr⟩ <;>
      simp [hE0, hE1, hE2, h1, h2]

/-- A grantee holding only the privilege bit `2` (concretely: INSERT) on the
key `(1, 1, 42)`, both directly and effectively. -/
def c2grantee : GranteeNode :=
  { name := "bob", isUser := true, roles := [], grantees := [],
    effectivePrivileges := [(⟨1, 1, 42⟩, ⟨⟨1, 1, 42⟩, "tbl", 0, ⟨2⟩⟩)],
    directPrivileges := [(⟨1, 1, 42⟩, ⟨⟨1, 1, 42⟩, "tbl", 0, ⟨2⟩⟩)] }

/-- A request for the disjoint privilege bit `1` (concretely: SELECT) on the
same key. -/
def c2request : DBObject := ⟨⟨1, 1, 42⟩, "tbl", 0, ⟨1⟩⟩

/-- C2 counterexample: `hasAnyPrivileges` returns true for a request whose
(nonempty) bitset has empty intersection with every entry reachable through
the widening sequence — `hasAnyPrivs` never consults the requested bits, so
the claimed "nonempty intersection" characterisation is false at this
input. -/
theorem hasAnyPrivileges_intersection_false :
    c2request.privs.privileges ≠ 0 ∧
    ¬(c2grantee.hasAnyPrivileges c2request true = true ↔
        ∃ k ∈ wideningKeys c2request.objectKey, ∃ o,
          c2grantee.findDbObject k true = some o ∧
            o.privs.privileges &&& c2request.privs.privileges ≠ 0) := by
  refine ⟨by decide, fun h => ?_⟩
  have hL : c2grantee.hasAnyPrivileges c2request true = true := by decide
  obtain ⟨k, hk, o, ho, hne⟩ := h.mp hL
  have hk' : k = (⟨1, 1, 42⟩ : DBObjectKey) ∨ k = (⟨1, 1, -1⟩ : DBObjectKey) ∨
      k = (⟨1, -1, -1⟩ : DBObjectKey) := by
    simpa [wideningKeys, c2request] using hk
  rcases hk' with rfl | rfl | rfl
  · have : o = (⟨⟨1, 1, 42⟩, "tbl", 0, ⟨2⟩⟩ : DBObject) := by
      simpa [c2grantee, GranteeNode.findDbObject, mapLookup] using ho.symm
    subst this
    exact hne (by decide)
  · simp [c2grantee, GranteeNode.findDbObject, mapLookup] at ho
  · simp [c2grantee, GranteeNode.findDbObject, mapLookup] at ho

/-- C2 amended: for a request with a nonempty privilege set,
`hasAnyPrivileges` returns true iff the map selected by `only_direct` holds,
at some key of the widening sequence, an entry whose own privilege bitset is
nonempty (the requested bits are only used to build the keys, never
intersected). -/
theorem hasAnyPrivileges_widening (g : GranteeNode) (req : DBObject)
    (od : Bool) (hreq : req.privs.privileges ≠ 0) :
    g.hasAnyPrivileges req od = true ↔
      ∃ k ∈ wideningKeys req.objectKey, ∃ o,
        g.findDbObject k od = some o ∧ o.privs.privileges ≠ 0 := by
  rw [hasAnyPrivileges_eq_or]
  simp only [wideningKeys, List.mem_cons, List.not_mem_nil, or_false,
    exists_eq_or_imp, exists_eq_left, Bool.or_eq_true, hasAnyPrivs_iff]
  exact or_assoc

/-- C2 witness: the amended characterisation applied to the concrete grantee
`c2grantee`. -/
theorem hasAnyPrivileges_widening_witness :
    c2grantee.hasAnyPrivileges c2request true = true ↔
      ∃ k ∈ wideningKeys c2request.objectKey, ∃ o,
        c2grantee.findDbObject k true = some o ∧ o.privs.privileges ≠ 0 :=
  hasAnyPrivileges_widening c2grantee c2request true (by decide)

/-! ### Catalog lock guards (`read_lock` / `write_lock`, RW_LOCKS_H) -/

/-- The lock-relevant state of one catalog object: the owner fields consulted
by the guards and an abstraction of `sharedMutex_` (how many shared holders,
whether an exclusive holder exists). A `none` owner is the
default-constructed `std::thread::id` (`no_thread`). -/
structure CatalogLockState where
  thread_holding_write_lock : Option Nat
  sharedMutexSharedCount : Nat
  sharedMutexExclusive : Bool
deriving DecidableEq, Repr

/-- Result of running a guard constructor: the `holds_lock` flag of the
guard, the catalog state afterwards, and the new value of the thread-local
`thread_holds_read_lock` flag of the constructing thread. -/
structure LockOutcome where
  holds_lock : Bool
  cat : CatalogLockState
  tlsReadFlag : Bool
deriving DecidableEq, Repr

/-- `read_lock::lock_catalog` (run by the constructor): acquire
`sharedMutex_` shared and set the thread-local flag only when this thread
neither holds the catalog write lock nor already holds a read lock. -/
def readLockConstruct (cat : CatalogLockState) (tlsReadFlag : Bool)
    (tid : Nat) : LockOutcome :=
  if cat.thread_holding_write_lock ≠ some tid ∧ tlsReadFlag = false then
    { holds_lock := true,
      cat := { cat with
        sharedMutexSharedCount := cat.sharedMutexSharedCount + 1 },
      tlsReadFlag := true }
  else
    { holds_lock := false, cat := cat, tlsReadFlag := tlsReadFlag }

/-- `write_lock::lock_catalog` (run by the constructor): acquire
`sharedMutex_` exclusively and record this thread as the holder unless this
thread already holds the write lock. The thread-local read flag is not
consulted or changed. -/
def writeLockConstruct (cat : CatalogLockState) (tlsReadFlag : Bool)
    (tid : Nat) : LockOutcome :=
  if cat.thread_holding_write_lock ≠ some tid then
    { holds_lock := true,
      cat := { cat with
        sharedMutexExclusive := true,
        thread_holding_write_lock := some tid },
      tlsReadFlag := tlsReadFlag }
  else
    { holds_lock := false, cat := cat, tlsReadFlag := tlsReadFlag }

/-- C8: a `read_lock` constructor acquires the shared mutex in shared mode
iff the thread neither holds the catalog write lock nor has its thread-local
read flag set, and is a no-op otherwise; a `write_lock` constructor acquires
exclusively iff the thread does not already hold the write lock, recording
the holder thread id on the catalog when it does, and is a no-op
otherwise. -/
theorem lock_guard_construction (cat : CatalogLockState) (tls : Bool)
    (tid : Nat) :
    (((readLockConstruct cat tls tid).holds_lock = true ↔
        cat.thread_holding_write_lock ≠ some tid ∧ tls = false) ∧
      ((readLockConstruct cat tls tid).holds_lock = true →
        (readLockConstruct cat tls tid).cat.sharedMutexSharedCount =
            cat.sharedMutexSharedCount + 1 ∧
          (readLockConstruct cat tls tid).cat.sharedMutexExclusive =
            cat.sharedMutexExclusive ∧
          (readLockConstruct cat tls tid).cat.thread_holding_write_lock =
            cat.thread_holding_write_lock ∧
          (readLockConstruct cat tls tid).tlsReadFlag = true) ∧
      ((readLockConstruct cat tls tid).holds_lock = false →
        readLockConstruct cat tls tid =
          { holds_lock := false, cat := cat, tlsReadFlag := tls })) ∧
    (((writeLockConstruct cat tls tid).holds_lock = true ↔
        cat.thread_holding_write_lock ≠ some tid) ∧
      ((writeLockConstruct cat tls tid).holds_lock = true →
        (writeLockConstruct cat tls tid).cat.sharedMutexExclusive = true ∧
          (writeLockConstruct cat tls tid).cat.thread_holding_write_lock =
            some tid ∧
          (writeLockConstruct cat tls tid).cat.sharedMutexSharedCount =
            cat.sharedMutexSharedCount ∧
          (writeLockConstruct cat tls tid).tlsReadFlag = tls) ∧
      ((writeLockConstruct cat tls tid).holds_lock = false →
        writeLockConstruct cat tls tid =
          { holds_lock := false, cat := cat, tlsReadFlag := tls })) := by
  unfold readLockConstruct writeLockConstruct
  by_cases hw : cat.thread_holding_write_lock = some tid <;>
    by_cases ht : tls = false <;>
      simp [hw, ht]

/-! ### `ProcMeminfoParser` (`DataMgr/DataMgr.h`) -/

/-- Modelled from the spec: the `split(str, delim, maxsplit=1)` helper from
`Shared/StringTransform` (not under `src/`) as used on `":"`: cut the line at
the first colon; a line without a colon yields a single piece, which the
parser's `CHECK(nv.size() == 2)` rejects. -/
def splitOnceColon : List Char → Option (List Char × List Char)
  | [] => none
  | c :: t =>
    if c = ':' then some ([], t)
    else match splitOnceColon t with
      | none => none
      | some (a, b) => some (c :: a, b)

/-- Modelled from the spec: the `strip` helper from `Shared/StringTransform`
(not under `src/`): remove leading and trailing whitespace. -/
def strip (l : List Char) : List Char :=
  ((l.dropWhile Char.isWhitespace).reverse.dropWhile Char.isWhitespace).reverse

/-- Modelled from the spec: the `to_lower` helper from
`Shared/StringTransform` (not under `src/`): lowercase every character. -/
def toLowerChars (l : List Char) : List Char :=
  l.map Char.toLower

/-- Modelled from the spec: the whitespace `split` helper from
`Shared/StringTransform` (not under `src/`): split on whitespace runs,
dropping empty pieces. `acc` carries the characters of the current piece in
reverse. -/
def splitWSGo (acc : List Char) : List Char → List (List Char)
  | [] => if acc = [] then [] else [acc.reverse]
  | c :: t =>
    if c.isWhitespace then
      if acc = [] then splitWSGo [] t else acc.reverse :: splitWSGo [] t
    else splitWSGo (c :: acc) t

/-- Split on whitespace runs, dropping empty pieces. -/
def splitWS (l : List Char) : List (List Char) :=
  splitWSGo [] l

/-- `std::atoll` on the pieces the parser feeds it: accumulate leading
decimal digits, stopping at the first non-digit. -/
def atoll (l : List Char) : Nat :=
  go 0 l
where
  go (acc : Nat) : List Char → Nat
    | [] => acc
    | c :: t => if c.isDigit then go (10 * acc + (c.toNat - 48)) t else acc

/-- The number a digit string denotes, written independently of `atoll`. -/
def decimalValue (l : List Char) : Nat :=
  l.foldl (fun acc c => 10 * acc + (c.toNat - 48)) 0

/-- One line of the `ProcMeminfoParser` constructor loop: split at the first
colon (`CHECK` rejects colon-free lines), strip the name, strip and
lowercase the value, split the value on whitespace, `CHECK` one or two
pieces, read the number, and multiply by 1024 when the second piece is
`kb`; `none` is a `CHECK` failure. -/
def procMeminfoParseLine (line : List Char) : Option (List Char × Nat) :=
  match splitOnceColon line with
  | none => none
  | some (n, rest) =>
    let name := strip n
    let value := toLowerChars (strip rest)
    match splitWS value with
    | [v0] => some (name, atoll v0)
    | [v0, v1] => if v1 = ['k', 'b'] then some (name, atoll v0 * 1024) else none
    | _ => none

/-- The whole constructor loop of `ProcMeminfoParser` over the
newline-separated lines: skip empty lines, parse each, store
`items_[name] = value` (later lines overwrite earlier ones). -/
def procMeminfoParser (lines : List (List Char)) :
    Option (List (List Char × Nat)) :=
  go lines []
where
  insertItem (items : List (List Char × Nat)) (name : List Char) (v : Nat) :
      List (List Char × Nat) :=
    match items with
    | [] => [(name, v)]
    | (n, w) :: t =>
      if n = name then (name, v) :: t else (n, w) :: insertItem t name v
  go : List (List Char) → List (List Char × Nat) →
      Option (List (List Char × Nat))
    | [], items => some items
    | line :: t, items =>
      if line = [] then go t items
      else match procMeminfoParseLine line with
        | none => none
        | some (name, v) => go t (insertItem items name v)

theorem splitOnceColon_append (name rest : List Char) (h : ':' ∉ name) :
    splitOnceColon (name ++ ':' :: rest) = some (name, rest) := by
  induction name with
  | nil => simp [splitOnceColon]
  | cons c t ih =>
    have hc : ¬c = ':' := fun hc => h (hc ▸ List.mem_cons_self c t)
    have ht : ':' ∉ t := fun hm => h (List.mem_cons_of_mem c hm)
    simp [splitOnceColon, hc, ih ht]

theorem dropWhile_eq_self_of_not (p : Char → Bool) (l : List Char)
    (h : ∀ c ∈ l, p c = false) : l.dropWhile p = l := by
  cases l with
  | nil => rfl
  | cons c t => simp [List.dropWhile_cons, h c (List.mem_cons_self c t)]

theorem strip_eq_self (l : List Char)
    (h : ∀ c ∈ l, c.isWhitespace = false) : strip l = l := by
  unfold strip
  rw [dropWhile_eq_self_of_not _ _ h,
    dropWhile_eq_self_of_not _ _ (fun c hc => h c (List.mem_reverse.mp hc)),
    List.reverse_reverse]

/-- The ten decimal digit characters. -/
def digitChars : List Char :=
  ['0', '1', '2', '3', '4', '5', '6', '7', '8', '9']

theorem digitChars_facts : ∀ c ∈ digitChars,
    c.isWhitespace = false ∧ c.toLower = c ∧ c.isDigit = true ∧ c ≠ ':' := by
  decide

theorem splitWSGo_nonws (a : List Char) (acc rest : List Char)
    (h : ∀ c ∈ a, c.isWhitespace = false) :
    splitWSGo acc (a ++ rest) = splitWSGo (a.reverse ++ acc) rest := by
  induction a generalizing acc with
  | nil => rfl
  | cons c t ih =>
    rw [List.cons_append, splitWSGo]
    simp only [h c (List.mem_cons_self c t), Bool.false_eq_true, if_false]
    rw [ih _ (fun d hd => h d (List.mem_cons_of_mem c hd))]
    simp

theorem strip_space_plain (a : List Char)
    (h : ∀ c ∈ a, c.isWhitespace = false) : strip (' ' :: a) = a := by
  unfold strip
  rw [List.dropWhile_cons]
  simp only [show (' ' : Char).isWhitespace = true by decide, if_true]
  rw [dropWhile_eq_self_of_not _ _ h,
    dropWhile_eq_self_of_not _ _ (fun c hc => h c (List.mem_reverse.mp hc)),
    List.reverse_reverse]

theorem strip_space_kb (a : List Char) (ha : a ≠ [])
    (h : ∀ c ∈ a, c.isWhitespace = false) :
    strip (' ' :: (a ++ [' ', 'k', 'B'])) = a ++ [' ', 'k', 'B'] := by
  unfold strip
  rw [List.dropWhile_cons]
  simp only [show (' ' : Char).isWhitespace = true by decide, if_true]
  obtain ⟨c, t, rfl⟩ := List.exists_cons_of_ne_nil ha
  rw [List.cons_append, List.dropWhile_cons]
  simp only [h c (List.mem_cons_self c t), Bool.false_eq_true, if_false]
  have hrev : (c :: (t ++ [' ', 'k', 'B'])).reverse =
      'B' :: 'k' :: ' ' :: (c :: t).reverse := by
    simp
  rw [hrev, List.dropWhile_cons]
  simp only [show ('B' : Char).isWhitespace = false by decide,
    Bool.false_eq_true, if_false]
  rw [← hrev, List.reverse_reverse]

theorem toLowerChars_digits (a : List Char) (h : ∀ c ∈ a, c ∈ digitChars) :
    toLowerChars a = a := by
  unfold toLowerChars
  induction a with
  | nil => rfl
  | cons c t ih =>
    have hc := (digitChars_facts c (h c (List.mem_cons_self c t))).2.1
    simp [hc, ih fun d hd => h d (List.mem_cons_of_mem c hd)]

theorem splitWS_single (a : List Char) (ha : a ≠ [])
    (h : ∀ c ∈ a, c.isWhitespace = false) : splitWS a = [a] := by
  unfold splitWS
  rw [show a = a ++ [] by simp, splitWSGo_nonws a [] [] h]
  simp only [List.append_nil, splitWSGo]
  simp [ha]

theorem splitWS_kb (a : List Char) (ha : a ≠ [])
    (h : ∀ c ∈ a, c.isWhitespace = false) :
    splitWS (a ++ [' ', 'k', 'b']) = [a, ['k', 'b']] := by
  unfold splitWS
  rw [splitWSGo_nonws a [] [' ', 'k', 'b'] h]
  rw [splitWSGo]
  simp only [show (' ' : Char).isWhitespace = true by decide, if_true,
    List.append_nil]
  have hane : a.reverse ≠ [] := by simpa using ha
  simp only [hane, if_false]
  have : splitWSGo [] ['k', 'b'] = [['k', 'b']] := by decide
  rw [this, List.reverse_reverse]

theorem atoll_eq_decimalValue (a : List Char)
    (h : ∀ c ∈ a, c ∈ digitChars) : atoll a = decimalValue a := by
  unfold atoll decimalValue
  suffices H : ∀ acc, atoll.go acc a =
      a.foldl (fun acc c => 10 * acc + (c.toNat - 48)) acc from H 0
  induction a with
  | nil => intro acc; rfl
  | cons c t ih =>
    intro acc
    have hc := (digitChars_facts c (h c (List.mem_cons_self c t))).2.2.1
    rw [atoll.go, List.foldl_cons]
    simp only [hc, if_true]
    exact ih (fun d hd => h d (List.mem_cons_of_mem c hd)) _

/-- `items_[name]` read access on the parsed items. -/
def lookupItem (items : List (List Char × Nat)) (name : List Char) :
    Option Nat :=
  match items with
  | [] => none
  | (n, v) :: t => if n = name then some v else lookupItem t name

/-- C9: a line `name: value kB` parses to `(name, value * 1024)`, a line
`name: value` without a unit parses to `(name, value)`, and a parser run
over an input with an empty line and a `kB` line skips the empty line and
stores the field so that looking it up yields its size in bytes. -/
theorem procMeminfoParser_spec (name ds : List Char)
    (hname : ∀ c ∈ name, c ≠ ':' ∧ c.isWhitespace = false)
    (hds : ds ≠ [] ∧ ∀ c ∈ ds, c ∈ digitChars) :
    procMeminfoParseLine (name ++ ':' :: ' ' :: (ds ++ [' ', 'k', 'B'])) =
      some (name, decimalValue ds * 1024) ∧
    procMeminfoParseLine (name ++ ':' :: ' ' :: ds) =
      some (name, decimalValue ds) ∧
    (procMeminfoParser [[], name ++ ':' :: ' ' :: (ds ++ [' ', 'k', 'B'])] =
        some [(name, decimalValue ds * 1024)] ∧
      lookupItem [(name, decimalValue ds * 1024)] name =
        some (decimalValue ds * 1024)) := by
  obtain ⟨hdsne, hdsd⟩ := hds
  have hncol : ':' ∉ name := fun hm => (hname _ hm).1 rfl
  have hnws : ∀ c ∈ name, c.isWhitespace = false := fun c hc => (hname c hc).2
  have hdws : ∀ c ∈ ds, c.isWhitespace = false := fun c hc =>
    (digitChars_facts c (hdsd c hc)).1
  have hkb : procMeminfoParseLine
      (name ++ ':' :: ' ' :: (ds ++ [' ', 'k', 'B'])) =
      some (name, decimalValue ds * 1024) := by
    unfold procMeminfoParseLine
    rw [splitOnceColon_append _ _ hncol]
    simp only
    rw [strip_eq_self _ hnws, strip_space_kb _ hdsne hdws]
    unfold toLowerChars
    rw [List.map_append, show List.map Char.toLower [' ', 'k', 'B'] =
      [' ', 'k', 'b'] from by decide]
    have : List.map Char.toLower ds = ds := toLowerChars_digits ds hdsd
    rw [this, show ds ++ [' ', 'k', 'b'] = ds ++ [' ', 'k', 'b'] from rfl,
      splitWS_kb _ hdsne hdws]
    simp [atoll_eq_decimalValue _ hdsd]
  have hplain : procMeminfoParseLine (name ++ ':' :: ' ' :: ds) =
      some (name, decimalValue ds) := by
    unfold procMeminfoParseLine
    rw [splitOnceColon_append _ _ hncol]
    simp only
    rw [strip_eq_self _ hnws, strip_space_plain _ hdws]
    unfold toLowerChars
    rw [show List.map Char.toLower ds = ds from toLowerChars_digits ds hdsd,
      splitWS_single _ hdsne hdws]
    simp [atoll_eq_decimalValue _ hdsd]
  refine ⟨hkb, hplain, ?_, by simp [lookupItem]⟩
  unfold procMeminfoParser
  rw [procMeminfoParser.go, if_pos rfl, procMeminfoParser.go]
  have hne : name ++ ':' :: ' ' :: (ds ++ [' ', 'k', 'B']) ≠ [] := by
    simp
  rw [if_neg hne, hkb]
  rfl

/-- C9 witness: the parser at the concrete line `MemTotal: 1234 kB` (and its
unit-free variant). -/
theorem procMeminfoParser_spec_witness :
    procMeminfoParseLine
        (['M', 'e', 'm', 'T', 'o', 't', 'a', 'l'] ++ ':' :: ' ' ::
          (['1', '2', '3', '4'] ++ [' ', 'k', 'B'])) =
      some (['M', 'e', 'm', 'T', 'o', 't', 'a', 'l'],
        decimalValue ['1', '2', '3', '4'] * 1024) ∧
    procMeminfoParseLine
        (['M', 'e', 'm', 'T', 'o', 't', 'a', 'l'] ++ ':' :: ' ' ::
          ['1', '2', '3', '4']) =
      some (['M', 'e', 'm', 'T', 'o', 't', 'a', 'l'],
        decimalValue ['1', '2', '3', '4']) ∧
    (procMeminfoParser [[], ['M', 'e', 'm', 'T', 'o', 't', 'a', 'l'] ++
          ':' :: ' ' :: (['1', '2', '3', '4'] ++ [' ', 'k', 'B'])] =
        some [(['M', 'e', 'm', 'T', 'o', 't', 'a', 'l'],
          decimalValue ['1', '2', '3', '4'] * 1024)] ∧
      lookupItem [(['M', 'e', 'm', 'T', 'o', 't', 'a', 'l'],
          decimalValue ['1', '2', '3', '4'] * 1024)]
          ['M', 'e', 'm', 'T', 'o', 't', 'a', 'l'] =
        some (decimalValue ['1', '2', '3', '4'] * 1024)) :=
  procMeminfoParser_spec ['M', 'e', 'm', 'T', 'o', 't', 'a', 'l']
    ['1', '2', '3', '4'] (by decide) ⟨by decide, by decide⟩

/-! ### The privilege graph

C++ `Grantee`/`Role` objects linked by raw pointers become nodes of an
explicit state, identified by their unique names; `roles_` and `grantees_`
hold the names of the linked nodes. -/

abbrev GraphState := List GranteeNode

/-- Resolve a name to its node (pointer dereference). -/
def findNode (st : GraphState) (n : String) : Option GranteeNode :=
  match st with
  | [] => none
  | g :: t => if g.name = n then some g else findNode t n

/-- Mutate the node named `n` in place. -/
def updateNode (st : GraphState) (n : String) (f : GranteeNode → GranteeNode) :
    GraphState :=
  match st with
  | [] => []
  | g :: t => if g.name = n then f g :: t else g :: updateNode t n f

/-- Delete the node named `n` (object destruction). -/
def removeNode (st : GraphState) (n : String) : GraphState :=
  st.filter (fun g => g.name ≠ n)

/-- `std::unordered_set` insert on a name set. -/
def insertName (l : List String) (x : String) : List String :=
  if x ∈ l then l else x :: l

/-- `std::set<std::string>` insert: sorted, duplicate-free. -/
def insertStr : List String → String → List String
  | [], x => [x]
  | y :: t, x =>
    if x = y then y :: t
    else if x < y then x :: y :: t
    else y :: insertStr t x

/-- Insert every element of `xs` into the sorted set `l`. -/
def insertAllStr (l : List String) (xs : List String) : List String :=
  xs.foldl insertStr l

/-- The names of the nodes of a state. -/
def nodeNames (st : GraphState) : List String :=
  st.map (fun g => g.name)

/-- The successor names a traversal step reads from node `x`: downstream
(`down = true`, the `grantees_` of a role, as in `checkCycles`; users are
not expanded) or upstream (`down = false`, the `roles_`, as in
`getRoles`). A dangling name has no successors. -/
def succOf (st : GraphState) (down : Bool) (x : String) : List String :=
  match findNode st x with
  | none => []
  | some g => if down then (if g.isUser then [] else g.grantees) else g.roles

/-- An upper bound on the length of any successor list in `st`. -/
def edgeBound (st : GraphState) : Nat :=
  (st.map (fun g => g.roles.length + g.grantees.length)).sum + 1

/-- Fuel that lets the stack walk terminate: every step either pops a
visited name or moves a new name into `visited`, of which there are at most
`(nodeNames st).dedup.length` that have successors. -/
def walkMeasure (st : GraphState) (stack visited : List String) : Nat :=
  (edgeBound st + 1) *
      ((nodeNames st).dedup.filter (fun z => z ∉ visited)).length +
    stack.length

/-- The stack traversal shared by `Grantee::checkCycles` and
`Grantee::getRoles` (`std::stack` loop): pop a name, read its successors,
push them, and record the popped name and its successor names. The C++
loops carry no visited set — on the acyclic graphs they are specified for
this only repeats work — so a visited set is added here for termination;
the visited and collected sets are unchanged by that. Returns
`(visited, collected)` where `collected` is the sorted `std::set` of all
successor names ever pushed. -/
def walkF (st : GraphState) (down : Bool) :
    Nat → List String → List String → List String →
      List String × List String
  | 0, _, visited, acc => (visited, acc)
  | _ + 1, [], visited, acc => (visited, acc)
  | fuel + 1, x :: stack, visited, acc =>
    if x ∈ visited then walkF st down fuel stack visited acc
    else
      walkF st down fuel (succOf st down x ++ stack) (x :: visited)
        (insertAllStr acc (succOf st down x))

/-- One downstream grant edge: `a` is a role and `b` is in `a.grantees_`
(the step `checkCycles` walks). -/
def stepDown (st : GraphState) (a b : String) : Prop :=
  ∃ g, findNode st a = some g ∧ g.isUser = false ∧ b ∈ g.grantees

/-- One upstream role edge: `b` is in `a.roles_` (the step `getRoles`
walks). -/
def stepUp (st : GraphState) (a b : String) : Prop :=
  ∃ g, findNode st a = some g ∧ b ∈ g.roles

/-- `Grantee::checkCycles(newRole)`: walk downstream from `this`; it throws
iff some visited non-user node is `newRole`. -/
def checkCyclesDetect (st : GraphState) (start newRole : String) : Bool :=
  ((walkF st true (walkMeasure st [start] []) [start] [] []).1).any
    (fun x =>
      match findNode st x with
      | some g => !g.isUser && x == newRole
      | none => false)

/-- `Grantee::getRoles(only_direct)`: with `only_direct` the loop breaks
after collecting the roles of the first (initial) node; otherwise it
collects every role name pushed during the full upstream walk. The
collected `std::set<std::string>` is returned in sorted order. -/
def getRolesOp (st : GraphState) (n : String) (only_direct : Bool) :
    List String :=
  if only_direct then insertAllStr [] (succOf st false n)
  else (walkF st false (walkMeasure st [n] []) [n] [] []).2

/-- `Grantee::updatePrivileges(Role*)`: merge the role effective map into
this effective map, ORing into existing entries and inserting copies of
missing ones. -/
def mergeRoleMap (eff roleEff : DBObjectMap) : DBObjectMap :=
  roleEff.foldl
    (fun m kv =>
      match mapLookup m kv.1 with
      | some o => mapInsert m kv.1 (o.updatePrivileges kv.2)
      | none => mapInsert m kv.1 kv.2)
    eff

/-- The direct-privileges pass of `Grantee::updatePrivileges()`: OR each
entry of `l` into the entry of `m` with the same key when one exists; keys
of `l` absent from `m` are skipped. -/
def orIntoExisting (m l : DBObjectMap) : DBObjectMap :=
  l.foldl
    (fun m kv =>
      match mapLookup m kv.1 with
      | some o => mapInsert m kv.1 (o.updatePrivileges kv.2)
      | none => m)
    m

/-- The role pass of `Grantee::updatePrivileges()`: merge the effective map
of every granted role (resolved in `st`), skipping empty ones. -/
def mergeRoles (st : GraphState) (m : DBObjectMap) (roles : List String) :
    DBObjectMap :=
  roles.foldl
    (fun m rname =>
      match findNode st rname with
      | none => m
      | some r =>
        if r.effectivePrivileges.length > 0 then
          mergeRoleMap m r.effectivePrivileges
        else m)
    m

/-- `Grantee::updatePrivileges()` (the non-virtual core): reset every
effective bitset, OR direct privileges into the effective entries that
exist, merge every granted role effective map (roles resolved in `st`),
then purge entries whose bitset ended up empty. -/
def updatePrivilegesLocal (st : GraphState) (g : GranteeNode) : GranteeNode :=
  let eff1 := g.effectivePrivileges.map (fun kv => (kv.1, kv.2.resetPrivileges))
  let eff2 := orIntoExisting eff1 g.directPrivileges
  let eff3 := mergeRoles st eff2 g.roles
  { g with effectivePrivileges := eff3.filter (fun kv => kv.2.privs.hasAny) }

/-- The virtual `updatePrivileges()` call on the node named `n`:
`Grantee::updatePrivileges` recomputes the node; `Role::updatePrivileges`
additionally pushes the recomputation to every downstream grantee. `fuel`
bounds the recursion depth, which the acyclicity invariant bounds by the
number of nodes. -/
def updatePrivilegesProp : Nat → GraphState → String → GraphState
  | 0, st, _ => st
  | fuel + 1, st, n =>
    match findNode st n with
    | none => st
    | some g =>
      let st1 := updateNode st n (fun x => updatePrivilegesLocal st x)
      if g.isUser then st1
      else g.grantees.foldl (fun acc c => updatePrivilegesProp fuel acc c) st1

/-- `Grantee::grantPrivileges(object)`: OR the object bits into the
effective entry (inserting a copy when absent), then into the direct entry
likewise, then recompute and propagate. -/
def grantPrivilegesOp (st : GraphState) (n : String) (object : DBObject) :
    GraphState :=
  match findNode st n with
  | none => st
  | some g =>
    let eff := match mapLookup g.effectivePrivileges object.objectKey with
      | none => mapInsert g.effectivePrivileges object.objectKey object
      | some o =>
        mapInsert g.effectivePrivileges object.objectKey
          (o.grantPrivileges object)
    let dir := match mapLookup g.directPrivileges object.objectKey with
      | none => mapInsert g.directPrivileges object.objectKey object
      | some o =>
        mapInsert g.directPrivileges object.objectKey (o.grantPrivileges object)
    let st1 := updateNode st n
      (fun x => { x with effectivePrivileges := eff, directPrivileges := dir })
    updatePrivilegesProp (st1.length + 1) st1 n

/-- The direct-map half of `Grantee::revokePrivileges`: replace the entry
with the residual object, erasing it when no bit is left. -/
def revokeDirMap (dir : DBObjectMap) (k : DBObjectKey) (newObj : DBObject) :
    DBObjectMap :=
  if newObj.privs.hasAny then mapInsert dir k newObj else mapErase dir k

/-- The cached-effective half of `Grantee::revokePrivileges`: when a
nonempty cached entry exists, clear the object bits from it and erase it if
it empties. -/
def revokeEffMap (eff : DBObjectMap) (k : DBObjectKey) (object : DBObject) :
    DBObjectMap :=
  match mapLookup eff k with
  | some cached =>
    if cached.privs.hasAny then
      if (cached.revokePrivileges object).privs.hasAny then
        mapInsert eff k (cached.revokePrivileges object)
      else mapErase eff k
    else eff
  | none => eff

/-- `Grantee::revokePrivileges(object)`: throw when the direct entry is
absent or has no bit set; otherwise clear the object bits from the direct
entry (erasing it when it empties, in which case the null sentinel is
returned), clear them from the cached effective entry when it exists and
has bits, then recompute and propagate. The first component is the thrown
message, the second the returned object. -/
def revokePrivilegesOp (st : GraphState) (n : String) (object : DBObject) :
    Option String × Option DBObject × GraphState :=
  match findNode st n with
  | none => (some "no such grantee", none, st)
  | some g =>
    match mapLookup g.directPrivileges object.objectKey with
    | none => (some "Can not revoke privileges", none, st)
    | some dbObject =>
      if dbObject.privs.hasAny = false then
        (some "Can not revoke privileges", none, st)
      else
        let newObj := dbObject.revokePrivileges object
        let st1 := updateNode st n
          (fun x =>
            { x with
              directPrivileges :=
                revokeDirMap g.directPrivileges object.objectKey newObj,
              effectivePrivileges :=
                revokeEffMap g.effectivePrivileges object.objectKey object })
        (none, if newObj.privs.hasAny then some newObj else none,
          updatePrivilegesProp (st1.length + 1) st1 n)

/-- `Grantee::grantRole(role)`: throw when the role is already granted;
throw when `checkCycles` finds `role` downstream of `this`; otherwise
insert the edge on both sides and recompute/propagate. The thrown message
is the first component; the state at throw time is returned alongside. -/
def grantRoleOp (st : GraphState) (gname rname : String) :
    Option String × GraphState :=
  match findNode st gname, findNode st rname with
  | some g, some r =>
    if rname ∈ g.roles then (some "Role have been granted already", st)
    else if checkCyclesDetect st gname rname then
      (some "creates cycle in grantee graph", st)
    else
      let st1 := updateNode st gname
        (fun x => { x with roles := insertName x.roles rname })
      -- Role::addGrantee throws when the grantee is already present
      if gname ∈ r.grantees then (some "addGrantee: granted already", st1)
      else
        let st2 := updateNode st1 rname
          (fun x => { x with grantees := insertName x.grantees gname })
        (none, updatePrivilegesProp (st2.length + 1) st2 gname)
  | _, _ => (some "no such node", st)

/-- `Grantee::revokeRole(role)`: erase the role from `roles_` (a no-op when
absent), then `Role::removeGrantee` (which throws when the back edge is
missing), then recompute/propagate. -/
def revokeRoleOp (st : GraphState) (gname rname : String) :
    Option String × GraphState :=
  match findNode st gname, findNode st rname with
  | some _, some r =>
    let st1 := updateNode st gname
      (fun x => { x with roles := x.roles.filter (fun z => z ≠ rname) })
    if gname ∈ r.grantees then
      let st2 := updateNode st1 rname
        (fun x => { x with grantees := x.grantees.filter (fun z => z ≠ gname) })
      (none, updatePrivilegesProp (st2.length + 1) st2 gname)
    else (some "removeGrantee: have not been granted", st1)
  | _, _ => (some "no such node", st)

/-- `Grantee::~Grantee` for a user: remove this node from the `grantees_`
of every role it belongs to, then drop the node (its maps clear with
it). -/
def destroyGranteeOp (st : GraphState) (n : String) : GraphState :=
  match findNode st n with
  | none => st
  | some g =>
    let st1 := g.roles.foldl
      (fun acc rname => updateNode acc rname
        (fun x => { x with grantees := x.grantees.filter (fun z => z ≠ n) }))
      st
    removeNode st1 n

/-- `Role::~Role` followed by `Grantee::~Grantee`: every downstream grantee
revokes this role (detaching both sides and recomputing it), then the node
detaches from its own parent roles and is dropped. -/
def destroyRoleOp (st : GraphState) (n : String) : GraphState :=
  match findNode st n with
  | none => st
  | some r =>
    let st1 := r.grantees.foldl (fun acc gname => (revokeRoleOp acc gname n).2)
      st
    let st2 := r.roles.foldl
      (fun acc pname => updateNode acc pname
        (fun x => { x with grantees := x.grantees.filter (fun z => z ≠ n) }))
      st1
    removeNode st2 n

/-- `Grantee::revokeAllOnDatabase` / `Role::revokeAllOnDatabase`: drop the
entries of both maps whose key is on `dbId`, recompute and propagate, and
for a role recurse into every downstream grantee. -/
def revokeAllOnDbOp : Nat → GraphState → String → Int → GraphState
  | 0, st, _, _ => st
  | fuel + 1, st, n, dbId =>
    match findNode st n with
    | none => st
    | some g =>
      let st1 := updateNode st n
        (fun x =>
          { x with
            effectivePrivileges :=
              x.effectivePrivileges.filter (fun kv => kv.1.dbId ≠ dbId),
            directPrivileges :=
              x.directPrivileges.filter (fun kv => kv.1.dbId ≠ dbId) })
      let st2 := updatePrivilegesProp (st1.length + 1) st1 n
      if g.isUser then st2
      else g.grantees.foldl (fun acc c => revokeAllOnDbOp fuel acc c dbId) st2

/-! ### Association-list map lemmas -/

theorem mapLookup_insert (m : DBObjectMap) (k : DBObjectKey) (v : DBObject)
    (k' : DBObjectKey) :
    mapLookup (mapInsert m k v) k' = if k = k' then some v else mapLookup m k' := by
  induction m with
  | nil =>
    by_cases h : k = k' <;> simp [mapInsert, mapLookup, h]
  | cons e t ih =>
    obtain ⟨ke, ve⟩ := e
    by_cases hek : ke = k
    · subst hek
      rw [mapInsert, if_pos rfl]
      by_cases h : ke = k' <;> simp [mapLookup, h]
    · rw [mapInsert]
      simp only [hek, if_false]
      by_cases hlt : DBObjectKey.lt k ke
      · rw [if_pos hlt, mapLookup]
      · rw [if_neg hlt, mapLookup, ih]
        by_cases hek' : ke = k'
        · subst hek'
          rw [if_pos rfl, if_neg (fun h => hek h.symm), mapLookup, if_pos rfl]
        · rw [if_neg hek']
          by_cases hkk : k = k'
          · rw [if_pos hkk, if_pos hkk]
          · rw [if_neg hkk, if_neg hkk, mapLookup, if_neg hek']

theorem mapLookup_none_not_mem (m : DBObjectMap) (k : DBObjectKey)
    (h : mapLookup m k = none) : ∀ e ∈ m, e.1 ≠ k := by
  induction m with
  | nil => simp
  | cons e t ih =>
    rw [mapLookup] at h
    by_cases he : e.1 = k
    · simp [he] at h
    · simp only [he, if_false] at h
      intro e' he'
      rcases List.mem_cons.mp he' with rfl | hm
      · exact he
      · exact ih h e' hm

theorem mapErase_of_lookup_none (m : DBObjectMap) (k : DBObjectKey)
    (h : mapLookup m k = none) : mapErase m k = m := by
  unfold mapErase
  apply List.filter_eq_self.mpr
  intro e he
  simpa using mapLookup_none_not_mem m k h e he

theorem mapErase_insert (m : DBObjectMap) (k : DBObjectKey) (v : DBObject) :
    mapErase (mapInsert m k v) k = mapErase m k := by
  induction m with
  | nil => simp [mapInsert, mapErase]
  | cons e t ih =>
    obtain ⟨ke, ve⟩ := e
    by_cases hek : ke = k
    · subst hek
      simp [mapInsert, mapErase]
    · rw [mapInsert]
      simp only [hek, if_false]
      by_cases hlt : DBObjectKey.lt k ke <;>
        simp_all [mapErase, List.filter_cons, hek]

theorem mapLookup_erase (m : DBObjectMap) (k k' : DBObjectKey) :
    mapLookup (mapErase m k) k' =
      if k = k' then none else mapLookup m k' := by
  induction m with
  | nil => by_cases h : k = k' <;> simp [mapErase, mapLookup, h]
  | cons e t ih =>
    obtain ⟨ke, ve⟩ := e
    rw [mapErase, List.filter_cons]
    rw [mapErase] at ih
    by_cases hek : ke = k
    · rw [if_neg (by simp [hek] : ¬(decide ((ke, ve).1 ≠ k)) = true), ih]
      by_cases h : k = k'
      · rw [if_pos h, if_pos h]
      · rw [if_neg h, if_neg h, mapLookup,
          if_neg (fun hh => h (hek.symm.trans hh))]
    · rw [if_pos (by simp [hek] : (decide ((ke, ve).1 ≠ k)) = true),
        mapLookup, ih]
      by_cases hek' : ke = k'
      · rw [if_pos hek', if_neg (fun hh => hek (hek'.trans hh.symm)),
          mapLookup, if_pos hek']
      · rw [if_neg hek']
        by_cases hkk : k = k'
        · rw [if_pos hkk, if_pos hkk]
        · rw [if_neg hkk, if_neg hkk, mapLookup, if_neg hek']

/-- The keys of a map. -/
def mapKeys (m : DBObjectMap) : List DBObjectKey :=
  m.map (fun e => e.1)

theorem mapLookup_isSome_iff (m : DBObjectMap) (k : DBObjectKey) :
    (mapLookup m k).isSome = true ↔ k ∈ mapKeys m := by
  induction m with
  | nil => simp [mapLookup, mapKeys]
  | cons e t ih =>
    rw [mapLookup]
    by_cases he : e.1 = k
    · simp [mapKeys, he.symm]
    · rw [if_neg he]
      simp only [mapKeys, List.map_cons, List.mem_cons]
      rw [← mapKeys]
      constructor
      · intro h
        exact Or.inr (ih.mp h)
      · rintro (h | h)
        · exact absurd h.symm he
        · exact ih.mpr h

theorem mapKeys_insert (m : DBObjectMap) (k : DBObjectKey) (v : DBObject)
    (k' : DBObjectKey) : k' ∈ mapKeys (mapInsert m k v) ↔
      k' = k ∨ k' ∈ mapKeys m := by
  induction m with
  | nil => simp [mapInsert, mapKeys]
  | cons e t ih =>
    obtain ⟨ke, ve⟩ := e
    by_cases hek : ke = k
    · subst hek
      rw [mapInsert, if_pos rfl]
      simp only [mapKeys, List.map_cons, List.mem_cons]
      tauto
    · rw [mapInsert]
      simp only [hek, if_false]
      by_cases hlt : DBObjectKey.lt k ke
      · rw [if_pos hlt]
        simp only [mapKeys, List.map_cons, List.mem_cons]
        try tauto
      · rw [if_neg hlt]
        simp only [mapKeys, List.map_cons, List.mem_cons] at *
        rw [ih]
        tauto

/-! ### Bit-level characterisation of the recompute pipeline -/

/-- The privilege bits a map holds at a key (0 when absent). -/
def lookupBits (m : DBObjectMap) (k : DBObjectKey) : Nat :=
  match mapLookup m k with
  | some o => o.privs.privileges
  | none => 0

/-- The direct bits of a node at a key. -/
def dirBits (g : GranteeNode) (k : DBObjectKey) : Nat :=
  lookupBits g.directPrivileges k

/-- The effective bits of a node at a key. -/
def effBits (g : GranteeNode) (k : DBObjectKey) : Nat :=
  lookupBits g.effectivePrivileges k

/-- The union of the effective bits of the named roles at a key. -/
def roleBits (st : GraphState) (roles : List String) (k : DBObjectKey) : Nat :=
  roles.foldr
    (fun rn a =>
      (match findNode st rn with
        | some r => effBits r k
        | none => 0) ||| a)
    0

/-- The union of the bits of every entry of `m` with key `k`. -/
def orBitsAll (m : DBObjectMap) (k : DBObjectKey) : Nat :=
  m.foldr (fun kv a => if kv.1 = k then kv.2.privs.privileges ||| a else a) 0

theorem orBitsAll_eq_lookupBits (m : DBObjectMap) (k : DBObjectKey)
    (h : (mapKeys m).Nodup) : orBitsAll m k = lookupBits m k := by
  induction m with
  | nil => rfl
  | cons kv t ih =>
    simp only [mapKeys, List.map_cons, List.nodup_cons] at h
    rw [orBitsAll, List.foldr_cons, lookupBits, mapLookup]
    by_cases hk : kv.1 = k
    · rw [if_pos hk, if_pos hk]
      have : orBitsAll t k = 0 := by
        have : mapLookup t k = none := by
          cases hl : mapLookup t k with
          | none => rfl
          | some o =>
            exfalso
            have : k ∈ mapKeys t := by
              rw [← mapLookup_isSome_iff, hl]
              rfl
            exact h.1 (hk ▸ this)
        have h2 := ih h.2
        rw [lookupBits, this] at h2
        unfold orBitsAll at h2
        exact h2
      unfold orBitsAll at this
      rw [this]
      simp
    · rw [if_neg hk, if_neg hk]
      have h2 := ih h.2
      rw [lookupBits] at h2
      unfold orBitsAll at h2
      exact h2

theorem mapLookup_map_reset (m : DBObjectMap) (k : DBObjectKey) :
    mapLookup (m.map (fun kv => (kv.1, kv.2.resetPrivileges))) k =
      (mapLookup m k).map (fun o => o.resetPrivileges) := by
  induction m with
  | nil => rfl
  | cons kv t ih =>
    rw [List.map_cons, mapLookup, mapLookup]
    by_cases hk : kv.1 = k
    · rw [if_pos hk, if_pos hk]
      rfl
    · rw [if_neg hk, if_neg hk, ih]

theorem mapKeys_map_values (m : DBObjectMap)
    (f : DBObjectKey × DBObject → DBObject) :
    mapKeys (m.map (fun kv => (kv.1, f kv))) = mapKeys m := by
  induction m with
  | nil => rfl
  | cons kv t ih =>
    simp only [mapKeys, List.map_cons] at *
    rw [ih]

theorem mapLookup_orIntoExisting (m l : DBObjectMap) (k : DBObjectKey) :
    mapLookup (orIntoExisting m l) k =
      match mapLookup m k with
      | none => none
      | some o =>
        some { o with
          privs := ⟨o.privs.privileges ||| orBitsAll l k⟩ } := by
  induction l generalizing m with
  | nil =>
    cases h : mapLookup m k with
    | none => simp [orIntoExisting, h]
    | some o => simp [orIntoExisting, h, orBitsAll]
  | cons kv t ih =>
    unfold orIntoExisting
    rw [List.foldl_cons]
    unfold orIntoExisting at ih
    have horb : orBitsAll (kv :: t) k =
        if kv.1 = k then kv.2.privs.privileges ||| orBitsAll t k
        else orBitsAll t k := by
      rw [orBitsAll, List.foldr_cons]
      rfl
    by_cases hk : kv.1 = k
    · subst hk
      cases h : mapLookup m kv.1 with
      | none =>
        simp only [h]
        rw [ih m, h]
      | some o =>
        simp only [h]
        rw [ih, mapLookup_insert, if_pos rfl, horb, if_pos rfl]
        simp only [DBObject.updatePrivileges, Option.some.injEq]
        congr 2
        rw [Nat.lor_assoc]
    · cases h : mapLookup m kv.1 with
      | none =>
        simp only [h]
        rw [ih m, horb, if_neg hk]
      | some o =>
        simp only [h]
        rw [ih, mapLookup_insert, if_neg hk, horb, if_neg hk]

theorem lookupBits_mergeRoleMap (m rl : DBObjectMap) (k : DBObjectKey) :
    lookupBits (mergeRoleMap m rl) k = lookupBits m k ||| orBitsAll rl k := by
  induction rl generalizing m with
  | nil =>
    unfold mergeRoleMap orBitsAll
    rw [List.foldl_nil, List.foldr_nil]
    simp
  | cons kv t ih =>
    unfold mergeRoleMap
    rw [List.foldl_cons]
    unfold mergeRoleMap at ih
    have horb : orBitsAll (kv :: t) k =
        if kv.1 = k then kv.2.privs.privileges ||| orBitsAll t k
        else orBitsAll t k := by
      rw [orBitsAll, List.foldr_cons]
      rfl
    by_cases hk : kv.1 = k
    · subst hk
      cases h : mapLookup m kv.1 with
      | none =>
        simp only [h]
        rw [ih, horb, if_pos rfl]
        have h1 : lookupBits (mapInsert m kv.1 kv.2) kv.1 =
            kv.2.privs.privileges := by
          rw [lookupBits, mapLookup_insert, if_pos rfl]
        have h2 : lookupBits m kv.1 = 0 := by
          rw [lookupBits, h]
        rw [h1, h2]
        simp
      | some o =>
        simp only [h]
        rw [ih, horb, if_pos rfl]
        have h1 : lookupBits (mapInsert m kv.1 (o.updatePrivileges kv.2))
            kv.1 = o.privs.privileges ||| kv.2.privs.privileges := by
          rw [lookupBits, mapLookup_insert, if_pos rfl]
          rfl
        have h2 : lookupBits m kv.1 = o.privs.privileges := by
          rw [lookupBits, h]
        rw [h1, h2, Nat.lor_assoc]
    · cases h : mapLookup m kv.1 with
      | none =>
        simp only [h]
        rw [ih, horb, if_neg hk]
        have hx : lookupBits (mapInsert m kv.1 kv.2) k = lookupBits m k := by
          rw [lookupBits, lookupBits, mapLookup_insert, if_neg hk]
        rw [hx]
      | some o =>
        simp only [h]
        rw [ih, horb, if_neg hk]
        have hx : lookupBits (mapInsert m kv.1 (o.updatePrivileges kv.2)) k =
            lookupBits m k := by
          rw [lookupBits, lookupBits, mapLookup_insert, if_neg hk]
        rw [hx]

/-! ### Sortedness of the map representation -/

theorem keyLt_irrefl (a : DBObjectKey) : DBObjectKey.lt a a = false := by
  simp [DBObjectKey.lt]

theorem keyLt_trans (a b c : DBObjectKey) (h1 : DBObjectKey.lt a b = true)
    (h2 : DBObjectKey.lt b c = true) : DBObjectKey.lt a c = true := by
  simp only [DBObjectKey.lt, Bool.or_eq_true, Bool.and_eq_true,
    decide_eq_true_eq, beq_iff_eq] at *
  omega

theorem keyLt_connex (a b : DBObjectKey) (h : a ≠ b) :
    DBObjectKey.lt a b = true ∨ DBObjectKey.lt b a = true := by
  simp only [DBObjectKey.lt, Bool.or_eq_true, Bool.and_eq_true,
    decide_eq_true_eq, beq_iff_eq]
  by_contra hc
  push_neg at hc
  apply h
  obtain ⟨a1, a2, a3⟩ := a
  obtain ⟨b1, b2, b3⟩ := b
  simp_all
  omega

theorem keyLt_ne (a b : DBObjectKey) (h : DBObjectKey.lt a b = true) :
    a ≠ b := by
  intro he
  rw [he, keyLt_irrefl] at h
  exact Bool.false_ne_true h

/-- The `std::map` representation invariant: keys strictly increasing. -/
def mapSorted (m : DBObjectMap) : Prop :=
  List.Pairwise (fun a b => DBObjectKey.lt a b = true) (mapKeys m)

theorem mapSorted_nodup (m : DBObjectMap) (h : mapSorted m) :
    (mapKeys m).Nodup :=
  h.imp (fun hlt => keyLt_ne _ _ hlt)

theorem mapSorted_insert (m : DBObjectMap) (k : DBObjectKey) (v : DBObject)
    (h : mapSorted m) : mapSorted (mapInsert m k v) := by
  induction m with
  | nil => simp [mapSorted, mapInsert, mapKeys]
  | cons e t ih =>
    obtain ⟨ke, ve⟩ := e
    unfold mapSorted at h
    simp only [mapKeys, List.map_cons, List.pairwise_cons] at h
    obtain ⟨hhead, htail⟩ := h
    rw [mapInsert]
    by_cases hek : ke = k
    · rw [if_pos hek]
      unfold mapSorted
      simp only [mapKeys, List.map_cons, List.pairwise_cons]
      exact ⟨fun y hy => hek ▸ hhead y hy, htail⟩
    · rw [if_neg hek]
      by_cases hlt : DBObjectKey.lt k ke
      · rw [if_pos hlt]
        unfold mapSorted
        simp only [mapKeys, List.map_cons, List.pairwise_cons]
        refine ⟨fun y hy => ?_, hhead, htail⟩
        rcases List.mem_cons.mp hy with rfl | hy'
        · exact hlt
        · exact keyLt_trans _ _ _ hlt (hhead y hy')
      · rw [if_neg hlt]
        have hke : DBObjectKey.lt ke k = true := by
          rcases keyLt_connex ke k (fun he => hek he) with h' | h'
          · exact h'
          · exact absurd h' hlt
        unfold mapSorted
        simp only [mapKeys, List.map_cons, List.pairwise_cons]
        constructor
        · intro y hy
          rw [show (List.map (fun e => e.1) (mapInsert t k v)) =
            mapKeys (mapInsert t k v) from rfl] at hy
          rcases (mapKeys_insert t k v y).mp hy with rfl | hy'
          · exact hke
          · exact hhead y hy'
        · exact ih htail

theorem mapSorted_filter (m : DBObjectMap) (p : DBObjectKey × DBObject → Bool)
    (h : mapSorted m) : mapSorted (m.filter p) := by
  unfold mapSorted at *
  exact List.Pairwise.sublist (List.Sublist.map _ (List.filter_sublist m)) h

theorem mapSorted_map_values (m : DBObjectMap)
    (f : DBObjectKey × DBObject → DBObject) (h : mapSorted m) :
    mapSorted (m.map (fun kv => (kv.1, f kv))) := by
  unfold mapSorted at *
  rw [mapKeys_map_values]
  exact h

theorem mapLookup_filter_none (m : DBObjectMap)
    (p : DBObjectKey × DBObject → Bool) (k : DBObjectKey)
    (h : mapLookup m k = none) : mapLookup (m.filter p) k = none := by
  have hmem := mapLookup_none_not_mem m k h
  induction m with
  | nil => rfl
  | cons kv t ih =>
    rw [List.filter_cons]
    by_cases hp : p kv = true
    · rw [if_pos hp, mapLookup,
        if_neg (hmem kv (List.mem_cons_self kv t))]
      rw [mapLookup, if_neg (hmem kv (List.mem_cons_self kv t))] at h
      exact ih h (fun e he => hmem e (List.mem_cons_of_mem kv he))
    · rw [if_neg hp]
      rw [mapLookup, if_neg (hmem kv (List.mem_cons_self kv t))] at h
      exact ih h (fun e he => hmem e (List.mem_cons_of_mem kv he))

theorem mapLookup_filter (m : DBObjectMap)
    (p : DBObjectKey × DBObject → Bool) (k : DBObjectKey)
    (hnd : (mapKeys m).Nodup) :
    mapLookup (m.filter p) k =
      match mapLookup m k with
      | some o => if p (k, o) then some o else none
      | none => none := by
  induction m with
  | nil => rfl
  | cons kv t ih =>
    obtain ⟨ke, ve⟩ := kv
    simp only [mapKeys, List.map_cons, List.nodup_cons] at hnd
    obtain ⟨hke, hnd'⟩ := hnd
    have hnd2 : (mapKeys t).Nodup := hnd'
    by_cases hek : ke = k
    · subst hek
      have htnone : mapLookup t ke = none := by
        cases hl : mapLookup t ke with
        | none => rfl
        | some o =>
          exfalso
          apply hke
          have hs : (mapLookup t ke).isSome = true := by
            rw [hl]
            rfl
          simpa [mapKeys] using (mapLookup_isSome_iff t ke).mp hs
      by_cases hp : p (ke, ve) = true <;>
        simp [List.filter_cons, hp, mapLookup,
          mapLookup_filter_none t p ke htnone]
    · by_cases hp : p (ke, ve) = true <;>
        simp [List.filter_cons, hp, mapLookup, hek, ih hnd2]

theorem lookupBits_filter_hasAny (m : DBObjectMap) (k : DBObjectKey)
    (hnd : (mapKeys m).Nodup) :
    lookupBits (m.filter (fun kv => kv.2.privs.hasAny)) k = lookupBits m k := by
  rw [lookupBits, lookupBits, mapLookup_filter m _ k hnd]
  cases h : mapLookup m k with
  | none => rfl
  | some o =>
    by_cases hp : o.privs.hasAny = true
    · simp [hp]
    · have hz : o.privs.privileges = 0 := by
        by_contra hz
        exact hp (by simpa [AccessPrivileges.hasAny] using hz)
      simp [hp, hz]

theorem lookupBits_mergeRoles (st : GraphState) (m : DBObjectMap)
    (roles : List String) (k : DBObjectKey)
    (hnd : ∀ rn ∈ roles, ∀ r, findNode st rn = some r →
      (mapKeys r.effectivePrivileges).Nodup) :
    lookupBits (mergeRoles st m roles) k =
      lookupBits m k ||| roleBits st roles k := by
  induction roles generalizing m with
  | nil =>
    unfold mergeRoles roleBits
    simp
  | cons rn rs ih =>
    unfold mergeRoles
    rw [List.foldl_cons]
    unfold mergeRoles at ih
    have hrb : roleBits st (rn :: rs) k =
        (match findNode st rn with
          | some r => effBits r k
          | none => 0) ||| roleBits st rs k := by
      unfold roleBits
      rw [List.foldr_cons]
    rw [hrb]
    have hnd' : ∀ r ∈ rs, ∀ r', findNode st r = some r' →
        (mapKeys r'.effectivePrivileges).Nodup :=
      fun r hr r' h' => hnd r (List.mem_cons_of_mem rn hr) r' h'
    cases hfind : findNode st rn with
    | none =>
      simp only [hfind]
      rw [ih _ hnd']
      simp
    | some r =>
      simp only [hfind]
      by_cases hlen : r.effectivePrivileges.length > 0
      · rw [if_pos hlen, ih _ hnd', lookupBits_mergeRoleMap,
          orBitsAll_eq_lookupBits _ _
            (hnd rn (List.mem_cons_self rn rs) r hfind)]
        rw [show lookupBits r.effectivePrivileges k = effBits r k from rfl,
          Nat.lor_assoc]
      · rw [if_neg hlen, ih _ hnd']
        have : r.effectivePrivileges = [] := by
          cases hre : r.effectivePrivileges with
          | nil => rfl
          | cons a b =>
            exfalso
            rw [hre] at hlen
            simp at hlen
        have heb : effBits r k = 0 := by
          rw [effBits, lookupBits, this]
          rfl
        rw [heb]
        simp

theorem mapSorted_orIntoExisting (m l : DBObjectMap) (h : mapSorted m) :
    mapSorted (orIntoExisting m l) := by
  induction l generalizing m with
  | nil => exact h
  | cons kv t ih =>
    unfold orIntoExisting
    rw [List.foldl_cons]
    unfold orIntoExisting at ih
    cases hl : mapLookup m kv.1 with
    | none =>
      simp only [hl]
      exact ih m h
    | some o =>
      simp only [hl]
      exact ih _ (mapSorted_insert m kv.1 _ h)

theorem mapSorted_mergeRoleMap (m rl : DBObjectMap) (h : mapSorted m) :
    mapSorted (mergeRoleMap m rl) := by
  induction rl generalizing m with
  | nil => exact h
  | cons kv t ih =>
    unfold mergeRoleMap
    rw [List.foldl_cons]
    unfold mergeRoleMap at ih
    cases hl : mapLookup m kv.1 with
    | none =>
      simp only [hl]
      exact ih _ (mapSorted_insert m kv.1 _ h)
    | some o =>
      simp only [hl]
      exact ih _ (mapSorted_insert m kv.1 _ h)

theorem mapSorted_mergeRoles (st : GraphState) (m : DBObjectMap)
    (roles : List String) (h : mapSorted m) :
    mapSorted (mergeRoles st m roles) := by
  induction roles generalizing m with
  | nil => exact h
  | cons rn rs ih =>
    unfold mergeRoles
    rw [List.foldl_cons]
    unfold mergeRoles at ih
    cases hl : findNode st rn with
    | none =>
      simp only [hl]
      exact ih m h
    | some r =>
      simp only [hl]
      by_cases hlen : r.effectivePrivileges.length > 0
      · rw [if_pos hlen]
        exact ih _ (mapSorted_mergeRoleMap m _ h)
      · rw [if_neg hlen]
        exact ih m h

/-- The recompute core (`Grantee::updatePrivileges()`, non-virtual part)
characterised: the new effective bits at every key are the direct bits
(when the key survived in the old effective map) united with the granted
roles effective bits; every surviving entry is nonempty; sortedness is
preserved. -/
theorem updatePrivilegesLocal_spec (st : GraphState) (g : GranteeNode)
    (hse : mapSorted g.effectivePrivileges)
    (hsd : mapSorted g.directPrivileges)
    (hroles : ∀ rn ∈ g.roles, ∀ r, findNode st rn = some r →
      (mapKeys r.effectivePrivileges).Nodup) :
    (∀ k, effBits (updatePrivilegesLocal st g) k =
      (if k ∈ mapKeys g.effectivePrivileges then dirBits g k else 0) |||
        roleBits st g.roles k) ∧
    (∀ e ∈ (updatePrivilegesLocal st g).effectivePrivileges,
      e.2.privs.privileges ≠ 0) ∧
    mapSorted (updatePrivilegesLocal st g).effectivePrivileges := by
  have hse1 : mapSorted
      (g.effectivePrivileges.map (fun kv => (kv.1, kv.2.resetPrivileges))) :=
    mapSorted_map_values _ _ hse
  have hse2 : mapSorted (orIntoExisting
      (g.effectivePrivileges.map (fun kv => (kv.1, kv.2.resetPrivileges)))
      g.directPrivileges) :=
    mapSorted_orIntoExisting _ _ hse1
  have hse3 : mapSorted (mergeRoles st (orIntoExisting
      (g.effectivePrivileges.map (fun kv => (kv.1, kv.2.resetPrivileges)))
      g.directPrivileges) g.roles) :=
    mapSorted_mergeRoles _ _ _ hse2
  refine ⟨fun k => ?_, fun e he => ?_, ?_⟩
  · have hX : (updatePrivilegesLocal st g).effectivePrivileges =
        (mergeRoles st (orIntoExisting (g.effectivePrivileges.map
          (fun kv => (kv.1, kv.2.resetPrivileges))) g.directPrivileges)
          g.roles).filter (fun kv => kv.2.privs.hasAny) := rfl
    show lookupBits (updatePrivilegesLocal st g).effectivePrivileges k = _
    rw [hX, lookupBits_filter_hasAny _ _ (mapSorted_nodup _ hse3)]
    rw [lookupBits_mergeRoles st _ _ _ hroles]
    have h2 : lookupBits (orIntoExisting (g.effectivePrivileges.map
        (fun kv => (kv.1, kv.2.resetPrivileges))) g.directPrivileges) k =
        if k ∈ mapKeys g.effectivePrivileges then dirBits g k else 0 := by
      rw [lookupBits, mapLookup_orIntoExisting, mapLookup_map_reset]
      cases hl : mapLookup g.effectivePrivileges k with
      | none =>
        have : k ∉ mapKeys g.effectivePrivileges := by
          intro hmem
          have := (mapLookup_isSome_iff g.effectivePrivileges k).mpr hmem
          rw [hl] at this
          exact Bool.false_ne_true this
        rw [if_neg this]
        rfl
      | some o =>
        have hmem : k ∈ mapKeys g.effectivePrivileges := by
          apply (mapLookup_isSome_iff g.effectivePrivileges k).mp
          rw [hl]
          rfl
        rw [if_pos hmem]
        simp only [Option.map_some, DBObject.resetPrivileges]
        rw [orBitsAll_eq_lookupBits _ _ (mapSorted_nodup _ hsd)]
        show (0 : Nat) ||| lookupBits g.directPrivileges k = dirBits g k
        rw [Nat.zero_or]
        rfl
    rw [h2]
  · have := List.of_mem_filter he
    intro hz
    rw [show e.2.privs.hasAny = (e.2.privs.privileges != 0) from rfl, hz]
      at this
    simp at this
  · exact mapSorted_filter _ _ hse3

/-- The recompute touches only the effective map of the node. -/
theorem updatePrivilegesLocal_skeleton (st : GraphState) (g : GranteeNode) :
    (updatePrivilegesLocal st g).name = g.name ∧
    (updatePrivilegesLocal st g).isUser = g.isUser ∧
    (updatePrivilegesLocal st g).roles = g.roles ∧
    (updatePrivilegesLocal st g).grantees = g.grantees ∧
    (updatePrivilegesLocal st g).directPrivileges = g.directPrivileges :=
  ⟨rfl, rfl, rfl, rfl, rfl⟩

/-! ### Graph-state infrastructure -/

theorem findNode_name (st : GraphState) (m : String) (g : GranteeNode)
    (h : findNode st m = some g) : g.name = m := by
  induction st with
  | nil => exact absurd h (by simp [findNode])
  | cons x t ih =>
    rw [findNode] at h
    by_cases hx : x.name = m
    · rw [if_pos hx] at h
      cases h
      exact hx
    · rw [if_neg hx] at h
      exact ih h

theorem findNode_updateNode (st : GraphState) (n : String)
    (f : GranteeNode → GranteeNode) (hf : ∀ g, (f g).name = g.name)
    (m : String) :
    findNode (updateNode st n f) m =
      if n = m then (findNode st n).map f else findNode st m := by
  induction st with
  | nil =>
    by_cases h : n = m <;> simp [updateNode, findNode, h]
  | cons x t ih =>
    rw [updateNode]
    by_cases hx : x.name = n
    · rw [if_pos hx]
      by_cases hm2 : n = m
      · subst hm2
        have h1 : findNode (f x :: t) n = some (f x) := by
          rw [findNode, if_pos ((hf x).trans hx)]
        have h2 : findNode (x :: t) n = some x := by
          rw [findNode, if_pos hx]
        rw [h1, if_pos rfl, h2]
        rfl
      · have h1 : findNode (f x :: t) m = findNode t m := by
          rw [findNode, if_neg (fun h => hm2 (((hf x).trans hx).symm.trans h))]
        have h2 : findNode (x :: t) m = findNode t m := by
          rw [findNode, if_neg (fun h => hm2 (hx.symm.trans h))]
        rw [h1, if_neg hm2, h2]
    · rw [if_neg hx]
      by_cases hm : x.name = m
      · have hnm : ¬n = m := fun h => hx (hm.trans h.symm)
        have h1 : findNode (x :: updateNode t n f) m = some x := by
          rw [findNode, if_pos hm]
        have h2 : findNode (x :: t) m = some x := by
          rw [findNode, if_pos hm]
        rw [h1, if_neg hnm, h2]
      · have h1 : findNode (x :: updateNode t n f) m =
            findNode (updateNode t n f) m := by
          rw [findNode, if_neg hm]
        have h2 : findNode (x :: t) m = findNode t m := by
          rw [findNode, if_neg hm]
        have h3 : findNode (x :: t) n = findNode t n := by
          rw [findNode, if_neg hx]
        rw [h1, ih, h2, h3]

/-- Everything of a node except its effective-privileges map. -/
def sameSkeleton (g g' : GranteeNode) : Prop :=
  g'.name = g.name ∧ g'.isUser = g.isUser ∧ g'.roles = g.roles ∧
    g'.grantees = g.grantees ∧ g'.directPrivileges = g.directPrivileges

/-- Option-wise skeleton agreement. -/
def skelRel : Option GranteeNode → Option GranteeNode → Prop
  | none, none => True
  | some g, some g' => sameSkeleton g g'
  | _, _ => False

/-- Two states with the same nodes up to effective-privileges content. -/
def skeletonEq (st st' : GraphState) : Prop :=
  ∀ m, skelRel (findNode st m) (findNode st' m)

theorem sameSkeleton_refl (g : GranteeNode) : sameSkeleton g g :=
  ⟨rfl, rfl, rfl, rfl, rfl⟩

theorem sameSkeleton_trans (a b c : GranteeNode) (h1 : sameSkeleton a b)
    (h2 : sameSkeleton b c) : sameSkeleton a c := by
  obtain ⟨n1, u1, r1, g1, d1⟩ := h1
  obtain ⟨n2, u2, r2, g2, d2⟩ := h2
  exact ⟨n2.trans n1, u2.trans u1, r2.trans r1, g2.trans g1, d2.trans d1⟩

theorem skeletonEq_refl (st : GraphState) : skeletonEq st st := by
  intro m
  cases findNode st m with
  | none => trivial
  | some g => exact sameSkeleton_refl g

theorem skeletonEq_trans (a b c : GraphState) (h1 : skeletonEq a b)
    (h2 : skeletonEq b c) : skeletonEq a c := by
  intro m
  have hab := h1 m
  have hbc := h2 m
  cases ha : findNode a m with
  | none =>
    rw [ha] at hab
    cases hb : findNode b m with
    | none =>
      rw [hb] at hbc
      cases hc : findNode c m with
      | none => trivial
      | some gc => rw [hc] at hbc; exact hbc.elim
    | some gb => rw [hb] at hab; exact hab.elim
  | some ga =>
    rw [ha] at hab
    cases hb : findNode b m with
    | none => rw [hb] at hab; exact hab.elim
    | some gb =>
      rw [hb] at hab hbc
      cases hc : findNode c m with
      | none => rw [hc] at hbc; exact hbc.elim
      | some gc =>
        rw [hc] at hbc
        exact sameSkeleton_trans ga gb gc hab hbc

theorem skeletonEq_updateNode (st : GraphState) (n : String)
    (f : GranteeNode → GranteeNode) (hf : ∀ g, sameSkeleton g (f g)) :
    skeletonEq st (updateNode st n f) := by
  intro m
  rw [findNode_updateNode st n f (fun g => (hf g).1) m]
  by_cases h : n = m
  · subst h
    rw [if_pos rfl]
    cases hl : findNode st n with
    | none => exact trivial
    | some g => exact hf g
  · rw [if_neg h]
    cases findNode st m with
    | none => trivial
    | some g => exact sameSkeleton_refl g

/-- Downstream reachability through grant edges. -/
def ReachDown (st : GraphState) (a b : String) : Prop :=
  Relation.ReflTransGen (stepDown st) a b

theorem stepDown_skeleton (st st' : GraphState) (h : skeletonEq st st')
    (a b : String) : stepDown st a b ↔ stepDown st' a b := by
  unfold stepDown
  have hm := h a
  cases ha : findNode st a with
  | none =>
    rw [ha] at hm
    cases ha' : findNode st' a with
    | none => simp
    | some g' => rw [ha'] at hm; exact hm.elim
  | some g =>
    rw [ha] at hm
    cases ha' : findNode st' a with
    | none => rw [ha'] at hm; exact hm.elim
    | some g' =>
      rw [ha'] at hm
      obtain ⟨hn, hu, hr, hg, hd⟩ := hm
      constructor
      · rintro ⟨x, hx, hxu, hxb⟩
        cases hx
        exact ⟨g', rfl, hu.trans hxu, hg ▸ hxb⟩
      · rintro ⟨x, hx, hxu, hxb⟩
        cases hx
        exact ⟨g, rfl, hu ▸ hxu, hg.symm ▸ hxb⟩

theorem ReachDown_skeleton (st st' : GraphState) (h : skeletonEq st st')
    (a b : String) : ReachDown st a b ↔ ReachDown st' a b := by
  unfold ReachDown
  constructor <;> intro hr
  · induction hr with
    | refl => exact Relation.ReflTransGen.refl
    | tail _ hstep ih =>
      exact Relation.ReflTransGen.tail ih
        ((stepDown_skeleton st st' h _ _).mp hstep)
  · induction hr with
    | refl => exact Relation.ReflTransGen.refl
    | tail _ hstep ih =>
      exact Relation.ReflTransGen.tail ih
        ((stepDown_skeleton st st' h _ _).mpr hstep)

/-! ### Well-formedness hypotheses for the privilege-graph theorems -/

/-- A certificate of acyclicity: ranks strictly decrease along grant
edges. -/
def RanksOk (st : GraphState) (rank : String → Nat) : Prop :=
  ∀ m g, findNode st m = some g → g.isUser = false →
    ∀ c ∈ g.grantees, rank c < rank m

/-- Every granted role resolves to a role node. -/
def RolesResolve (st : GraphState) : Prop :=
  ∀ m g, findNode st m = some g → ∀ rn ∈ g.roles,
    ∃ r, findNode st rn = some r ∧ r.isUser = false

/-- `role.grantees ⇔ grantee.roles` in both directions. -/
def BidirOk (st : GraphState) : Prop :=
  (∀ m g, findNode st m = some g → ∀ rn ∈ g.roles, ∀ r,
    findNode st rn = some r → m ∈ r.grantees) ∧
  (∀ m g, findNode st m = some g → ∀ c ∈ g.grantees, ∀ x,
    findNode st c = some x → m ∈ x.roles)

/-- The direct map of every node is sorted. -/
def DirSorted (st : GraphState) : Prop :=
  ∀ m g, findNode st m = some g → mapSorted g.directPrivileges

/-- The effective map of every node is sorted. -/
def EffSorted (st : GraphState) : Prop :=
  ∀ m g, findNode st m = some g → mapSorted g.effectivePrivileges

/-- Every key holding direct bits is present in the effective map. -/
def DirCov (st : GraphState) : Prop :=
  ∀ m g, findNode st m = some g → ∀ k, dirBits g k ≠ 0 →
    k ∈ mapKeys g.effectivePrivileges

/-- The effective-privileges equation of the spec at one node, together with the
no-empty-entries clause. -/
def NodeValid (st : GraphState) (g : GranteeNode) : Prop :=
  (∀ k, effBits g k = dirBits g k ||| roleBits st g.roles k) ∧
  (∀ e ∈ g.effectivePrivileges, e.2.privs.privileges ≠ 0)

theorem skelRel_elim (st st' : GraphState) (h : skeletonEq st st')
    (m : String) (g' : GranteeNode) (h' : findNode st' m = some g') :
    ∃ g, findNode st m = some g ∧ sameSkeleton g g' := by
  have hm := h m
  rw [h'] at hm
  cases hg : findNode st m with
  | none => rw [hg] at hm; exact hm.elim
  | some g =>
    rw [hg] at hm
    exact ⟨g, rfl, hm⟩

theorem skelRel_intro (st st' : GraphState) (h : skeletonEq st st')
    (m : String) (g : GranteeNode) (hg : findNode st m = some g) :
    ∃ g', findNode st' m = some g' ∧ sameSkeleton g g' := by
  have hm := h m
  rw [hg] at hm
  cases hg' : findNode st' m with
  | none => rw [hg'] at hm; exact hm.elim
  | some g' =>
    rw [hg'] at hm
    exact ⟨g', rfl, hm⟩

theorem skelRel_none (st st' : GraphState) (h : skeletonEq st st')
    (m : String) (hn : findNode st m = none) : findNode st' m = none := by
  have hm := h m
  rw [hn] at hm
  cases hg' : findNode st' m with
  | none => rfl
  | some g' => rw [hg'] at hm; exact hm.elim

theorem ranksOk_skeleton (st st' : GraphState) (h : skeletonEq st st')
    (rank : String → Nat) (hr : RanksOk st rank) : RanksOk st' rank := by
  intro m g' hg' hu c hc
  obtain ⟨g, hg, hs⟩ := skelRel_elim st st' h m g' hg'
  exact hr m g hg (hs.2.1 ▸ hu) c (hs.2.2.2.1 ▸ hc)

theorem rolesResolve_skeleton (st st' : GraphState) (h : skeletonEq st st')
    (hr : RolesResolve st) : RolesResolve st' := by
  intro m g' hg' rn hrn
  obtain ⟨g, hg, hs⟩ := skelRel_elim st st' h m g' hg'
  obtain ⟨r, hrr, hru⟩ := hr m g hg rn (hs.2.2.1 ▸ hrn)
  obtain ⟨r', hrr', hrs⟩ := skelRel_intro st st' h rn r hrr
  exact ⟨r', hrr', hrs.2.1 ▸ hru⟩

theorem bidirOk_skeleton (st st' : GraphState) (h : skeletonEq st st')
    (hb : BidirOk st) : BidirOk st' := by
  constructor
  · intro m g' hg' rn hrn r' hr'
    obtain ⟨g, hg, hs⟩ := skelRel_elim st st' h m g' hg'
    obtain ⟨r, hr, hrs⟩ := skelRel_elim st st' h rn r' hr'
    have := hb.1 m g hg rn (hs.2.2.1 ▸ hrn) r hr
    exact hrs.2.2.2.1 ▸ this
  · intro m g' hg' c hc x' hx'
    obtain ⟨g, hg, hs⟩ := skelRel_elim st st' h m g' hg'
    obtain ⟨x, hx, hxs⟩ := skelRel_elim st st' h c x' hx'
    have := hb.2 m g hg c (hs.2.2.2.1 ▸ hc) x hx
    exact hxs.2.2.1 ▸ this

theorem dirSorted_skeleton (st st' : GraphState) (h : skeletonEq st st')
    (hd : DirSorted st) : DirSorted st' := by
  intro m g' hg'
  obtain ⟨g, hg, hs⟩ := skelRel_elim st st' h m g' hg'
  exact hs.2.2.2.2 ▸ hd m g hg

theorem dirCov_skeleton (st st' : GraphState) (h : skeletonEq st st')
    (hd : DirCov st)
    (heffkeys : ∀ m g g', findNode st m = some g → findNode st' m = some g' →
      ∀ k, k ∈ mapKeys g.effectivePrivileges →
        k ∈ mapKeys g'.effectivePrivileges) : DirCov st' := by
  intro m g' hg' k hk
  obtain ⟨g, hg, hs⟩ := skelRel_elim st st' h m g' hg'
  have : dirBits g k ≠ 0 := by
    rw [dirBits, ← hs.2.2.2.2]
    exact hk
  exact heffkeys m g g' hg hg' k (hd m g hg k this)

theorem lor_ne_zero_left (a b : Nat) (h : a ≠ 0) : a ||| b ≠ 0 := by
  intro hz
  apply h
  apply Nat.eq_of_testBit_eq
  intro i
  have := congrArg (fun x => Nat.testBit x i) hz
  simp only [Nat.testBit_or, Nat.zero_testBit] at this
  simp [Bool.or_eq_false_iff.mp this]

theorem lookupBits_ne_zero_mem (m : DBObjectMap) (k : DBObjectKey)
    (h : lookupBits m k ≠ 0) : k ∈ mapKeys m := by
  rw [← mapLookup_isSome_iff]
  cases hl : mapLookup m k with
  | none =>
    exfalso
    apply h
    rw [lookupBits, hl]
  | some o => rfl

theorem reach_rank (st : GraphState) (rank : String → Nat)
    (hr : RanksOk st rank) (a b : String) (h : ReachDown st a b) :
    rank b ≤ rank a := by
  induction h with
  | refl => exact Nat.le_refl _
  | tail _ hstep ih =>
    obtain ⟨g, hg, hu, hmem⟩ := hstep
    exact Nat.le_trans (Nat.le_of_lt (hr _ g hg hu _ hmem)) ih

theorem roleBits_congr (st st' : GraphState) (roles : List String)
    (h : ∀ rn ∈ roles, findNode st' rn = findNode st rn) (k : DBObjectKey) :
    roleBits st' roles k = roleBits st roles k := by
  induction roles with
  | nil => rfl
  | cons rn rs ih =>
    unfold roleBits
    rw [List.foldr_cons, List.foldr_cons, h rn (List.mem_cons_self rn rs)]
    have := ih (fun r hr => h r (List.mem_cons_of_mem rn hr))
    unfold roleBits at this
    rw [this]

theorem nodeValid_congr (st st' : GraphState) (g : GranteeNode)
    (hv : NodeValid st g)
    (h : ∀ rn ∈ g.roles, findNode st' rn = findNode st rn) :
    NodeValid st' g :=
  ⟨fun k => (roleBits_congr st st' g.roles h k).symm ▸ hv.1 k, hv.2⟩

/-- A node no propagation from `src` can reach keeps its validity as long as
all untouched nodes are unchanged: none of its parents can have been
touched, else the node itself would be reachable. -/
theorem nodeValid_untouched (st st' : GraphState) (src : String)
    (h2 : ∀ m, ¬ReachDown st src m → findNode st' m = findNode st m)
    (hroles : RolesResolve st) (hb : BidirOk st)
    (m : String) (gm : GranteeNode) (hm : findNode st m = some gm)
    (hnr : ¬ReachDown st src m) (hv : NodeValid st gm) :
    NodeValid st' gm := by
  apply nodeValid_congr st st' gm hv
  intro rn hrn
  apply h2
  intro hr
  apply hnr
  obtain ⟨r, hrf, hru⟩ := hroles m gm hm rn hrn
  have hmem : m ∈ r.grantees := hb.1 m gm hm rn hrn r hrf
  exact Relation.ReflTransGen.tail hr ⟨r, hrf, hru, hmem⟩

/-- Propagation never changes names, kinds, edges or direct maps. -/
theorem updatePrivilegesProp_skeleton (fuel : Nat) :
    ∀ (st : GraphState) (n : String),
      skeletonEq st (updatePrivilegesProp fuel st n) := by
  induction fuel with
  | zero => intro st n; exact skeletonEq_refl st
  | succ fuel ih =>
    intro st n
    rw [updatePrivilegesProp]
    cases hg : findNode st n with
    | none => exact skeletonEq_refl st
    | some g =>
      simp only
      have h1 : skeletonEq st
          (updateNode st n (fun x => updatePrivilegesLocal st x)) := by
        apply skeletonEq_updateNode
        intro x
        obtain ⟨a, b, c, d, e⟩ := updatePrivilegesLocal_skeleton st x
        exact ⟨a, b, c, d, e⟩
      have hfold : ∀ (l : List String) (st0 : GraphState),
          skeletonEq st0
            (l.foldl (fun acc c => updatePrivilegesProp fuel acc c) st0) := by
        intro l
        induction l with
        | nil => intro st0; exact skeletonEq_refl st0
        | cons c cs ihl =>
          intro st0
          rw [List.foldl_cons]
          exact skeletonEq_trans _ _ _ (ih st0 c) (ihl _)
      by_cases hu : g.isUser = true
      · rw [if_pos hu]
        exact h1
      · rw [if_neg hu]
        exact skeletonEq_trans _ _ _ h1 (hfold _ _)

theorem not_self_role (st : GraphState) (n : String) (g : GranteeNode)
    (rank : String → Nat) (hg : findNode st n = some g)
    (hrank : RanksOk st rank) (hrr : RolesResolve st) (hb : BidirOk st) :
    n ∉ g.roles := by
  intro hmem
  obtain ⟨r, hrf, hru⟩ := hrr n g hg n hmem
  rw [hg] at hrf
  cases hrf
  have : n ∈ g.grantees := hb.1 n g hg n hmem g hg
  exact Nat.lt_irrefl _ (hrank n g hg hru n this)

/-- Applying the recompute core to the node named `n` inside the state:
the node becomes valid, everything else is untouched, and the working
invariants survive. -/
theorem updateNode_local_valid (st : GraphState) (n : String)
    (g : GranteeNode) (rank : String → Nat) (hg : findNode st n = some g)
    (hrank : RanksOk st rank) (hrr : RolesResolve st) (hb : BidirOk st)
    (hds : DirSorted st) (hes : EffSorted st) (hdc : DirCov st) :
    (findNode (updateNode st n (fun x => updatePrivilegesLocal st x)) n =
      some (updatePrivilegesLocal st g)) ∧
    (∀ m, m ≠ n →
      findNode (updateNode st n (fun x => updatePrivilegesLocal st x)) m =
        findNode st m) ∧
    NodeValid (updateNode st n (fun x => updatePrivilegesLocal st x))
      (updatePrivilegesLocal st g) ∧
    EffSorted (updateNode st n (fun x => updatePrivilegesLocal st x)) ∧
    DirCov (updateNode st n (fun x => updatePrivilegesLocal st x)) := by
  have hname : ∀ x, (updatePrivilegesLocal st x).name = x.name := fun x =>
    (updatePrivilegesLocal_skeleton st x).1
  have hfind : ∀ m,
      findNode (updateNode st n (fun x => updatePrivilegesLocal st x)) m =
        if n = m then (findNode st n).map (fun x => updatePrivilegesLocal st x)
        else findNode st m :=
    findNode_updateNode st n _ hname
  have hfn : findNode (updateNode st n (fun x => updatePrivilegesLocal st x))
      n = some (updatePrivilegesLocal st g) := by
    rw [hfind n, if_pos rfl, hg]
    rfl
  have hfm : ∀ m, m ≠ n →
      findNode (updateNode st n (fun x => updatePrivilegesLocal st x)) m =
        findNode st m := by
    intro m hm
    rw [hfind m, if_neg (fun h => hm h.symm)]
  have hnroles : n ∉ g.roles := not_self_role st n g rank hg hrank hrr hb
  have hrnodup : ∀ rn ∈ g.roles, ∀ r, findNode st rn = some r →
      (mapKeys r.effectivePrivileges).Nodup := by
    intro rn hrn r hrf
    exact mapSorted_nodup _ (hes rn r hrf)
  obtain ⟨hbits, hentries, hsorted⟩ :=
    updatePrivilegesLocal_spec st g (hes n g hg) (hds n g hg) hrnodup
  have hvalid : NodeValid
      (updateNode st n (fun x => updatePrivilegesLocal st x))
      (updatePrivilegesLocal st g) := by
    constructor
    · intro k
      rw [hbits k]
      have hdir : dirBits (updatePrivilegesLocal st g) k = dirBits g k := by
        rw [dirBits, dirBits, (updatePrivilegesLocal_skeleton st g).2.2.2.2]
      have hrb : roleBits
          (updateNode st n (fun x => updatePrivilegesLocal st x))
          (updatePrivilegesLocal st g).roles k = roleBits st g.roles k := by
        rw [show (updatePrivilegesLocal st g).roles = g.roles from
          (updatePrivilegesLocal_skeleton st g).2.2.1]
        apply roleBits_congr
        intro rn hrn
        exact hfm rn (fun h => hnroles (h ▸ hrn))
      rw [hdir, hrb]
      by_cases hz : dirBits g k = 0
      · rw [hz]
        by_cases hmem : k ∈ mapKeys g.effectivePrivileges
        · rw [if_pos hmem]
        · rw [if_neg hmem]
      · rw [if_pos (hdc n g hg k hz)]
    · exact hentries
  refine ⟨hfn, hfm, hvalid, ?_, ?_⟩
  · intro m gm hgm
    by_cases hm : m = n
    · subst hm
      rw [hfn] at hgm
      cases hgm
      exact hsorted
    · rw [hfm m hm] at hgm
      exact hes m gm hgm
  · intro m gm hgm k hk
    by_cases hm : m = n
    · subst hm
      rw [hfn] at hgm
      cases hgm
      have hdg : dirBits g k ≠ 0 := by
        rw [dirBits, ← (updatePrivilegesLocal_skeleton st g).2.2.2.2]
        exact hk
      apply lookupBits_ne_zero_mem
      show effBits (updatePrivilegesLocal st g) k ≠ 0
      rw [hbits k, if_pos (hdc _ g hg k hdg)]
      exact lor_ne_zero_left _ _ hdg
    · rw [hfm m hm] at hgm
      exact hdc m gm hgm k hk

/-- The master propagation lemma: running the virtual `updatePrivileges()`
on node `n` of a well-formed state leaves every node the propagation cannot
reach untouched, preserves the working invariants, and re-establishes the
effective-privileges equation at every node reachable from `n`. -/
theorem updatePrivilegesProp_spec :
    ∀ (fuel : Nat) (st : GraphState) (n : String) (rank : String → Nat),
      RanksOk st rank → RolesResolve st → BidirOk st → DirSorted st →
      EffSorted st → DirCov st → rank n < fuel →
      (∀ m, ¬ReachDown st n m →
        findNode (updatePrivilegesProp fuel st n) m = findNode st m) ∧
      EffSorted (updatePrivilegesProp fuel st n) ∧
      DirCov (updatePrivilegesProp fuel st n) ∧
      (∀ m g', ReachDown st n m →
        findNode (updatePrivilegesProp fuel st n) m = some g' →
        NodeValid (updatePrivilegesProp fuel st n) g') := by
  intro fuel
  induction fuel with
  | zero =>
    intro st n rank _ _ _ _ _ _ hfuel
    exact absurd hfuel (Nat.not_lt_zero _)
  | succ fuel ih =>
    intro st n rank hrank hrr hb hds hes hdc hfuel
    rw [updatePrivilegesProp]
    cases hg : findNode st n with
    | none =>
      refine ⟨fun m _ => rfl, hes, hdc, ?_⟩
      intro m g' hrm hfm
      rcases Relation.ReflTransGen.cases_head hrm with rfl | ⟨x, hstep, _⟩
      · rw [hfm] at hg
        cases hg
      · obtain ⟨gx, hgx, _, _⟩ := hstep
        rw [hgx] at hg
        cases hg
    | some g =>
      simp only
      obtain ⟨hfn1, hfm1, hvalid1, hes1, hdc1⟩ :=
        updateNode_local_valid st n g rank hg hrank hrr hb hds hes hdc
      have hskel1 : skeletonEq st
          (updateNode st n (fun x => updatePrivilegesLocal st x)) := by
        apply skeletonEq_updateNode
        intro x
        obtain ⟨a, b, c, d, e⟩ := updatePrivilegesLocal_skeleton st x
        exact ⟨a, b, c, d, e⟩
      have hrank1 : RanksOk (updateNode st n
          (fun x => updatePrivilegesLocal st x)) rank :=
        ranksOk_skeleton _ _ hskel1 rank hrank
      have hrr1 : RolesResolve (updateNode st n
          (fun x => updatePrivilegesLocal st x)) :=
        rolesResolve_skeleton _ _ hskel1 hrr
      have hb1 : BidirOk (updateNode st n
          (fun x => updatePrivilegesLocal st x)) :=
        bidirOk_skeleton _ _ hskel1 hb
      have hds1 : DirSorted (updateNode st n
          (fun x => updatePrivilegesLocal st x)) :=
        dirSorted_skeleton _ _ hskel1 hds
      by_cases hu : g.isUser = true
      · rw [if_pos hu]
        refine ⟨?_, hes1, hdc1, ?_⟩
        · intro m hnr
          exact hfm1 m (fun h => hnr (h ▸ Relation.ReflTransGen.refl))
        · intro m g' hrm hfm
          have hm : m = n := by
            rcases Relation.ReflTransGen.cases_head hrm with rfl | ⟨x, hstep, _⟩
            · rfl
            · obtain ⟨gx, hgx, hux, _⟩ := hstep
              rw [hg] at hgx
              cases hgx
              rw [hu] at hux
              exact absurd hux (by simp)
          subst hm
          rw [hfn1] at hfm
          cases hfm
          exact hvalid1
      · rw [if_neg hu]
        have hgu : g.isUser = false := by
          cases hub : g.isUser
          · rfl
          · exact absurd hub hu
        have hrankc : ∀ c ∈ g.grantees, rank c < rank n :=
          fun c hc => hrank n g hg hgu c hc
        have hfuel' : rank n ≤ fuel := Nat.lt_succ_iff.mp hfuel
        have hfold : ∀ (cs : List String),
            (∀ c ∈ cs, rank c < rank n) →
            ∀ (acc : GraphState),
              skeletonEq (updateNode st n
                (fun x => updatePrivilegesLocal st x)) acc →
              RanksOk acc rank → RolesResolve acc → BidirOk acc →
              DirSorted acc → EffSorted acc → DirCov acc →
              skeletonEq acc
                (cs.foldl (fun a c => updatePrivilegesProp fuel a c) acc) ∧
              (∀ m, (∀ c ∈ cs, ¬ReachDown (updateNode st n
                  (fun x => updatePrivilegesLocal st x)) c m) →
                findNode
                  (cs.foldl (fun a c => updatePrivilegesProp fuel a c) acc)
                  m = findNode acc m) ∧
              EffSorted
                (cs.foldl (fun a c => updatePrivilegesProp fuel a c) acc) ∧
              DirCov
                (cs.foldl (fun a c => updatePrivilegesProp fuel a c) acc) ∧
              (∀ m g', (∃ c ∈ cs, ReachDown (updateNode st n
                  (fun x => updatePrivilegesLocal st x)) c m) →
                findNode
                  (cs.foldl (fun a c => updatePrivilegesProp fuel a c) acc)
                  m = some g' →
                NodeValid
                  (cs.foldl (fun a c => updatePrivilegesProp fuel a c) acc)
                  g') ∧
              (∀ m gm, findNode acc m = some gm → NodeValid acc gm →
                (∀ c ∈ cs, ¬ReachDown (updateNode st n
                  (fun x => updatePrivilegesLocal st x)) c m) →
                NodeValid
                  (cs.foldl (fun a c => updatePrivilegesProp fuel a c) acc)
                  gm) := by
          intro cs
          induction cs with
          | nil =>
            intro _ acc _ _ _ _ _ hesA hdcA
            refine ⟨skeletonEq_refl acc, fun m _ => rfl, hesA, hdcA, ?_, ?_⟩
            · rintro m g' ⟨c, hc, _⟩ _
              exact absurd hc (List.not_mem_nil c)
            · intro m gm _ hv _
              exact hv
          | cons c cs' ihcs =>
            intro hranks acc hskelA hrankA hrrA hbA hdsA hesA hdcA
            rw [List.foldl_cons]
            have hrc : rank c < fuel :=
              Nat.lt_of_lt_of_le (hranks c (List.mem_cons_self c cs'))
                hfuel'
            obtain ⟨h2, hesB, hdcB, h5⟩ :=
              ih acc c rank hrankA hrrA hbA hdsA hesA hdcA hrc
            have hskelB : skeletonEq acc (updatePrivilegesProp fuel acc c) :=
              updatePrivilegesProp_skeleton fuel acc c
            have hskelAB : skeletonEq (updateNode st n
                (fun x => updatePrivilegesLocal st x))
                (updatePrivilegesProp fuel acc c) :=
              skeletonEq_trans _ _ _ hskelA hskelB
            have hreach_iff : ∀ a b,
                ReachDown (updateNode st n
                  (fun x => updatePrivilegesLocal st x)) a b ↔
                ReachDown acc a b :=
              fun a b => ReachDown_skeleton _ _ hskelA a b
            obtain ⟨f1, f2, f3, f4, f5, f6⟩ :=
              ihcs (fun c' hc' => hranks c' (List.mem_cons_of_mem c hc'))
                (updatePrivilegesProp fuel acc c) hskelAB
                (ranksOk_skeleton _ _ hskelB rank hrankA)
                (rolesResolve_skeleton _ _ hskelB hrrA)
                (bidirOk_skeleton _ _ hskelB hbA)
                (dirSorted_skeleton _ _ hskelB hdsA) hesB hdcB
            refine ⟨skeletonEq_trans _ _ _ hskelB f1, ?_, f3, f4, ?_, ?_⟩
            · intro m hall
              rw [f2 m (fun c' hc' =>
                hall c' (List.mem_cons_of_mem c hc'))]
              exact h2 m (fun hr => hall c (List.mem_cons_self c cs')
                ((hreach_iff c m).mpr hr))
            · intro m g' hex hfind
              by_cases hcs' : ∃ c' ∈ cs', ReachDown (updateNode st n
                  (fun x => updatePrivilegesLocal st x)) c' m
              · exact f5 m g' hcs' hfind
              · push_neg at hcs'
                have hrcm : ReachDown (updateNode st n
                    (fun x => updatePrivilegesLocal st x)) c m := by
                  obtain ⟨c0, hc0, hr0⟩ := hex
                  rcases List.mem_cons.mp hc0 with rfl | hc0'
                  · exact hr0
                  · exact absurd hr0 (hcs' c0 hc0')
                have hfind' : findNode (updatePrivilegesProp fuel acc c) m =
                    some g' := by
                  rw [← f2 m hcs']
                  exact hfind
                have hvB : NodeValid (updatePrivilegesProp fuel acc c) g' :=
                  h5 m g' ((hreach_iff c m).mp hrcm) hfind'
                exact f6 m g' hfind' hvB hcs'
            · intro m gm hm hv hall
              have hall' : ∀ c' ∈ cs', ¬ReachDown (updateNode st n
                  (fun x => updatePrivilegesLocal st x)) c' m :=
                fun c' hc' => hall c' (List.mem_cons_of_mem c hc')
              have hnrc : ¬ReachDown acc c m := fun hr =>
                hall c (List.mem_cons_self c cs') ((hreach_iff c m).mpr hr)
              have hmB : findNode (updatePrivilegesProp fuel acc c) m =
                  some gm := by
                rw [h2 m hnrc]
                exact hm
              have hvB : NodeValid (updatePrivilegesProp fuel acc c) gm :=
                nodeValid_untouched acc _ c h2 hrrA hbA m gm hm hnrc hv
              exact f6 m gm hmB hvB hall'
        obtain ⟨F1, F2, F3, F4, F5, F6⟩ :=
          hfold g.grantees hrankc
            (updateNode st n (fun x => updatePrivilegesLocal st x))
            (skeletonEq_refl _) hrank1 hrr1 hb1 hds1 hes1 hdc1
        have hreach1 : ∀ a b, ReachDown st a b ↔
            ReachDown (updateNode st n
              (fun x => updatePrivilegesLocal st x)) a b :=
          fun a b => ReachDown_skeleton _ _ hskel1 a b
        refine ⟨?_, F3, F4, ?_⟩
        · intro m hnr
          have hmn : m ≠ n := fun h => hnr (h ▸ Relation.ReflTransGen.refl)
          rw [F2 m (fun c hc hr => hnr (Relation.ReflTransGen.head
            ⟨g, hg, hgu, hc⟩ ((hreach1 c m).mpr hr)))]
          exact hfm1 m hmn
        · intro m g' hrm hfind
          by_cases hm : m = n
          · subst hm
            have hall : ∀ c ∈ g.grantees, ¬ReachDown (updateNode st m
                (fun x => updatePrivilegesLocal st x)) c m := by
              intro c hc hr
              have : rank m ≤ rank c :=
                reach_rank st rank hrank c m ((hreach1 c m).mpr hr)
              exact Nat.not_lt.mpr this (hrankc c hc)
            have hfind' : findNode (g.grantees.foldl
                (fun a c => updatePrivilegesProp fuel a c)
                (updateNode st m (fun x => updatePrivilegesLocal st x))) m =
                some (updatePrivilegesLocal st g) := by
              rw [F2 m hall]
              exact hfn1
            rw [hfind'] at hfind
            cases hfind
            exact F6 m (updatePrivilegesLocal st g) hfn1 hvalid1 hall
          · rcases Relation.ReflTransGen.cases_head hrm with rfl | hc
            · exact absurd rfl hm
            · obtain ⟨x, hstep, hrest⟩ := hc
              obtain ⟨gx, hgx, hux, hxmem⟩ := hstep
              rw [hg] at hgx
              cases hgx
              exact F5 m g' ⟨x, hxmem, (hreach1 x m).mp hrest⟩ hfind

/-! ### Edge-level transports and membership converters -/

/-- Node agreement on everything except the two privilege maps. -/
def sameEdges (g g' : GranteeNode) : Prop :=
  g'.name = g.name ∧ g'.isUser = g.isUser ∧ g'.roles = g.roles ∧
    g'.grantees = g.grantees

/-- Option-wise edge agreement. -/
def edgeRel : Option GranteeNode → Option GranteeNode → Prop
  | none, none => True
  | some g, some g' => sameEdges g g'
  | _, _ => False

/-- Two states with the same nodes up to privilege-map content. -/
def edgesEq (st st' : GraphState) : Prop :=
  ∀ m, edgeRel (findNode st m) (findNode st' m)

theorem skeletonEq_edgesEq (st st' : GraphState) (h : skeletonEq st st') :
    edgesEq st st' := by
  intro m
  have hm := h m
  cases h1 : findNode st m with
  | none =>
    rw [h1] at hm
    cases h2 : findNode st' m with
    | none => exact trivial
    | some g' => rw [h2] at hm; exact hm.elim
  | some g =>
    rw [h1] at hm
    cases h2 : findNode st' m with
    | none => rw [h2] at hm; exact hm.elim
    | some g' =>
      rw [h2] at hm
      exact ⟨hm.1, hm.2.1, hm.2.2.1, hm.2.2.2.1⟩

theorem edgeRel_elim (st st' : GraphState) (h : edgesEq st st')
    (m : String) (g' : GranteeNode) (h' : findNode st' m = some g') :
    ∃ g, findNode st m = some g ∧ sameEdges g g' := by
  have hm := h m
  rw [h'] at hm
  cases hg : findNode st m with
  | none => rw [hg] at hm; exact hm.elim
  | some g => rw [hg] at hm; exact ⟨g, rfl, hm⟩

theorem edgeRel_intro (st st' : GraphState) (h : edgesEq st st')
    (m : String) (g : GranteeNode) (hg : findNode st m = some g) :
    ∃ g', findNode st' m = some g' ∧ sameEdges g g' := by
  have hm := h m
  rw [hg] at hm
  cases hg' : findNode st' m with
  | none => rw [hg'] at hm; exact hm.elim
  | some g' => rw [hg'] at hm; exact ⟨g', rfl, hm⟩

theorem ranksOk_edges (st st' : GraphState) (h : edgesEq st st')
    (rank : String → Nat) (hr : RanksOk st rank) : RanksOk st' rank := by
  intro m g' hg' hu c hc
  obtain ⟨g, hg, hs⟩ := edgeRel_elim st st' h m g' hg'
  exact hr m g hg (hs.2.1 ▸ hu) c (hs.2.2.2 ▸ hc)

theorem rolesResolve_edges (st st' : GraphState) (h : edgesEq st st')
    (hr : RolesResolve st) : RolesResolve st' := by
  intro m g' hg' rn hrn
  obtain ⟨g, hg, hs⟩ := edgeRel_elim st st' h m g' hg'
  obtain ⟨r, hrr, hru⟩ := hr m g hg rn (hs.2.2.1 ▸ hrn)
  obtain ⟨r', hrr', hrs⟩ := edgeRel_intro st st' h rn r hrr
  exact ⟨r', hrr', hrs.2.1 ▸ hru⟩

theorem bidirOk_edges (st st' : GraphState) (h : edgesEq st st')
    (hb : BidirOk st) : BidirOk st' := by
  constructor
  · intro m g' hg' rn hrn r' hr'
    obtain ⟨g, hg, hs⟩ := edgeRel_elim st st' h m g' hg'
    obtain ⟨r, hr, hrs⟩ := edgeRel_elim st st' h rn r' hr'
    exact hrs.2.2.2 ▸ hb.1 m g hg rn (hs.2.2.1 ▸ hrn) r hr
  · intro m g' hg' c hc x' hx'
    obtain ⟨g, hg, hs⟩ := edgeRel_elim st st' h m g' hg'
    obtain ⟨x, hx, hxs⟩ := edgeRel_elim st st' h c x' hx'
    exact hxs.2.2.1 ▸ hb.2 m g hg c (hs.2.2.2 ▸ hc) x hx

theorem stepDown_edges (st st' : GraphState) (h : edgesEq st st')
    (a b : String) : stepDown st a b ↔ stepDown st' a b := by
  unfold stepDown
  have hm := h a
  cases ha : findNode st a with
  | none =>
    rw [ha] at hm
    cases ha' : findNode st' a with
    | none => simp
    | some g' => rw [ha'] at hm; exact hm.elim
  | some g =>
    rw [ha] at hm
    cases ha' : findNode st' a with
    | none => rw [ha'] at hm; exact hm.elim
    | some g' =>
      rw [ha'] at hm
      obtain ⟨hn, hu, hr, hgr⟩ := hm
      constructor
      · rintro ⟨x, hx, hxu, hxb⟩
        cases hx
        exact ⟨g', rfl, hu.trans hxu, hgr ▸ hxb⟩
      · rintro ⟨x, hx, hxu, hxb⟩
        cases hx
        exact ⟨g, rfl, hu ▸ hxu, hgr.symm ▸ hxb⟩

theorem ReachDown_edges (st st' : GraphState) (h : edgesEq st st')
    (a b : String) : ReachDown st a b ↔ ReachDown st' a b := by
  constructor <;> intro hr
  · induction hr with
    | refl => exact Relation.ReflTransGen.refl
    | tail _ hstep ihr =>
      exact Relation.ReflTransGen.tail ihr
        ((stepDown_edges st st' h _ _).mp hstep)
  · induction hr with
    | refl => exact Relation.ReflTransGen.refl
    | tail _ hstep ihr =>
      exact Relation.ReflTransGen.tail ihr
        ((stepDown_edges st st' h _ _).mpr hstep)

/-- Updating one node with a map-only change keeps all edges. -/
theorem edgesEq_updateNode (st : GraphState) (n : String)
    (f : GranteeNode → GranteeNode) (hf : ∀ g, sameEdges g (f g)) :
    edgesEq st (updateNode st n f) := by
  intro m
  rw [findNode_updateNode st n f (fun g => (hf g).1) m]
  by_cases h : n = m
  · subst h
    rw [if_pos rfl]
    cases hl : findNode st n with
    | none => exact trivial
    | some g => exact hf g
  · rw [if_neg h]
    cases findNode st m with
    | none => exact trivial
    | some g => exact ⟨rfl, rfl, rfl, rfl⟩

theorem findNode_mem (st : GraphState) (m : String) (g : GranteeNode)
    (h : findNode st m = some g) : g ∈ st := by
  induction st with
  | nil => exact absurd h (by simp [findNode])
  | cons x t ih =>
    rw [findNode] at h
    by_cases hx : x.name = m
    · rw [if_pos hx] at h
      cases h
      exact List.mem_cons_self _ _
    · rw [if_neg hx] at h
      exact List.mem_cons_of_mem x (ih h)

theorem updateNode_length (st : GraphState) (n : String)
    (f : GranteeNode → GranteeNode) :
    (updateNode st n f).length = st.length := by
  induction st with
  | nil => rfl
  | cons x t ih =>
    rw [updateNode]
    by_cases hx : x.name = n
    · rw [if_pos hx]
      rfl
    · rw [if_neg hx, List.length_cons, List.length_cons, ih]

/-- Every node of the state satisfies the effective-privileges equation. -/
def ValidAll (st : GraphState) : Prop :=
  ∀ m g, findNode st m = some g → NodeValid st g

/-! ### Bit lemmas for revocation -/

theorem ne_zero_exists_testBit (a : Nat) (h : a ≠ 0) :
    ∃ i, a.testBit i = true := by
  by_contra hc
  push_neg at hc
  apply h
  apply Nat.eq_of_testBit_eq
  intro i
  rw [Nat.zero_testBit]
  exact Bool.not_eq_true _ ▸ hc i

theorem ldiff_lor_ne_zero (a b c : Nat) (h : Nat.ldiff a c ≠ 0) :
    Nat.ldiff (a ||| b) c ≠ 0 := by
  obtain ⟨i, hi⟩ := ne_zero_exists_testBit _ h
  rw [Nat.testBit_ldiff] at hi
  intro hz
  have := congrArg (fun x => Nat.testBit x i) hz
  simp only [Nat.testBit_ldiff, Nat.testBit_or, Nat.zero_testBit] at this
  rw [Bool.and_eq_true] at hi
  obtain ⟨ha, hc⟩ := hi
  rw [ha, hc] at this
  simp at this

theorem lor_ldiff_cancel (b p : Nat) (h : b &&& p = 0) :
    Nat.ldiff (b ||| p) p = b := by
  apply Nat.eq_of_testBit_eq
  intro i
  rw [Nat.testBit_ldiff, Nat.testBit_or]
  have hand := congrArg (fun x => Nat.testBit x i) h
  simp only [Nat.testBit_and, Nat.zero_testBit] at hand
  cases hb : b.testBit i <;> cases hp : p.testBit i <;> simp_all

theorem hasAny_iff (p : AccessPrivileges) :
    p.hasAny = true ↔ p.privileges ≠ 0 := by
  simp [AccessPrivileges.hasAny]

theorem mem_mapKeys_iff (m : DBObjectMap) (k : DBObjectKey) :
    k ∈ mapKeys m ↔ (mapLookup m k).isSome = true :=
  (mapLookup_isSome_iff m k).symm

theorem mem_mapKeys_erase (m : DBObjectMap) (k0 k : DBObjectKey)
    (hne : k ≠ k0) : k ∈ mapKeys (mapErase m k0) ↔ k ∈ mapKeys m := by
  rw [mem_mapKeys_iff, mem_mapKeys_iff, mapLookup_erase,
    if_neg (fun h => hne h.symm)]

theorem dirCov_of_validAll (st : GraphState) (h : ValidAll st) : DirCov st := by
  intro m g hg k hk
  apply lookupBits_ne_zero_mem
  show effBits g k ≠ 0
  rw [(h m g hg).1 k]
  exact lor_ne_zero_left _ _ hk

/-- C7 counterexample state: a grantee whose direct map holds an entry with
an empty bitset at the requested key (created by granting an
empty-privilege object). -/
def c7grantee : GranteeNode :=
  { name := "carl", isUser := true, roles := [], grantees := [],
    effectivePrivileges := [],
    directPrivileges := [(⟨1, 1, 7⟩, ⟨⟨1, 1, 7⟩, "t", 0, ⟨0⟩⟩)] }

/-- C7 counterexample: with a present-but-empty direct entry, the code
throws (and leaves the zero-bit entry in place) where the claim prescribes
subtracting, erasing the emptied entry and returning the null sentinel
without an error. -/
theorem revokePrivileges_empty_entry_throws :
    mapLookup c7grantee.directPrivileges ⟨1, 1, 7⟩ =
      some ⟨⟨1, 1, 7⟩, "t", 0, ⟨0⟩⟩ ∧
    (revokePrivilegesOp [c7grantee] "carl"
      ⟨⟨1, 1, 7⟩, "t", 0, ⟨1⟩⟩).1 ≠ none ∧
    (revokePrivilegesOp [c7grantee] "carl"
      ⟨⟨1, 1, 7⟩, "t", 0, ⟨1⟩⟩).2.2 = [c7grantee] := by
  refine ⟨by decide, ?_, by decide⟩
  decide

/-- Full description of `Grantee::revokePrivileges`, for reuse: error
condition, error-path inertness, and the success-path effect on the direct
map together with revalidation of every reachable node. -/
theorem revokePrivOp_descr (st : GraphState) (n : String)
    (object : DBObject) (g : GranteeNode) (rank : String → Nat)
    (hg : findNode st n = some g) (hrank : RanksOk st rank)
    (hrr : RolesResolve st) (hb : BidirOk st) (hds : DirSorted st)
    (hes : EffSorted st) (hva : ValidAll st) (hrb : rank n ≤ st.length) :
    (((revokePrivilegesOp st n object).1 ≠ none) ↔
      (∀ o, mapLookup g.directPrivileges object.objectKey = some o →
        o.privs.privileges = 0)) ∧
    ((revokePrivilegesOp st n object).1 ≠ none →
      (revokePrivilegesOp st n object).2.2 = st ∧
      (revokePrivilegesOp st n object).2.1 = none) ∧
    (∀ o, mapLookup g.directPrivileges object.objectKey = some o →
      o.privs.privileges ≠ 0 →
      (revokePrivilegesOp st n object).1 = none ∧
      (revokePrivilegesOp st n object).2.1 =
        (if Nat.ldiff o.privs.privileges object.privs.privileges = 0 then
          none else some (o.revokePrivileges object)) ∧
      (∀ g', findNode (revokePrivilegesOp st n object).2.2 n = some g' →
        mapLookup g'.directPrivileges object.objectKey =
          (if Nat.ldiff o.privs.privileges object.privs.privileges = 0 then
            none else some (o.revokePrivileges object)) ∧
        ∀ k', k' ≠ object.objectKey →
          mapLookup g'.directPrivileges k' =
            mapLookup g.directPrivileges k') ∧
      (∀ m g', ReachDown st n m →
        findNode (revokePrivilegesOp st n object).2.2 m = some g' →
        NodeValid (revokePrivilegesOp st n object).2.2 g')) := by
  have hdc : DirCov st := dirCov_of_validAll st hva
  cases hdl : mapLookup g.directPrivileges object.objectKey with
  | none =>
    have hop : revokePrivilegesOp st n object =
        (some "Can not revoke privileges", none, st) := by
      unfold revokePrivilegesOp
      rw [hg]
      simp only [hdl]
    rw [hop]
    refine ⟨?_, fun _ => ⟨rfl, rfl⟩, ?_⟩
    · simp
    · intro o ho
      cases ho
  | some o =>
    by_cases hz : o.privs.privileges = 0
    · have hop : revokePrivilegesOp st n object =
          (some "Can not revoke privileges", none, st) := by
        unfold revokePrivilegesOp
        rw [hg]
        simp only [hdl]
        rw [if_pos (by simp [AccessPrivileges.hasAny, hz])]
      rw [hop]
      refine ⟨?_, fun _ => ⟨rfl, rfl⟩, ?_⟩
      · constructor
        · intro _ o' ho'
          cases ho'
          exact hz
        · intro _
          simp
      · intro o' ho' hnz
        cases ho'
        exact absurd hz hnz
    · -- success path
      have hop : revokePrivilegesOp st n object =
          (none,
            if (o.revokePrivileges object).privs.hasAny then
              some (o.revokePrivileges object) else none,
            updatePrivilegesProp
              ((updateNode st n (fun x =>
                { x with
                  directPrivileges := revokeDirMap g.directPrivileges
                    object.objectKey (o.revokePrivileges object),
                  effectivePrivileges := revokeEffMap g.effectivePrivileges
                    object.objectKey object })).length + 1)
              (updateNode st n (fun x =>
                { x with
                  directPrivileges := revokeDirMap g.directPrivileges
                    object.objectKey (o.revokePrivileges object),
                  effectivePrivileges := revokeEffMap g.effectivePrivileges
                    object.objectKey object })) n) := by
        unfold revokePrivilegesOp
        rw [hg]
        simp only [hdl]
        rw [if_neg (by simp [AccessPrivileges.hasAny, hz])]
      have hresbits : (o.revokePrivileges object).privs.privileges =
          Nat.ldiff o.privs.privileges object.privs.privileges := rfl
      have hf_edges : ∀ x, sameEdges x
          ({ x with
            directPrivileges := revokeDirMap g.directPrivileges
              object.objectKey (o.revokePrivileges object),
            effectivePrivileges := revokeEffMap g.effectivePrivileges
              object.objectKey object } : GranteeNode) :=
        fun x => ⟨rfl, rfl, rfl, rfl⟩
      have hedges : edgesEq st (updateNode st n (fun x =>
          { x with
            directPrivileges := revokeDirMap g.directPrivileges
              object.objectKey (o.revokePrivileges object),
            effectivePrivileges := revokeEffMap g.effectivePrivileges
              object.objectKey object })) :=
        edgesEq_updateNode st n _ hf_edges
      have hfind1 : ∀ m,
          findNode (updateNode st n (fun x =>
            { x with
              directPrivileges := revokeDirMap g.directPrivileges
                object.objectKey (o.revokePrivileges object),
              effectivePrivileges := revokeEffMap g.effectivePrivileges
                object.objectKey object })) m =
            if n = m then
              some { g with
                directPrivileges := revokeDirMap g.directPrivileges
                  object.objectKey (o.revokePrivileges object),
                effectivePrivileges := revokeEffMap g.effectivePrivileges
                  object.objectKey object }
            else findNode st m := by
        intro m
        rw [findNode_updateNode st n (fun x =>
          { x with
            directPrivileges := revokeDirMap g.directPrivileges
              object.objectKey (o.revokePrivileges object),
            effectivePrivileges := revokeEffMap g.effectivePrivileges
              object.objectKey object }) (fun x => rfl) m]
        by_cases hm : n = m
        · rw [if_pos hm, if_pos hm, hg]
          rfl
        · rw [if_neg hm, if_neg hm]
      -- the cached effective entry at the key is nonempty and keeps bits
      have hgv : NodeValid st g := hva n g hg
      have hdirb : dirBits g object.objectKey = o.privs.privileges := by
        rw [dirBits, lookupBits, hdl]
      have heffb : effBits g object.objectKey =
          o.privs.privileges ||| roleBits st g.roles object.objectKey := by
        rw [hgv.1 object.objectKey, hdirb]
      have hcached : ∃ cached, mapLookup g.effectivePrivileges
          object.objectKey = some cached ∧
          cached.privs.privileges =
            o.privs.privileges ||| roleBits st g.roles object.objectKey := by
        cases hc : mapLookup g.effectivePrivileges object.objectKey with
        | none =>
          exfalso
          apply lor_ne_zero_left o.privs.privileges
            (roleBits st g.roles object.objectKey) hz
          rw [← heffb, effBits, lookupBits, hc]
        | some cached =>
          refine ⟨cached, rfl, ?_⟩
          rw [← heffb, effBits, lookupBits, hc]
      have hds1 : DirSorted (updateNode st n (fun x =>
          { x with
            directPrivileges := revokeDirMap g.directPrivileges
              object.objectKey (o.revokePrivileges object),
            effectivePrivileges := revokeEffMap g.effectivePrivileges
              object.objectKey object })) := by
        intro m gm hgm
        rw [hfind1 m] at hgm
        by_cases hm : n = m
        · rw [if_pos hm] at hgm
          cases hgm
          show mapSorted (revokeDirMap g.directPrivileges object.objectKey
            (o.revokePrivileges object))
          unfold revokeDirMap
          by_cases ha : (o.revokePrivileges object).privs.hasAny = true
          · rw [if_pos ha]
            exact mapSorted_insert _ _ _ (hds n g hg)
          · rw [if_neg ha]
            exact mapSorted_filter _ _ (hds n g hg)
        · rw [if_neg hm] at hgm
          exact hds m gm hgm
      have hes1 : EffSorted (updateNode st n (fun x =>
          { x with
            directPrivileges := revokeDirMap g.directPrivileges
              object.objectKey (o.revokePrivileges object),
            effectivePrivileges := revokeEffMap g.effectivePrivileges
              object.objectKey object })) := by
        intro m gm hgm
        rw [hfind1 m] at hgm
        by_cases hm : n = m
        · rw [if_pos hm] at hgm
          cases hgm
          show mapSorted (revokeEffMap g.effectivePrivileges
            object.objectKey object)
          unfold revokeEffMap
          obtain ⟨cached, hc, _⟩ := hcached
          simp only [hc]
          by_cases h1 : cached.privs.hasAny = true
          · rw [if_pos h1]
            by_cases h2 : (cached.revokePrivileges object).privs.hasAny = true
            · rw [if_pos h2]
              exact mapSorted_insert _ _ _ (hes n g hg)
            · rw [if_neg h2]
              exact mapSorted_filter _ _ (hes n g hg)
          · rw [if_neg h1]
            exact hes n g hg
        · rw [if_neg hm] at hgm
          exact hes m gm hgm
      have heffmem : ∀ k, k ∈ mapKeys g.effectivePrivileges → k ≠
          object.objectKey →
          k ∈ mapKeys (revokeEffMap g.effectivePrivileges
            object.objectKey object) := by
        intro k hk hne
        unfold revokeEffMap
        obtain ⟨cached, hc, _⟩ := hcached
        simp only [hc]
        by_cases h1 : cached.privs.hasAny = true
        · rw [if_pos h1]
          by_cases h2 : (cached.revokePrivileges object).privs.hasAny = true
          · rw [if_pos h2, mapKeys_insert]
            exact Or.inr hk
          · rw [if_neg h2, mem_mapKeys_erase _ _ _ hne]
            exact hk
        · rw [if_neg h1]
          exact hk
      have hdc1 : DirCov (updateNode st n (fun x =>
          { x with
            directPrivileges := revokeDirMap g.directPrivileges
              object.objectKey (o.revokePrivileges object),
            effectivePrivileges := revokeEffMap g.effectivePrivileges
              object.objectKey object })) := by
        intro m gm hgm k hk
        rw [hfind1 m] at hgm
        by_cases hm : n = m
        · rw [if_pos hm] at hgm
          cases hgm
          by_cases hkk : k = object.objectKey
          · rw [hkk] at hk ⊢
            -- direct bits at the key after revocation
            have hbits : dirBits { g with
                directPrivileges := revokeDirMap g.directPrivileges
                  object.objectKey (o.revokePrivileges object),
                effectivePrivileges := revokeEffMap g.effectivePrivileges
                  object.objectKey object } object.objectKey =
                lookupBits (revokeDirMap g.directPrivileges object.objectKey
                  (o.revokePrivileges object)) object.objectKey := rfl
            rw [hbits] at hk
            unfold revokeDirMap at hk
            by_cases ha : (o.revokePrivileges object).privs.hasAny = true
            · -- residual nonempty: the cached entry keeps a nonempty bitset
              show object.objectKey ∈ mapKeys (revokeEffMap
                g.effectivePrivileges object.objectKey object)
              unfold revokeEffMap
              obtain ⟨cached, hc, hcb⟩ := hcached
              simp only [hc]
              have h1 : cached.privs.hasAny = true := by
                rw [hasAny_iff, hcb]
                exact lor_ne_zero_left _ _ hz
              have h2 : (cached.revokePrivileges object).privs.hasAny =
                  true := by
                rw [hasAny_iff]
                show Nat.ldiff cached.privs.privileges
                  object.privs.privileges ≠ 0
                rw [hcb]
                apply ldiff_lor_ne_zero
                rw [← hresbits]
                exact (hasAny_iff _).mp ha
              rw [if_pos h1, if_pos h2, mapKeys_insert]
              exact Or.inl rfl
            · -- residual empty: the direct entry was erased, bits are 0
              exfalso
              rw [if_neg ha] at hk
              apply hk
              rw [lookupBits, mapLookup_erase, if_pos rfl]
          · have hkb : dirBits g k ≠ 0 := by
              have : lookupBits (revokeDirMap g.directPrivileges
                  object.objectKey (o.revokePrivileges object)) k =
                  lookupBits g.directPrivileges k := by
                unfold revokeDirMap
                by_cases ha : (o.revokePrivileges object).privs.hasAny = true
                · rw [if_pos ha, lookupBits, lookupBits, mapLookup_insert,
                    if_neg (fun h => hkk h.symm)]
                · rw [if_neg ha, lookupBits, lookupBits, mapLookup_erase,
                    if_neg (fun h => hkk h.symm)]
              rw [show dirBits { g with
                  directPrivileges := revokeDirMap g.directPrivileges
                    object.objectKey (o.revokePrivileges object),
                  effectivePrivileges := revokeEffMap g.effectivePrivileges
                    object.objectKey object } k =
                lookupBits (revokeDirMap g.directPrivileges object.objectKey
                  (o.revokePrivileges object)) k from rfl, this] at hk
              exact hk
            exact heffmem k (hdc n g hg k hkb) hkk
        · rw [if_neg hm] at hgm
          exact hdc m gm hgm k hk
      have hfuel : rank n <
          (updateNode st n (fun x =>
            { x with
              directPrivileges := revokeDirMap g.directPrivileges
                object.objectKey (o.revokePrivileges object),
              effectivePrivileges := revokeEffMap g.effectivePrivileges
                object.objectKey object })).length + 1 := by
        rw [updateNode_length]
        exact Nat.lt_succ_of_le hrb
      obtain ⟨M2, Mes, Mdc, M5⟩ :=
        updatePrivilegesProp_spec _ _ n rank
          (ranksOk_edges _ _ hedges rank hrank)
          (rolesResolve_edges _ _ hedges hrr)
          (bidirOk_edges _ _ hedges hb) hds1 hes1 hdc1 hfuel
      rw [hop]
      refine ⟨?_, ?_, ?_⟩
      · constructor
        · intro h
          exact absurd rfl h
        · intro hall
          exact absurd (hall o rfl) hz
      · intro h
        exact absurd rfl h
      · intro o' ho' hnz
        cases ho'
        refine ⟨rfl, ?_, ?_, ?_⟩
        · by_cases hld : Nat.ldiff o.privs.privileges
              object.privs.privileges = 0
          · rw [if_pos hld,
              if_neg (by rw [hasAny_iff, hresbits]; simp [hld])]
          · rw [if_neg hld, if_pos (by rw [hasAny_iff, hresbits]; exact hld)]
        · intro g' hg'
          have hskel := updatePrivilegesProp_skeleton
            ((updateNode st n (fun x =>
              { x with
                directPrivileges := revokeDirMap g.directPrivileges
                  object.objectKey (o.revokePrivileges object),
                effectivePrivileges := revokeEffMap g.effectivePrivileges
                  object.objectKey object })).length + 1)
            (updateNode st n (fun x =>
              { x with
                directPrivileges := revokeDirMap g.directPrivileges
                  object.objectKey (o.revokePrivileges object),
                effectivePrivileges := revokeEffMap g.effectivePrivileges
                  object.objectKey object })) n
          obtain ⟨g1, hg1, hsk⟩ := skelRel_elim _ _ hskel n g' hg'
          rw [hfind1 n, if_pos rfl] at hg1
          cases hg1
          rw [hsk.2.2.2.2]
          constructor
          · show mapLookup (revokeDirMap g.directPrivileges object.objectKey
              (o.revokePrivileges object)) object.objectKey = _
            unfold revokeDirMap
            by_cases hld : Nat.ldiff o.privs.privileges
                object.privs.privileges = 0
            · rw [if_neg (by rw [hasAny_iff, hresbits]; simp [hld]),
                mapLookup_erase, if_pos rfl, if_pos hld]
            · rw [if_pos (by rw [hasAny_iff, hresbits]; exact hld),
                mapLookup_insert, if_pos rfl, if_neg hld]
          · intro k' hk'
            show mapLookup (revokeDirMap g.directPrivileges object.objectKey
              (o.revokePrivileges object)) k' = _
            unfold revokeDirMap
            by_cases ha : (o.revokePrivileges object).privs.hasAny = true
            · rw [if_pos ha, mapLookup_insert, if_neg (fun h => hk' h.symm)]
            · rw [if_neg ha, mapLookup_erase, if_neg (fun h => hk' h.symm)]
        · intro m g' hrm hfind
          exact M5 m g' ((ReachDown_edges _ _ hedges n m).mp hrm) hfind

theorem sameEdges_trans (a b c : GranteeNode) (h1 : sameEdges a b)
    (h2 : sameEdges b c) : sameEdges a c := by
  obtain ⟨n1, u1, r1, g1⟩ := h1
  obtain ⟨n2, u2, r2, g2⟩ := h2
  exact ⟨n2.trans n1, u2.trans u1, r2.trans r1, g2.trans g1⟩

theorem edgesEq_trans (s1 s2 s3 : GraphState) (h1 : edgesEq s1 s2)
    (h2 : edgesEq s2 s3) : edgesEq s1 s3 := by
  intro m
  have ha := h1 m
  have hb := h2 m
  cases hx : findNode s1 m with
  | none =>
    rw [hx] at ha
    cases hy : findNode s2 m with
    | none =>
      rw [hy] at ha hb
      cases hz : findNode s3 m with
      | none => exact trivial
      | some z => rw [hz] at hb; exact hb.elim
    | some y => rw [hy] at ha; exact ha.elim
  | some x =>
    rw [hx] at ha
    cases hy : findNode s2 m with
    | none => rw [hy] at ha; exact ha.elim
    | some y =>
      rw [hy] at ha hb
      cases hz : findNode s3 m with
      | none => rw [hz] at hb; exact hb.elim
      | some z =>
        rw [hz] at hb
        exact sameEdges_trans x y z ha hb

/-- The state after replacing both privilege maps of the node named `n` and
recomputing from it (the common tail of `grantPrivileges` and
`revokePrivileges`). -/
def updateMapsProp (st : GraphState) (n : String) (eff dir : DBObjectMap) :
    GraphState :=
  updatePrivilegesProp
    ((updateNode st n (fun x =>
      { x with effectivePrivileges := eff, directPrivileges := dir })).length + 1)
    (updateNode st n (fun x =>
      { x with effectivePrivileges := eff, directPrivileges := dir }))
    n

/-- Replacing both privilege maps of one node and recomputing: the node
survives with the new direct map and its old edges, unreachable nodes keep
their entries, every reachable node is revalidated, all edges are kept, the
map invariants hold again, and a valid state stays valid. -/
theorem updateMapsProp_descr (st : GraphState) (n : String) (g : GranteeNode)
    (eff dir : DBObjectMap) (rank : String → Nat)
    (hg : findNode st n = some g) (hrank : RanksOk st rank)
    (hrr : RolesResolve st) (hb : BidirOk st) (hds : DirSorted st)
    (hes : EffSorted st) (hdc : DirCov st) (hrb : rank n ≤ st.length)
    (hdirS : mapSorted dir) (heffS : mapSorted eff)
    (hcov : ∀ k, lookupBits dir k ≠ 0 → k ∈ mapKeys eff) :
    (∃ g', findNode (updateMapsProp st n eff dir) n = some g') ∧
    (∀ g', findNode (updateMapsProp st n eff dir) n = some g' →
      g'.directPrivileges = dir ∧ g'.roles = g.roles) ∧
    (∀ m, ¬ReachDown st n m →
      findNode (updateMapsProp st n eff dir) m = findNode st m) ∧
    (∀ m g', ReachDown st n m →
      findNode (updateMapsProp st n eff dir) m = some g' →
      NodeValid (updateMapsProp st n eff dir) g') ∧
    edgesEq st (updateMapsProp st n eff dir) ∧
    DirSorted (updateMapsProp st n eff dir) ∧
    EffSorted (updateMapsProp st n eff dir) ∧
    DirCov (updateMapsProp st n eff dir) ∧
    (ValidAll st → ValidAll (updateMapsProp st n eff dir)) := by
  unfold updateMapsProp
  have hedges := edgesEq_updateNode st n
    (fun x => { x with effectivePrivileges := eff, directPrivileges := dir })
    (fun x => ⟨rfl, rfl, rfl, rfl⟩)
  have hst1 := findNode_updateNode st n
    (fun x => { x with effectivePrivileges := eff, directPrivileges := dir })
    (fun x => rfl)
  have hds1 : DirSorted (updateNode st n
      (fun x =>
        { x with effectivePrivileges := eff, directPrivileges := dir })) := by
    intro m x hm
    rw [hst1 m] at hm
    by_cases hnm : n = m
    · rw [if_pos hnm, hg] at hm
      rw [← Option.some.inj hm]
      exact hdirS
    · rw [if_neg hnm] at hm
      exact hds m x hm
  have hes1 : EffSorted (updateNode st n
      (fun x =>
        { x with effectivePrivileges := eff, directPrivileges := dir })) := by
    intro m x hm
    rw [hst1 m] at hm
    by_cases hnm : n = m
    · rw [if_pos hnm, hg] at hm
      rw [← Option.some.inj hm]
      exact heffS
    · rw [if_neg hnm] at hm
      exact hes m x hm
  have hdc1 : DirCov (updateNode st n
      (fun x =>
        { x with effectivePrivileges := eff, directPrivileges := dir })) := by
    intro m x hm k hk
    rw [hst1 m] at hm
    by_cases hnm : n = m
    · rw [if_pos hnm, hg] at hm
      have hinj := Option.some.inj hm
      rw [← hinj] at hk ⊢
      exact hcov k hk
    · rw [if_neg hnm] at hm
      exact hdc m x hm k hk
  obtain ⟨hut, hesX, hdcX, hvalidX⟩ := updatePrivilegesProp_spec
    ((updateNode st n (fun x =>
      { x with effectivePrivileges := eff, directPrivileges := dir })).length + 1)
    (updateNode st n (fun x =>
      { x with effectivePrivileges := eff, directPrivileges := dir }))
    n rank
    (ranksOk_edges _ _ hedges rank hrank)
    (rolesResolve_edges _ _ hedges hrr)
    (bidirOk_edges _ _ hedges hb)
    hds1 hes1 hdc1
    (by rw [updateNode_length]; omega)
  have hskel := updatePrivilegesProp_skeleton
    ((updateNode st n (fun x =>
      { x with effectivePrivileges := eff, directPrivileges := dir })).length + 1)
    (updateNode st n (fun x =>
      { x with effectivePrivileges := eff, directPrivileges := dir }))
    n
  have hC : ∀ m, ¬ReachDown st n m →
      findNode (updatePrivilegesProp
        ((updateNode st n (fun x =>
          { x with effectivePrivileges := eff, directPrivileges := dir })).length + 1)
        (updateNode st n (fun x =>
          { x with effectivePrivileges := eff, directPrivileges := dir }))
        n) m = findNode st m := by
    intro m hnr
    have hnr1 : ¬ReachDown (updateNode st n
        (fun x =>
          { x with effectivePrivileges := eff, directPrivileges := dir }))
        n m :=
      fun h => hnr ((ReachDown_edges _ _ hedges n m).mpr h)
    by_cases hnm : n = m
    · exact absurd (by rw [← hnm]; exact Relation.ReflTransGen.refl) hnr
    · rw [hut m hnr1, hst1 m, if_neg hnm]
  have hD : ∀ m g', ReachDown st n m →
      findNode (updatePrivilegesProp
        ((updateNode st n (fun x =>
          { x with effectivePrivileges := eff, directPrivileges := dir })).length + 1)
        (updateNode st n (fun x =>
          { x with effectivePrivileges := eff, directPrivileges := dir }))
        n) m = some g' →
      NodeValid (updatePrivilegesProp
        ((updateNode st n (fun x =>
          { x with effectivePrivileges := eff, directPrivileges := dir })).length + 1)
        (updateNode st n (fun x =>
          { x with effectivePrivileges := eff, directPrivileges := dir }))
        n) g' := by
    intro m g' hrm hfm
    exact hvalidX m g' ((ReachDown_edges _ _ hedges n m).mp hrm) hfm
  refine ⟨?_, ?_, hC, hD, ?_, ?_, hesX, hdcX, ?_⟩
  · obtain ⟨g', hg', _⟩ := skelRel_intro _ _ hskel n _
      (by rw [hst1 n, if_pos rfl, hg]; rfl)
    exact ⟨g', hg'⟩
  · intro g' hg'
    obtain ⟨gm, hgm, hsk⟩ := skelRel_elim _ _ hskel n g' hg'
    rw [hst1 n, if_pos rfl, hg] at hgm
    have hinj := Option.some.inj hgm
    constructor
    · rw [hsk.2.2.2.2, ← hinj]
    · rw [hsk.2.2.1, ← hinj]
  · exact edgesEq_trans _ _ _ hedges (skeletonEq_edgesEq _ _ hskel)
  · exact dirSorted_skeleton _ _ hskel hds1
  · intro hva m x hm
    by_cases hr : ReachDown st n m
    · exact hD m x hr hm
    · rw [hC m hr] at hm
      exact nodeValid_untouched st _ n hC hrr hb m x hm hr (hva m x hm)

theorem updatePrivilegesProp_length (fuel : Nat) :
    ∀ (st : GraphState) (n : String),
      (updatePrivilegesProp fuel st n).length = st.length := by
  induction fuel with
  | zero => intro st n; rfl
  | succ fuel ih =>
    intro st n
    rw [updatePrivilegesProp]
    cases hg : findNode st n with
    | none => rfl
    | some g =>
      simp only
      by_cases hu : g.isUser
      · rw [if_pos hu, updateNode_length]
      · rw [if_neg hu]
        have hfold : ∀ (l : List String) (acc : GraphState),
            (l.foldl (fun a c => updatePrivilegesProp fuel a c) acc).length =
              acc.length := by
          intro l
          induction l with
          | nil => intro acc; rfl
          | cons c t iht =>
            intro acc
            rw [List.foldl_cons, iht, ih]
        rw [hfold, updateNode_length]

theorem grantPrivilegesOp_length (st : GraphState) (n : String)
    (object : DBObject) :
    (grantPrivilegesOp st n object).length = st.length := by
  cases hg : findNode st n with
  | none =>
    unfold grantPrivilegesOp
    simp only [hg]
  | some g =>
    unfold grantPrivilegesOp
    simp only [hg]
    rw [updatePrivilegesProp_length, updateNode_length]

/-- Full description of `Grantee::grantPrivileges`: the direct entry at the
object key becomes the object itself or its union with the previous entry,
other direct keys and the role edges stay, nodes the propagation cannot
reach stay, every reachable node is revalidated, and a valid sorted state
stays valid and sorted. -/
theorem grantPrivOp_descr (st : GraphState) (n : String) (object : DBObject)
    (g : GranteeNode) (rank : String → Nat)
    (hg : findNode st n = some g) (hrank : RanksOk st rank)
    (hrr : RolesResolve st) (hb : BidirOk st) (hds : DirSorted st)
    (hes : EffSorted st) (hva : ValidAll st) (hrb : rank n ≤ st.length) :
    (∃ g', findNode (grantPrivilegesOp st n object) n = some g') ∧
    (∀ g', findNode (grantPrivilegesOp st n object) n = some g' →
      mapLookup g'.directPrivileges object.objectKey =
        some (match mapLookup g.directPrivileges object.objectKey with
          | none => object
          | some o => o.grantPrivileges object) ∧
      (∀ k', k' ≠ object.objectKey →
        mapLookup g'.directPrivileges k' =
          mapLookup g.directPrivileges k') ∧
      g'.roles = g.roles) ∧
    (∀ m, ¬ReachDown st n m →
      findNode (grantPrivilegesOp st n object) m = findNode st m) ∧
    (∀ m g', ReachDown st n m →
      findNode (grantPrivilegesOp st n object) m = some g' →
      NodeValid (grantPrivilegesOp st n object) g') ∧
    edgesEq st (grantPrivilegesOp st n object) ∧
    DirSorted (grantPrivilegesOp st n object) ∧
    EffSorted (grantPrivilegesOp st n object) ∧
    DirCov (grantPrivilegesOp st n object) ∧
    ValidAll (grantPrivilegesOp st n object) := by
  have hop : grantPrivilegesOp st n object =
      updateMapsProp st n
        (match mapLookup g.effectivePrivileges object.objectKey with
          | none => mapInsert g.effectivePrivileges object.objectKey object
          | some o =>
            mapInsert g.effectivePrivileges object.objectKey
              (o.grantPrivileges object))
        (match mapLookup g.directPrivileges object.objectKey with
          | none => mapInsert g.directPrivileges object.objectKey object
          | some o =>
            mapInsert g.directPrivileges object.objectKey
              (o.grantPrivileges object)) := by
    unfold grantPrivilegesOp updateMapsProp
    simp only [hg]
  obtain ⟨h0, h1, h2, h3, h4, h5, h6, h7, h8⟩ := updateMapsProp_descr st n g
    (match mapLookup g.effectivePrivileges object.objectKey with
      | none => mapInsert g.effectivePrivileges object.objectKey object
      | some o =>
        mapInsert g.effectivePrivileges object.objectKey
          (o.grantPrivileges object))
    (match mapLookup g.directPrivileges object.objectKey with
      | none => mapInsert g.directPrivileges object.objectKey object
      | some o =>
        mapInsert g.directPrivileges object.objectKey
          (o.grantPrivileges object))
    rank hg hrank hrr hb hds hes (dirCov_of_validAll st hva) hrb
    (by
      cases hl : mapLookup g.directPrivileges object.objectKey with
      | none => exact mapSorted_insert _ _ _ (hds n g hg)
      | some o => exact mapSorted_insert _ _ _ (hds n g hg))
    (by
      cases hl : mapLookup g.effectivePrivileges object.objectKey with
      | none => exact mapSorted_insert _ _ _ (hes n g hg)
      | some o => exact mapSorted_insert _ _ _ (hes n g hg))
    (by
      intro k hk
      have hmem : k = object.objectKey ∨
          k ∈ mapKeys g.effectivePrivileges := by
        by_cases hkk : object.objectKey = k
        · exact Or.inl hkk.symm
        · refine Or.inr (dirCov_of_validAll st hva n g hg k ?_)
          intro h0
          apply hk
          show lookupBits
            (match mapLookup g.directPrivileges object.objectKey with
              | none => mapInsert g.directPrivileges object.objectKey object
              | some o =>
                mapInsert g.directPrivileges object.objectKey
                  (o.grantPrivileges object)) k = 0
          cases hl : mapLookup g.directPrivileges object.objectKey with
          | none =>
            show lookupBits
              (mapInsert g.directPrivileges object.objectKey object) k = 0
            rw [lookupBits, mapLookup_insert, if_neg hkk]
            exact h0
          | some o =>
            show lookupBits
              (mapInsert g.directPrivileges object.objectKey
                (o.grantPrivileges object)) k = 0
            rw [lookupBits, mapLookup_insert, if_neg hkk]
            exact h0
      cases hl : mapLookup g.effectivePrivileges object.objectKey with
      | none =>
        refine (mapKeys_insert _ _ _ _).mpr ?_
        rcases hmem with h | h
        · exact Or.inl h
        · exact Or.inr h
      | some o =>
        refine (mapKeys_insert _ _ _ _).mpr ?_
        rcases hmem with h | h
        · exact Or.inl h
        · exact Or.inr h)
  rw [hop]
  refine ⟨h0, ?_, h2, h3, h4, h5, h6, h7, h8 hva⟩
  intro g' hg'
  obtain ⟨hdir, hrol⟩ := h1 g' hg'
  refine ⟨?_, ?_, hrol⟩
  · rw [hdir]
    cases hl : mapLookup g.directPrivileges object.objectKey with
    | none => rw [mapLookup_insert, if_pos rfl]
    | some o => rw [mapLookup_insert, if_pos rfl]
  · intro k' hk'
    rw [hdir]
    cases hl : mapLookup g.directPrivileges object.objectKey with
    | none => rw [mapLookup_insert, if_neg (fun h => hk' h.symm)]
    | some o => rw [mapLookup_insert, if_neg (fun h => hk' h.symm)]


/-- Full description of the success path of `Grantee::revokePrivileges`
against a present nonempty direct entry: nothing is thrown, the node
survives with the subtracted direct map and its old edges, unreachable
nodes keep their entries, every reachable node is revalidated, the edges
are kept, and a valid sorted state stays valid and sorted. -/
theorem revokePrivOp_full (st : GraphState) (n : String) (object : DBObject)
    (g : GranteeNode) (o : DBObject) (rank : String → Nat)
    (hg : findNode st n = some g) (hrank : RanksOk st rank)
    (hrr : RolesResolve st) (hb : BidirOk st) (hds : DirSorted st)
    (hes : EffSorted st) (hva : ValidAll st) (hrb : rank n ≤ st.length)
    (hlook : mapLookup g.directPrivileges object.objectKey = some o)
    (hone : o.privs.privileges ≠ 0) :
    (revokePrivilegesOp st n object).1 = none ∧
    (∃ g', findNode (revokePrivilegesOp st n object).2.2 n = some g') ∧
    (∀ g', findNode (revokePrivilegesOp st n object).2.2 n = some g' →
      g'.directPrivileges =
        revokeDirMap g.directPrivileges object.objectKey
          (o.revokePrivileges object) ∧
      g'.roles = g.roles) ∧
    (∀ m, ¬ReachDown st n m →
      findNode (revokePrivilegesOp st n object).2.2 m = findNode st m) ∧
    (∀ m g', ReachDown st n m →
      findNode (revokePrivilegesOp st n object).2.2 m = some g' →
      NodeValid (revokePrivilegesOp st n object).2.2 g') ∧
    edgesEq st (revokePrivilegesOp st n object).2.2 ∧
    DirSorted (revokePrivilegesOp st n object).2.2 ∧
    EffSorted (revokePrivilegesOp st n object).2.2 ∧
    DirCov (revokePrivilegesOp st n object).2.2 ∧
    ValidAll (revokePrivilegesOp st n object).2.2 := by
  have hAny : o.privs.hasAny = true := (hasAny_iff o.privs).mpr hone
  have hop : revokePrivilegesOp st n object =
      (none,
        if (o.revokePrivileges object).privs.hasAny then
          some (o.revokePrivileges object) else none,
        updateMapsProp st n
          (revokeEffMap g.effectivePrivileges object.objectKey object)
          (revokeDirMap g.directPrivileges object.objectKey
            (o.revokePrivileges object))) := by
    unfold revokePrivilegesOp updateMapsProp
    simp only [hg, hlook]
    rw [if_neg (fun h => Bool.noConfusion (hAny.symm.trans h))]
  obtain ⟨h0, h1, h2, h3, h4, h5, h6, h7, h8⟩ := updateMapsProp_descr st n g
    (revokeEffMap g.effectivePrivileges object.objectKey object)
    (revokeDirMap g.directPrivileges object.objectKey
      (o.revokePrivileges object))
    rank hg hrank hrr hb hds hes (dirCov_of_validAll st hva) hrb
    (by
      rw [revokeDirMap]
      by_cases hna : (o.revokePrivileges object).privs.hasAny = true
      · rw [if_pos hna]
        exact mapSorted_insert _ _ _ (hds n g hg)
      · rw [if_neg hna]
        exact mapSorted_filter _ _ (hds n g hg))
    (by
      rw [revokeEffMap]
      cases hc : mapLookup g.effectivePrivileges object.objectKey with
      | none => exact hes n g hg
      | some cached =>
        show mapSorted (if cached.privs.hasAny then
            (if (cached.revokePrivileges object).privs.hasAny then
              mapInsert g.effectivePrivileges object.objectKey
                (cached.revokePrivileges object)
            else mapErase g.effectivePrivileges object.objectKey)
          else g.effectivePrivileges)
        by_cases hc1 : cached.privs.hasAny = true
        · rw [if_pos hc1]
          by_cases hc2 : (cached.revokePrivileges object).privs.hasAny = true
          · rw [if_pos hc2]
            exact mapSorted_insert _ _ _ (hes n g hg)
          · rw [if_neg hc2]
            exact mapSorted_filter _ _ (hes n g hg)
        · rw [if_neg hc1]
          exact hes n g hg)
    (by
      intro k hk
      by_cases hkk : object.objectKey = k
      · subst hkk
        rw [revokeDirMap] at hk
        by_cases hna : (o.revokePrivileges object).privs.hasAny = true
        · have hkey_eff : object.objectKey ∈ mapKeys g.effectivePrivileges :=
            dirCov_of_validAll st hva n g hg object.objectKey
              (by
                show lookupBits g.directPrivileges object.objectKey ≠ 0
                rw [lookupBits, hlook]
                exact hone)
          rw [revokeEffMap]
          cases hc : mapLookup g.effectivePrivileges object.objectKey with
          | none =>
            rw [mem_mapKeys_iff, hc] at hkey_eff
            exact Bool.noConfusion hkey_eff
          | some cached =>
            have hv := (hva n g hg).1 object.objectKey
            have hcb : cached.privs.privileges =
                o.privs.privileges |||
                  roleBits st g.roles object.objectKey := by
              rw [effBits, lookupBits, hc, dirBits, lookupBits, hlook] at hv
              exact hv
            have hc1 : cached.privs.hasAny = true :=
              (hasAny_iff _).mpr
                (by rw [hcb]; exact lor_ne_zero_left _ _ hone)
            have hc2 : (cached.revokePrivileges object).privs.hasAny =
                true := by
              refine (hasAny_iff _).mpr ?_
              show Nat.ldiff cached.privs.privileges
                object.privs.privileges ≠ 0
              rw [hcb]
              exact ldiff_lor_ne_zero _ _ _ ((hasAny_iff _).mp hna)
            show object.objectKey ∈ mapKeys (if cached.privs.hasAny then
                (if (cached.revokePrivileges object).privs.hasAny then
                  mapInsert g.effectivePrivileges object.objectKey
                    (cached.revokePrivileges object)
                else mapErase g.effectivePrivileges object.objectKey)
              else g.effectivePrivileges)
            rw [if_pos hc1, if_pos hc2]
            exact (mapKeys_insert _ _ _ _).mpr (Or.inl rfl)
        · rw [if_neg hna] at hk
          exfalso
          apply hk
          rw [lookupBits, mapLookup_erase, if_pos rfl]
      · have hdk : lookupBits g.directPrivileges k ≠ 0 := by
          intro h0
          apply hk
          rw [revokeDirMap]
          by_cases hna : (o.revokePrivileges object).privs.hasAny = true
          · rw [if_pos hna, lookupBits, mapLookup_insert, if_neg hkk]
            exact h0
          · rw [if_neg hna, lookupBits, mapLookup_erase, if_neg hkk]
            exact h0
        have hke := dirCov_of_validAll st hva n g hg k hdk
        rw [revokeEffMap]
        cases hc : mapLookup g.effectivePrivileges object.objectKey with
        | none => exact hke
        | some cached =>
          show k ∈ mapKeys (if cached.privs.hasAny then
              (if (cached.revokePrivileges object).privs.hasAny then
                mapInsert g.effectivePrivileges object.objectKey
                  (cached.revokePrivileges object)
              else mapErase g.effectivePrivileges object.objectKey)
            else g.effectivePrivileges)
          by_cases hc1 : cached.privs.hasAny = true
          · rw [if_pos hc1]
            by_cases hc2 :
                (cached.revokePrivileges object).privs.hasAny = true
            · rw [if_pos hc2]
              exact (mapKeys_insert _ _ _ _).mpr (Or.inr hke)
            · rw [if_neg hc2]
              exact (mem_mapKeys_erase _ _ _
                (fun h => hkk h.symm)).mpr hke
          · rw [if_neg hc1]
            exact hke)
  rw [hop]
  exact ⟨rfl, h0, h1, h2, h3, h4, h5, h6, h7, h8 hva⟩

/-- C7 (amended): `revokePrivileges` fails iff the direct entry for the key
is absent or has an empty bitset, leaving both maps unchanged and returning
the sentinel; on success it subtracts the object bits from the direct
entry, erasing it and returning the null sentinel when the residual is
empty and returning the mutated entry otherwise, leaves every other direct
key alone, and recomputes and propagates the effective privileges of every
reachable node. -/
theorem revokePrivileges_spec (st : GraphState) (n : String)
    (object : DBObject) (g : GranteeNode) (rank : String → Nat)
    (hg : findNode st n = some g) (hrank : RanksOk st rank)
    (hrr : RolesResolve st) (hb : BidirOk st) (hds : DirSorted st)
    (hes : EffSorted st) (hva : ValidAll st) (hrb : rank n ≤ st.length) :
    (((revokePrivilegesOp st n object).1 ≠ none) ↔
      (∀ o, mapLookup g.directPrivileges object.objectKey = some o →
        o.privs.privileges = 0)) ∧
    ((revokePrivilegesOp st n object).1 ≠ none →
      (revokePrivilegesOp st n object).2.2 = st ∧
      (revokePrivilegesOp st n object).2.1 = none) ∧
    (∀ o, mapLookup g.directPrivileges object.objectKey = some o →
      o.privs.privileges ≠ 0 →
      (revokePrivilegesOp st n object).1 = none ∧
      (revokePrivilegesOp st n object).2.1 =
        (if Nat.ldiff o.privs.privileges object.privs.privileges = 0 then
          none else some (o.revokePrivileges object)) ∧
      (∀ g', findNode (revokePrivilegesOp st n object).2.2 n = some g' →
        mapLookup g'.directPrivileges object.objectKey =
          (if Nat.ldiff o.privs.privileges object.privs.privileges = 0 then
            none else some (o.revokePrivileges object)) ∧
        ∀ k', k' ≠ object.objectKey →
          mapLookup g'.directPrivileges k' =
            mapLookup g.directPrivileges k') ∧
      (∀ m g', ReachDown st n m →
        findNode (revokePrivilegesOp st n object).2.2 m = some g' →
        NodeValid (revokePrivilegesOp st n object).2.2 g')) :=
  revokePrivOp_descr st n object g rank hg hrank hrr hb hds hes hva hrb

/-! ### Edge-set bookkeeping for the role-graph operations -/

theorem mem_insertName_self (l : List String) (x : String) :
    x ∈ insertName l x := by
  rw [insertName]
  by_cases h : x ∈ l
  · rw [if_pos h]; exact h
  · rw [if_neg h]; exact List.mem_cons_self x l

theorem mem_insertName_of_mem (l : List String) (x a : String) (h : a ∈ l) :
    a ∈ insertName l x := by
  rw [insertName]
  by_cases hx : x ∈ l
  · rw [if_pos hx]; exact h
  · rw [if_neg hx]; exact List.mem_cons_of_mem x h

theorem mem_insertName (l : List String) (x a : String)
    (h : a ∈ insertName l x) : a = x ∨ a ∈ l := by
  rw [insertName] at h
  by_cases hx : x ∈ l
  · rw [if_pos hx] at h; exact Or.inr h
  · rw [if_neg hx] at h
    rcases List.mem_cons.mp h with h | h
    · exact Or.inl h
    · exact Or.inr h

theorem findNode_removeNode (st : GraphState) (n m : String) :
    findNode (removeNode st n) m =
      if m = n then none else findNode st m := by
  induction st with
  | nil => by_cases h : m = n <;> simp [removeNode, findNode, h]
  | cons x t ih =>
    rw [removeNode] at ih ⊢
    rw [List.filter_cons]
    by_cases hx : x.name = n
    · rw [if_neg (by simp [hx]), ih]
      by_cases hm : m = n
      · rw [if_pos hm, if_pos hm]
      · rw [if_neg hm, if_neg hm,
          show findNode (x :: t) m = findNode t m from by
            rw [findNode, if_neg (fun hc : x.name = m => hm (hc ▸ hx))]]
    · rw [if_pos (by simp [hx])]
      by_cases hm : m = n
      · rw [if_pos hm, findNode,
          if_neg (fun hc : x.name = m => hx (hm ▸ hc)), ih, if_pos hm]
      · rw [if_neg hm, findNode, findNode]
        by_cases hxm : x.name = m
        · rw [if_pos hxm, if_pos hxm]
        · rw [if_neg hxm, if_neg hxm, ih, if_neg hm]

theorem filter_ne_idem (l : List String) (n : String) :
    (l.filter (fun z => z ≠ n)).filter (fun z => z ≠ n) =
      l.filter (fun z => z ≠ n) := by
  apply List.filter_eq_self.mpr
  intro a ha
  exact (List.mem_filter.mp ha).2

theorem findNode_detachFold (names : List String) (st : GraphState)
    (n m : String) :
    findNode
      (names.foldl
        (fun acc rname => updateNode acc rname
          (fun x => { x with grantees := x.grantees.filter (fun z => z ≠ n) }))
        st) m =
      if m ∈ names then
        (findNode st m).map
          (fun x => { x with grantees := x.grantees.filter (fun z => z ≠ n) })
      else findNode st m := by
  induction names generalizing st with
  | nil => rw [List.foldl_nil, if_neg (List.not_mem_nil m)]
  | cons rn rest ih =>
    rw [List.foldl_cons, ih]
    rw [findNode_updateNode st rn
      (fun x => { x with grantees := x.grantees.filter (fun z => z ≠ n) })
      (fun x => rfl) m]
    by_cases hrest : m ∈ rest
    · rw [if_pos hrest, if_pos (List.mem_cons_of_mem rn hrest)]
      by_cases hrn : rn = m
      · rw [if_pos hrn, hrn]
        cases findNode st m with
        | none => rfl
        | some x =>
          show (some ({ x with grantees :=
              (x.grantees.filter (fun z => z ≠ n)).filter (fun z => z ≠ n) } :
                GranteeNode) : Option GranteeNode) =
            some ({ x with grantees := x.grantees.filter (fun z => z ≠ n) } :
              GranteeNode)
          rw [filter_ne_idem]
      · rw [if_neg hrn]
    · rw [if_neg hrest]
      by_cases hrn : rn = m
      · rw [if_pos hrn, if_pos (List.mem_cons.mpr (Or.inl hrn.symm)), hrn]
      · rw [if_neg hrn,
          if_neg (fun hc => (List.mem_cons.mp hc).elim
            (fun h => hrn h.symm) hrest)]

theorem findNode_update2 (st : GraphState) (a b : String)
    (f1 f2 : GranteeNode → GranteeNode) (hf1 : ∀ g, (f1 g).name = g.name)
    (hf2 : ∀ g, (f2 g).name = g.name) (m : String) :
    findNode (updateNode (updateNode st a f1) b f2) m =
      if b = m then
        (if a = m then (findNode st m).map f1 else findNode st m).map f2
      else if a = m then (findNode st m).map f1
      else findNode st m := by
  rw [findNode_updateNode _ b f2 hf2 m]
  by_cases hbm : b = m
  · rw [if_pos hbm, if_pos hbm, hbm, findNode_updateNode st a f1 hf1 m]
    by_cases ham : a = m
    · rw [if_pos ham, if_pos ham, ham]
    · rw [if_neg ham, if_neg ham]
  · rw [if_neg hbm, if_neg hbm, findNode_updateNode st a f1 hf1 m]
    by_cases ham : a = m
    · rw [if_pos ham, if_pos ham, ham]
    · rw [if_neg ham, if_neg ham]

theorem findNode_singleton (x : GranteeNode) (m : String) (g : GranteeNode)
    (h : findNode [x] m = some g) : g = x ∧ x.name = m := by
  rw [findNode] at h
  by_cases hx : x.name = m
  · rw [if_pos hx] at h
    cases h
    exact ⟨rfl, hx⟩
  · rw [if_neg hx] at h
    exact absurd h (by simp [findNode])

/-- The pointwise edge change of a successful `grantRole(grantee, role)`:
the role name joins the grantee's `roles_`, the grantee name joins the
role's `grantees_`. -/
def grantShape (gname rname m : String) (x : GranteeNode) : GranteeNode :=
  { x with
    roles := if gname = m then insertName x.roles rname else x.roles,
    grantees := if rname = m then insertName x.grantees gname else x.grantees }

/-- The pointwise edge change of `revokeRole(grantee, role)`: both edge
endpoints drop the opposite name. -/
def revokeShape (gname rname m : String) (x : GranteeNode) : GranteeNode :=
  { x with
    roles := if gname = m then x.roles.filter (fun z => z ≠ rname)
      else x.roles,
    grantees := if rname = m then x.grantees.filter (fun z => z ≠ gname)
      else x.grantees }

theorem edgeRel_map_elim (st res : GraphState)
    (f : String → GranteeNode → GranteeNode)
    (hdesc : ∀ mm, edgeRel ((findNode st mm).map (f mm)) (findNode res mm))
    (m : String) (g' : GranteeNode) (h' : findNode res m = some g') :
    ∃ x, findNode st m = some x ∧ sameEdges (f m x) g' := by
  have hm := hdesc m
  rw [h'] at hm
  cases hx : findNode st m with
  | none => rw [hx] at hm; exact hm.elim
  | some x => rw [hx] at hm; exact ⟨x, rfl, hm⟩

theorem revokeRoleOp_fallback (st : GraphState) (gname rname : String)
    (h : findNode st gname = none ∨ findNode st rname = none) :
    (revokeRoleOp st gname rname).2 = st := by
  unfold revokeRoleOp
  rcases h with h | h
  · simp only [h]
  · cases hg : findNode st gname with
    | none => simp only [hg]
    | some g => simp only [hg, h]

theorem grantRoleOp_fallback (st : GraphState) (gname rname : String)
    (h : findNode st gname = none ∨ findNode st rname = none) :
    (grantRoleOp st gname rname).2 = st := by
  unfold grantRoleOp
  rcases h with h | h
  · simp only [h]
  · cases hg : findNode st gname with
    | none => simp only [hg]
    | some g => simp only [hg, h]

theorem revokeRoleOp_edges (st : GraphState) (gname rname : String)
    (g r : GranteeNode) (hg : findNode st gname = some g)
    (hr : findNode st rname = some r) (m : String) :
    edgeRel ((findNode st m).map (revokeShape gname rname m))
      (findNode (revokeRoleOp st gname rname).2 m) := by
  have hst2 : ∀ mm, findNode
      (updateNode (updateNode st gname
        (fun x => { x with roles := x.roles.filter (fun z => z ≠ rname) }))
        rname
        (fun x =>
          { x with grantees := x.grantees.filter (fun z => z ≠ gname) })) mm =
      (findNode st mm).map (revokeShape gname rname mm) := by
    intro mm
    rw [findNode_update2 st gname rname
      (fun x => { x with roles := x.roles.filter (fun z => z ≠ rname) })
      (fun x => { x with grantees := x.grantees.filter (fun z => z ≠ gname) })
      (fun x => rfl) (fun x => rfl) mm]
    by_cases h2 : rname = mm
    · rw [if_pos h2]
      by_cases h1 : gname = mm
      · rw [if_pos h1]
        cases findNode st mm with
        | none => rfl
        | some x =>
          show (some _ : Option GranteeNode) = some (revokeShape gname rname mm x)
          rw [revokeShape, if_pos h1, if_pos h2]
      · rw [if_neg h1]
        cases findNode st mm with
        | none => rfl
        | some x =>
          show (some _ : Option GranteeNode) = some (revokeShape gname rname mm x)
          rw [revokeShape, if_neg h1, if_pos h2]
    · rw [if_neg h2]
      by_cases h1 : gname = mm
      · rw [if_pos h1]
        cases findNode st mm with
        | none => rfl
        | some x =>
          show (some _ : Option GranteeNode) = some (revokeShape gname rname mm x)
          rw [revokeShape, if_pos h1, if_neg h2]
      · rw [if_neg h1]
        cases hsm : findNode st mm with
        | none => rfl
        | some x =>
          show (some x : Option GranteeNode) = some (revokeShape gname rname mm x)
          rw [revokeShape, if_neg h1, if_neg h2]
  by_cases hmem : gname ∈ r.grantees
  · have hop : (revokeRoleOp st gname rname).2 =
        updatePrivilegesProp
          ((updateNode (updateNode st gname
            (fun x => { x with roles := x.roles.filter (fun z => z ≠ rname) }))
            rname
            (fun x => { x with
              grantees := x.grantees.filter (fun z => z ≠ gname) })).length + 1)
          (updateNode (updateNode st gname
            (fun x => { x with roles := x.roles.filter (fun z => z ≠ rname) }))
            rname
            (fun x => { x with
              grantees := x.grantees.filter (fun z => z ≠ gname) }))
          gname := by
      unfold revokeRoleOp
      simp only [hg, hr]
      rw [if_pos hmem]
    rw [hop]
    have hsk := skeletonEq_edgesEq _ _
      (updatePrivilegesProp_skeleton
        ((updateNode (updateNode st gname
          (fun x => { x with roles := x.roles.filter (fun z => z ≠ rname) }))
          rname
          (fun x => { x with
            grantees := x.grantees.filter (fun z => z ≠ gname) })).length + 1)
        (updateNode (updateNode st gname
          (fun x => { x with roles := x.roles.filter (fun z => z ≠ rname) }))
          rname
          (fun x => { x with
            grantees := x.grantees.filter (fun z => z ≠ gname) }))
        gname)
    have := hsk m
    rw [hst2 m] at this
    exact this
  · have hop : (revokeRoleOp st gname rname).2 =
        updateNode st gname
          (fun x => { x with roles := x.roles.filter (fun z => z ≠ rname) }) := by
      unfold revokeRoleOp
      simp only [hg, hr]
      rw [if_neg hmem]
    rw [hop,
      findNode_updateNode st gname
        (fun x => { x with roles := x.roles.filter (fun z => z ≠ rname) })
        (fun x => rfl) m]
    by_cases h1 : gname = m
    · rw [if_pos h1, ← h1, hg]
      show sameEdges (revokeShape gname rname gname g) _
      refine ⟨rfl, rfl, ?_, ?_⟩
      · show g.roles.filter (fun z => z ≠ rname) =
          (revokeShape gname rname gname g).roles
        rw [revokeShape, if_pos rfl]
      · show g.grantees = (revokeShape gname rname gname g).grantees
        rw [revokeShape]
        by_cases h2 : rname = gname
        · rw [if_pos h2]
          have hgr : g = r := by
            rw [← h2] at hg
            rw [hg] at hr
            exact Option.some.inj hr
          have hid : g.grantees.filter (fun z => z ≠ gname) = g.grantees :=
            List.filter_eq_self.mpr
              (fun a ha => decide_eq_true
                (fun hae : a = gname => hmem (hae ▸ hgr ▸ ha)))
          rw [hid]
        · rw [if_neg h2]
    · rw [if_neg h1]
      cases hsm : findNode st m with
      | none => exact trivial
      | some x =>
        show sameEdges (revokeShape gname rname m x) x
        refine ⟨rfl, rfl, ?_, ?_⟩
        · show x.roles = (revokeShape gname rname m x).roles
          rw [revokeShape, if_neg h1]
        · show x.grantees = (revokeShape gname rname m x).grantees
          rw [revokeShape]
          by_cases h2 : rname = m
          · rw [if_pos h2]
            have hxr : x = r := by
              rw [← h2] at hsm
              rw [hsm] at hr
              exact Option.some.inj hr
            have hid : x.grantees.filter (fun z => z ≠ gname) = x.grantees :=
              List.filter_eq_self.mpr
                (fun a ha => decide_eq_true
                  (fun hae : a = gname => hmem (hae ▸ hxr ▸ ha)))
            rw [hid]
          · rw [if_neg h2]

/-- The state after the two edge insertions of `grantRole`, node by
node. -/
theorem grant_st2_descr (st : GraphState) (gname rname : String) :
    ∀ mm, findNode
      (updateNode (updateNode st gname
        (fun x => { x with roles := insertName x.roles rname }))
        rname
        (fun x => { x with grantees := insertName x.grantees gname })) mm =
      (findNode st mm).map (grantShape gname rname mm) := by
  intro mm
  rw [findNode_update2 st gname rname
    (fun x => { x with roles := insertName x.roles rname })
    (fun x => { x with grantees := insertName x.grantees gname })
    (fun x => rfl) (fun x => rfl) mm]
  by_cases h2 : rname = mm
  · rw [if_pos h2]
    by_cases h1 : gname = mm
    · rw [if_pos h1]
      cases findNode st mm with
      | none => rfl
      | some x =>
        show (some _ : Option GranteeNode) = some (grantShape gname rname mm x)
        rw [grantShape, if_pos h1, if_pos h2]
    · rw [if_neg h1]
      cases findNode st mm with
      | none => rfl
      | some x =>
        show (some _ : Option GranteeNode) = some (grantShape gname rname mm x)
        rw [grantShape, if_neg h1, if_pos h2]
  · rw [if_neg h2]
    by_cases h1 : gname = mm
    · rw [if_pos h1]
      cases findNode st mm with
      | none => rfl
      | some x =>
        show (some _ : Option GranteeNode) = some (grantShape gname rname mm x)
        rw [grantShape, if_pos h1, if_neg h2]
    · rw [if_neg h1]
      cases hsm : findNode st mm with
      | none => rfl
      | some x =>
        show (some x : Option GranteeNode) = some (grantShape gname rname mm x)
        rw [grantShape, if_neg h1, if_neg h2]

theorem grantRoleOp_edges (st : GraphState) (gname rname : String)
    (g r : GranteeNode) (hg : findNode st gname = some g)
    (hr : findNode st rname = some r) (hnr : rname ∉ g.roles)
    (hcy : checkCyclesDetect st gname rname = false)
    (hgr : gname ∉ r.grantees) (m : String) :
    edgeRel ((findNode st m).map (grantShape gname rname m))
      (findNode (grantRoleOp st gname rname).2 m) := by
  have hst2 := grant_st2_descr st gname rname
  have hop : (grantRoleOp st gname rname).2 =
      updatePrivilegesProp
        ((updateNode (updateNode st gname
          (fun x => { x with roles := insertName x.roles rname }))
          rname
          (fun x =>
            { x with grantees := insertName x.grantees gname })).length + 1)
        (updateNode (updateNode st gname
          (fun x => { x with roles := insertName x.roles rname }))
          rname
          (fun x => { x with grantees := insertName x.grantees gname }))
        gname := by
    unfold grantRoleOp
    simp only [hg, hr]
    rw [if_neg hnr, hcy, if_neg Bool.false_ne_true, if_neg hgr]
  rw [hop]
  have hsk := skeletonEq_edgesEq _ _
    (updatePrivilegesProp_skeleton
      ((updateNode (updateNode st gname
        (fun x => { x with roles := insertName x.roles rname }))
        rname
        (fun x =>
          { x with grantees := insertName x.grantees gname })).length + 1)
      (updateNode (updateNode st gname
        (fun x => { x with roles := insertName x.roles rname }))
        rname
        (fun x => { x with grantees := insertName x.grantees gname }))
      gname)
  have := hsk m
  rw [hst2 m] at this
  exact this

theorem bidirOk_of_grantShape (st res : GraphState) (gname rname : String)
    (hdesc : ∀ mm, edgeRel ((findNode st mm).map (grantShape gname rname mm))
      (findNode res mm))
    (hb : BidirOk st) : BidirOk res := by
  constructor
  · intro m g' hg' rn hrn r' hr'
    obtain ⟨x, hx, hs⟩ :=
      edgeRel_map_elim st res (grantShape gname rname) hdesc m g' hg'
    obtain ⟨xr, hxr, hsr⟩ :=
      edgeRel_map_elim st res (grantShape gname rname) hdesc rn r' hr'
    have hroles : g'.roles =
        if gname = m then insertName x.roles rname else x.roles := hs.2.2.1
    have hgrant : r'.grantees =
        if rname = rn then insertName xr.grantees gname else xr.grantees :=
      hsr.2.2.2
    rw [hroles] at hrn
    rw [hgrant]
    by_cases hgm : gname = m
    · rw [if_pos hgm] at hrn
      rcases mem_insertName _ _ _ hrn with hrnr | hrn'
      · rw [if_pos hrnr.symm, ← hgm]
        exact mem_insertName_self _ _
      · have hmem := hb.1 m x hx rn hrn' xr hxr
        by_cases hrr : rname = rn
        · rw [if_pos hrr]; exact mem_insertName_of_mem _ _ _ hmem
        · rw [if_neg hrr]; exact hmem
    · rw [if_neg hgm] at hrn
      have hmem := hb.1 m x hx rn hrn xr hxr
      by_cases hrr : rname = rn
      · rw [if_pos hrr]; exact mem_insertName_of_mem _ _ _ hmem
      · rw [if_neg hrr]; exact hmem
  · intro m g' hg' c hc x' hx'
    obtain ⟨x, hx, hs⟩ :=
      edgeRel_map_elim st res (grantShape gname rname) hdesc m g' hg'
    obtain ⟨xc, hxc, hsc⟩ :=
      edgeRel_map_elim st res (grantShape gname rname) hdesc c x' hx'
    have hgrant : g'.grantees =
        if rname = m then insertName x.grantees gname else x.grantees :=
      hs.2.2.2
    have hroles : x'.roles =
        if gname = c then insertName xc.roles rname else xc.roles := hsc.2.2.1
    rw [hgrant] at hc
    rw [hroles]
    by_cases hrm : rname = m
    · rw [if_pos hrm] at hc
      rcases mem_insertName _ _ _ hc with hcg | hc'
      · rw [if_pos hcg.symm, ← hrm]
        exact mem_insertName_self _ _
      · have hmem := hb.2 m x hx c hc' xc hxc
        by_cases hgc : gname = c
        · rw [if_pos hgc]; exact mem_insertName_of_mem _ _ _ hmem
        · rw [if_neg hgc]; exact hmem
    · rw [if_neg hrm] at hc
      have hmem := hb.2 m x hx c hc xc hxc
      by_cases hgc : gname = c
      · rw [if_pos hgc]; exact mem_insertName_of_mem _ _ _ hmem
      · rw [if_neg hgc]; exact hmem

theorem bidirOk_of_revokeShape (st res : GraphState) (gname rname : String)
    (hdesc : ∀ mm, edgeRel ((findNode st mm).map (revokeShape gname rname mm))
      (findNode res mm))
    (hb : BidirOk st) : BidirOk res := by
  constructor
  · intro m g' hg' rn hrn r' hr'
    obtain ⟨x, hx, hs⟩ :=
      edgeRel_map_elim st res (revokeShape gname rname) hdesc m g' hg'
    obtain ⟨xr, hxr, hsr⟩ :=
      edgeRel_map_elim st res (revokeShape gname rname) hdesc rn r' hr'
    have hroles : g'.roles =
        if gname = m then x.roles.filter (fun z => z ≠ rname) else x.roles :=
      hs.2.2.1
    have hgrant : r'.grantees =
        if rname = rn then xr.grantees.filter (fun z => z ≠ gname)
        else xr.grantees := hsr.2.2.2
    rw [hroles] at hrn
    rw [hgrant]
    by_cases hgm : gname = m
    · rw [if_pos hgm] at hrn
      have hrn' := (List.mem_filter.mp hrn).1
      have hne : rn ≠ rname := of_decide_eq_true (List.mem_filter.mp hrn).2
      have hmem := hb.1 m x hx rn hrn' xr hxr
      by_cases hrr : rname = rn
      · exact absurd hrr.symm hne
      · rw [if_neg hrr]; exact hmem
    · rw [if_neg hgm] at hrn
      have hmem := hb.1 m x hx rn hrn xr hxr
      by_cases hrr : rname = rn
      · rw [if_pos hrr]
        exact List.mem_filter.mpr
          ⟨hmem, decide_eq_true (fun h : m = gname => hgm h.symm)⟩
      · rw [if_neg hrr]; exact hmem
  · intro m g' hg' c hc x' hx'
    obtain ⟨x, hx, hs⟩ :=
      edgeRel_map_elim st res (revokeShape gname rname) hdesc m g' hg'
    obtain ⟨xc, hxc, hsc⟩ :=
      edgeRel_map_elim st res (revokeShape gname rname) hdesc c x' hx'
    have hgrant : g'.grantees =
        if rname = m then x.grantees.filter (fun z => z ≠ gname)
        else x.grantees := hs.2.2.2
    have hroles : x'.roles =
        if gname = c then xc.roles.filter (fun z => z ≠ rname)
        else xc.roles := hsc.2.2.1
    rw [hgrant] at hc
    rw [hroles]
    by_cases hrm : rname = m
    · rw [if_pos hrm] at hc
      have hc' := (List.mem_filter.mp hc).1
      have hne : c ≠ gname := of_decide_eq_true (List.mem_filter.mp hc).2
      have hmem := hb.2 m x hx c hc' xc hxc
      by_cases hgc : gname = c
      · exact absurd hgc.symm hne
      · rw [if_neg hgc]; exact hmem
    · rw [if_neg hrm] at hc
      have hmem := hb.2 m x hx c hc xc hxc
      by_cases hgc : gname = c
      · rw [if_pos hgc]
        exact List.mem_filter.mpr
          ⟨hmem, decide_eq_true (fun h : m = rname => hrm h.symm)⟩
      · rw [if_neg hgc]; exact hmem

theorem bidirOk_grantRoleOp (st : GraphState) (gname rname : String)
    (hb : BidirOk st) : BidirOk (grantRoleOp st gname rname).2 := by
  cases hg : findNode st gname with
  | none => rw [grantRoleOp_fallback st gname rname (Or.inl hg)]; exact hb
  | some g =>
    cases hr : findNode st rname with
    | none => rw [grantRoleOp_fallback st gname rname (Or.inr hr)]; exact hb
    | some r =>
      by_cases hnr : rname ∈ g.roles
      · have hop : (grantRoleOp st gname rname).2 = st := by
          unfold grantRoleOp
          simp only [hg, hr]
          rw [if_pos hnr]
        rw [hop]; exact hb
      · by_cases hcy : checkCyclesDetect st gname rname = true
        · have hop : (grantRoleOp st gname rname).2 = st := by
            unfold grantRoleOp
            simp only [hg, hr]
            rw [if_neg hnr, if_pos hcy]
          rw [hop]; exact hb
        · have hcy' : checkCyclesDetect st gname rname = false := by
            cases hcb : checkCyclesDetect st gname rname
            · rfl
            · exact absurd hcb hcy
          have hgr : gname ∉ r.grantees :=
            fun hmem => hnr (hb.2 rname r hr gname hmem g hg)
          exact bidirOk_of_grantShape st _ gname rname
            (grantRoleOp_edges st gname rname g r hg hr hnr hcy' hgr) hb

theorem bidirOk_revokeRoleOp (st : GraphState) (gname rname : String)
    (hb : BidirOk st) : BidirOk (revokeRoleOp st gname rname).2 := by
  cases hg : findNode st gname with
  | none => rw [revokeRoleOp_fallback st gname rname (Or.inl hg)]; exact hb
  | some g =>
    cases hr : findNode st rname with
    | none => rw [revokeRoleOp_fallback st gname rname (Or.inr hr)]; exact hb
    | some r =>
      exact bidirOk_of_revokeShape st _ gname rname
        (revokeRoleOp_edges st gname rname g r hg hr) hb

theorem revokeRoleOp_names (st : GraphState) (gname rname m : String) :
    (findNode (revokeRoleOp st gname rname).2 m).isSome =
      (findNode st m).isSome := by
  cases hg : findNode st gname with
  | none => rw [revokeRoleOp_fallback st gname rname (Or.inl hg)]
  | some g =>
    cases hr : findNode st rname with
    | none => rw [revokeRoleOp_fallback st gname rname (Or.inr hr)]
    | some r =>
      have hd := revokeRoleOp_edges st gname rname g r hg hr m
      cases hx : findNode st m with
      | none =>
        rw [hx] at hd
        cases hres : findNode (revokeRoleOp st gname rname).2 m with
        | none => rfl
        | some y => rw [hres] at hd; exact hd.elim
      | some x =>
        rw [hx] at hd
        cases hres : findNode (revokeRoleOp st gname rname).2 m with
        | none => rw [hres] at hd; exact hd.elim
        | some y => rfl

/-- Through the `revokeRole` sweep of `Role::~Role`: bidirectionality is
kept, the role node survives, and once every grantee still pointing at the
role has been processed no surviving node lists it. -/
theorem revokeFold_inv (n : String) (l : List String) :
    ∀ acc : GraphState, BidirOk acc → (findNode acc n).isSome = true →
    (∀ z x, findNode acc z = some x → n ∈ x.roles → z ∈ l) →
    BidirOk (l.foldl (fun a gname => (revokeRoleOp a gname n).2) acc) ∧
    (findNode (l.foldl (fun a gname => (revokeRoleOp a gname n).2) acc)
      n).isSome = true ∧
    (∀ z x,
      findNode (l.foldl (fun a gname => (revokeRoleOp a gname n).2) acc) z =
        some x → n ∉ x.roles) := by
  induction l with
  | nil =>
    intro acc hb hn hcl
    rw [List.foldl_nil]
    exact ⟨hb, hn,
      fun z x hz hmem => absurd (hcl z x hz hmem) (List.not_mem_nil z)⟩
  | cons gname rest ih =>
    intro acc hb hn hcl
    rw [List.foldl_cons]
    refine ih ((revokeRoleOp acc gname n).2) (bidirOk_revokeRoleOp acc gname n hb)
      (by rw [revokeRoleOp_names]; exact hn) ?_
    intro z x' hz hmem
    cases hg : findNode acc gname with
    | none =>
      rw [revokeRoleOp_fallback acc gname n (Or.inl hg)] at hz
      have hzl := hcl z x' hz hmem
      rcases List.mem_cons.mp hzl with hzg | hzr
      · rw [hzg, hg] at hz
        exact Option.noConfusion hz
      · exact hzr
    | some g =>
      cases hrn : findNode acc n with
      | none => rw [hrn] at hn; exact absurd hn (by simp)
      | some r =>
        obtain ⟨x, hx, hs⟩ := edgeRel_map_elim acc _ (revokeShape gname n)
          (revokeRoleOp_edges acc gname n g r hg hrn) z x' hz
        have hroles : x'.roles =
            if gname = z then x.roles.filter (fun zz => zz ≠ n)
            else x.roles := hs.2.2.1
        rw [hroles] at hmem
        by_cases hgz : gname = z
        · rw [if_pos hgz] at hmem
          exact absurd rfl (of_decide_eq_true (List.mem_filter.mp hmem).2)
        · rw [if_neg hgz] at hmem
          rcases List.mem_cons.mp (hcl z x hx hmem) with h | h
          · exact absurd h.symm hgz
          · exact h

/-- Detaching a name from the grantee sets of a list of nodes and then
deleting its node keeps the surviving edges bidirectional. -/
theorem bidirOk_detach_remove (s : GraphState) (names : List String)
    (n : String) (hb : BidirOk s) :
    BidirOk (removeNode
      (names.foldl
        (fun acc rname => updateNode acc rname
          (fun x => { x with grantees := x.grantees.filter (fun z => z ≠ n) }))
        s) n) := by
  have hget : ∀ (mm : String) (gg : GranteeNode),
      (if mm ∈ names then
        (findNode s mm).map
          (fun x => { x with grantees := x.grantees.filter (fun z => z ≠ n) })
      else findNode s mm) = some gg →
      ∃ x, findNode s mm = some x ∧ gg.roles = x.roles ∧
        (gg.grantees = x.grantees.filter (fun z => z ≠ n) ∨
          gg.grantees = x.grantees) := by
    intro mm gg hgg
    by_cases hmem : mm ∈ names
    · rw [if_pos hmem] at hgg
      cases hxx : findNode s mm with
      | none => rw [hxx] at hgg; exact Option.noConfusion hgg
      | some x =>
        rw [hxx] at hgg
        have hinj := Option.some.inj hgg
        exact ⟨x, rfl, by rw [← hinj], Or.inl (by rw [← hinj])⟩
    · rw [if_neg hmem] at hgg
      exact ⟨gg, hgg, rfl, Or.inr rfl⟩
  constructor
  · intro m g' hg' rn hrn r' hr'
    rw [findNode_removeNode] at hg' hr'
    by_cases hm : m = n
    · rw [if_pos hm] at hg'; exact Option.noConfusion hg'
    rw [if_neg hm, findNode_detachFold] at hg'
    by_cases hrnn : rn = n
    · rw [if_pos hrnn] at hr'; exact Option.noConfusion hr'
    rw [if_neg hrnn, findNode_detachFold] at hr'
    obtain ⟨x, hx, hgr, _⟩ := hget m g' hg'
    obtain ⟨xr, hxr, _, hgrg⟩ := hget rn r' hr'
    rw [hgr] at hrn
    have hmem := hb.1 m x hx rn hrn xr hxr
    rcases hgrg with h | h
    · rw [h]
      exact List.mem_filter.mpr ⟨hmem, decide_eq_true hm⟩
    · rw [h]; exact hmem
  · intro m g' hg' c hc x' hx'
    rw [findNode_removeNode] at hg' hx'
    by_cases hm : m = n
    · rw [if_pos hm] at hg'; exact Option.noConfusion hg'
    rw [if_neg hm, findNode_detachFold] at hg'
    by_cases hcn : c = n
    · rw [if_pos hcn] at hx'; exact Option.noConfusion hx'
    rw [if_neg hcn, findNode_detachFold] at hx'
    obtain ⟨x, hx, _, hgrg⟩ := hget m g' hg'
    obtain ⟨xc, hxc, hro, _⟩ := hget c x' hx'
    have hc' : c ∈ x.grantees := by
      rcases hgrg with h | h
      · rw [h] at hc; exact (List.mem_filter.mp hc).1
      · rw [h] at hc; exact hc
    rw [hro]
    exact hb.2 m x hx c hc' xc hxc

/-- C5: every privilege-graph operation — `grantRole`, `revokeRole`, and the
destruction of a `Grantee` or of a `Role` — preserves the bidirectional edge
consistency `g ∈ r.grantees_ ↔ r ∈ g.roles_` over the resolvable nodes;
moreover destroying a grantee leaves no surviving node listing it among its
grantees, and destroying a role leaves no surviving node listing it among
its roles. -/
theorem bidirectional_edge_consistency (st : GraphState)
    (gname rname n : String) (hb : BidirOk st) :
    BidirOk (grantRoleOp st gname rname).2 ∧
    BidirOk (revokeRoleOp st gname rname).2 ∧
    BidirOk (destroyGranteeOp st n) ∧
    BidirOk (destroyRoleOp st n) ∧
    (findNode st n ≠ none →
      ∀ m g', findNode (destroyGranteeOp st n) m = some g' →
        n ∉ g'.grantees) ∧
    (findNode st n ≠ none →
      ∀ m g', findNode (destroyRoleOp st n) m = some g' → n ∉ g'.roles) := by
  cases hn : findNode st n with
  | none =>
    have hopG : destroyGranteeOp st n = st := by
      unfold destroyGranteeOp
      simp only [hn]
    have hopR : destroyRoleOp st n = st := by
      unfold destroyRoleOp
      simp only [hn]
    exact ⟨bidirOk_grantRoleOp st gname rname hb,
      bidirOk_revokeRoleOp st gname rname hb,
      by rw [hopG]; exact hb,
      by rw [hopR]; exact hb,
      fun hne => absurd rfl hne,
      fun hne => absurd rfl hne⟩
  | some g =>
    have hopG : destroyGranteeOp st n =
        removeNode
          (g.roles.foldl
            (fun acc rname => updateNode acc rname
              (fun x =>
                { x with grantees := x.grantees.filter (fun z => z ≠ n) }))
            st) n := by
      unfold destroyGranteeOp
      simp only [hn]
    have hopR : destroyRoleOp st n =
        removeNode
          (g.roles.foldl
            (fun acc pname => updateNode acc pname
              (fun x =>
                { x with grantees := x.grantees.filter (fun z => z ≠ n) }))
            (g.grantees.foldl (fun acc gname => (revokeRoleOp acc gname n).2)
              st)) n := by
      unfold destroyRoleOp
      simp only [hn]
    obtain ⟨hb1, _, hclean⟩ := revokeFold_inv n g.grantees st hb
      (by rw [hn]; rfl) (fun z x hz hmem => hb.1 z x hz n hmem g hn)
    refine ⟨bidirOk_grantRoleOp st gname rname hb,
      bidirOk_revokeRoleOp st gname rname hb,
      ?_, ?_, ?_, ?_⟩
    · rw [hopG]
      exact bidirOk_detach_remove st g.roles n hb
    · rw [hopR]
      exact bidirOk_detach_remove _ g.roles n hb1
    · intro _ m g' hg'
      rw [hopG, findNode_removeNode] at hg'
      by_cases hm : m = n
      · rw [if_pos hm] at hg'; exact Option.noConfusion hg'
      rw [if_neg hm, findNode_detachFold] at hg'
      by_cases hmem : m ∈ g.roles
      · rw [if_pos hmem] at hg'
        cases hxx : findNode st m with
        | none => rw [hxx] at hg'; exact Option.noConfusion hg'
        | some x =>
          rw [hxx] at hg'
          have hinj := Option.some.inj hg'
          rw [← hinj]
          intro hin
          exact absurd rfl
            (of_decide_eq_true (List.mem_filter.mp hin).2)
      · rw [if_neg hmem] at hg'
        intro hin
        exact hmem (hb.2 m g' hg' n hin g hn)
    · intro _ m g' hg'
      rw [hopR, findNode_removeNode] at hg'
      by_cases hm : m = n
      · rw [if_pos hm] at hg'; exact Option.noConfusion hg'
      rw [if_neg hm, findNode_detachFold] at hg'
      by_cases hmem : m ∈ g.roles
      · rw [if_pos hmem] at hg'
        cases hxx : findNode
            (g.grantees.foldl (fun acc gname => (revokeRoleOp acc gname n).2)
              st) m with
        | none => rw [hxx] at hg'; exact Option.noConfusion hg'
        | some x =>
          rw [hxx] at hg'
          have hinj := Option.some.inj hg'
          rw [← hinj]
          exact hclean m x hxx
      · rw [if_neg hmem] at hg'
        exact hclean m g' hg'

/-- A role holding one grantee, for exercising the graph operations. -/
def c5role : GranteeNode :=
  { name := "r0", isUser := false, roles := [], grantees := ["u0"],
    effectivePrivileges := [], directPrivileges := [] }

/-- The user granted `c5role`. -/
def c5user : GranteeNode :=
  { name := "u0", isUser := true, roles := ["r0"], grantees := [],
    effectivePrivileges := [], directPrivileges := [] }

theorem findNode_pair (x y : GranteeNode) (m : String) (g : GranteeNode)
    (h : findNode [x, y] m = some g) :
    (g = x ∧ x.name = m) ∨ (g = y ∧ y.name = m) := by
  rw [findNode] at h
  by_cases hx : x.name = m
  · rw [if_pos hx] at h
    exact Or.inl ⟨(Option.some.inj h).symm, hx⟩
  · rw [if_neg hx] at h
    exact Or.inr (findNode_singleton y m g h)

/-- C5 witness: on the two-node state `role r0 — user u0` both a grant and
a role destruction keep the edges bidirectional. -/
theorem bidirectional_edge_consistency_witness :
    BidirOk (grantRoleOp [c5role, c5user] "u0" "r0").2 ∧
    BidirOk (destroyRoleOp [c5role, c5user] "r0") := by
  have hb : BidirOk [c5role, c5user] := by
    constructor
    · intro m g hm rn hrn r hr
      rcases findNode_pair _ _ _ _ hm with ⟨rfl, hnm1⟩ | ⟨rfl, hnm2⟩
      · exact absurd hrn (List.not_mem_nil rn)
      · have hrn0 : rn = "r0" := by
          rcases List.mem_cons.mp hrn with h | h
          · exact h
          · exact absurd h (List.not_mem_nil rn)
        subst hrn0
        rcases findNode_pair _ _ _ _ hr with ⟨rfl, _⟩ | ⟨rfl, hn2⟩
        · rw [← hnm2]
          exact List.mem_cons_self _ _
        · exact absurd hn2 (by decide)
    · intro m g hm c hc x hx
      rcases findNode_pair _ _ _ _ hm with ⟨rfl, hnm1⟩ | ⟨rfl, hnm2⟩
      · have hcu : c = "u0" := by
          rcases List.mem_cons.mp hc with h | h
          · exact h
          · exact absurd h (List.not_mem_nil c)
        subst hcu
        rcases findNode_pair _ _ _ _ hx with ⟨rfl, hn2⟩ | ⟨rfl, _⟩
        · exact absurd hn2 (by decide)
        · rw [← hnm1]
          exact List.mem_cons_self _ _
      · exact absurd hc (List.not_mem_nil c)
  have h := bidirectional_edge_consistency [c5role, c5user] "u0" "r0" "r0" hb
  exact ⟨h.1, h.2.2.2.1⟩

/-! ### Correctness of the stack walk shared by checkCycles and getRoles -/

/-- One traversal step of the stack walk: `b` is among the successor names
the walk reads from `a`. -/
def Rstep (st : GraphState) (down : Bool) (a b : String) : Prop :=
  b ∈ succOf st down a

theorem mem_insertStr (l : List String) (x z : String) :
    z ∈ insertStr l x ↔ z = x ∨ z ∈ l := by
  induction l with
  | nil =>
    rw [insertStr]
    constructor
    · intro h
      exact Or.inl (List.mem_singleton.mp h)
    · intro h
      rcases h with h | h
      · exact List.mem_singleton.mpr h
      · exact absurd h (List.not_mem_nil z)
  | cons y t ih =>
    rw [insertStr]
    by_cases hxy : x = y
    · rw [if_pos hxy]
      constructor
      · intro h
        exact Or.inr h
      · intro h
        rcases h with h | h
        · exact List.mem_cons.mpr (Or.inl (h.trans hxy))
        · exact h
    · rw [if_neg hxy]
      by_cases hlt : x < y
      · rw [if_pos hlt]
        exact List.mem_cons
      · rw [if_neg hlt]
        constructor
        · intro h
          rcases List.mem_cons.mp h with h | h
          · exact Or.inr (List.mem_cons.mpr (Or.inl h))
          · rcases ih.mp h with h | h
            · exact Or.inl h
            · exact Or.inr (List.mem_cons.mpr (Or.inr h))
        · intro h
          rcases h with h | h
          · exact List.mem_cons.mpr (Or.inr (ih.mpr (Or.inl h)))
          · rcases List.mem_cons.mp h with h | h
            · exact List.mem_cons.mpr (Or.inl h)
            · exact List.mem_cons.mpr (Or.inr (ih.mpr (Or.inr h)))

theorem insertStr_sorted (l : List String) (x : String)
    (h : List.Pairwise (fun a b => a < b) l) :
    List.Pairwise (fun a b => a < b) (insertStr l x) := by
  induction l with
  | nil =>
    rw [insertStr]
    exact List.Pairwise.cons (fun b hb => absurd hb (List.not_mem_nil b))
      List.Pairwise.nil
  | cons y t ih =>
    rw [insertStr]
    obtain ⟨hy, ht⟩ := List.pairwise_cons.mp h
    by_cases hxy : x = y
    · rw [if_pos hxy]
      exact h
    · rw [if_neg hxy]
      by_cases hlt : x < y
      · rw [if_pos hlt]
        exact List.Pairwise.cons
          (fun b hb => by
            rcases List.mem_cons.mp hb with rfl | hb
            · exact hlt
            · exact lt_trans hlt (hy b hb))
          h
      · rw [if_neg hlt]
        have hyx : y < x := by
          rcases lt_trichotomy x y with h1 | h1 | h1
          · exact absurd h1 hlt
          · exact absurd h1 hxy
          · exact h1
        exact List.Pairwise.cons
          (fun b hb => by
            rcases (mem_insertStr t x b).mp hb with rfl | hb
            · exact hyx
            · exact hy b hb)
          (ih ht)

theorem mem_insertAllStr (xs : List String) :
    ∀ (l : List String) (z : String),
      z ∈ insertAllStr l xs ↔ z ∈ l ∨ z ∈ xs := by
  induction xs with
  | nil =>
    intro l z
    rw [insertAllStr, List.foldl_nil]
    exact ⟨Or.inl, fun h => h.elim id (fun h => absurd h (List.not_mem_nil z))⟩
  | cons a t ih =>
    intro l z
    rw [insertAllStr, List.foldl_cons,
      show t.foldl insertStr (insertStr l a) =
        insertAllStr (insertStr l a) t from rfl,
      ih (insertStr l a) z, mem_insertStr]
    constructor
    · rintro ((rfl | h) | h)
      · exact Or.inr (List.mem_cons_self _ _)
      · exact Or.inl h
      · exact Or.inr (List.mem_cons_of_mem a h)
    · rintro (h | h)
      · exact Or.inl (Or.inr h)
      · rcases List.mem_cons.mp h with rfl | h
        · exact Or.inl (Or.inl rfl)
        · exact Or.inr h

theorem insertAllStr_sorted (xs : List String) :
    ∀ l, List.Pairwise (fun a b => a < b) l →
      List.Pairwise (fun a b => a < b) (insertAllStr l xs) := by
  induction xs with
  | nil =>
    intro l h
    rw [insertAllStr, List.foldl_nil]
    exact h
  | cons a t ih =>
    intro l h
    rw [insertAllStr, List.foldl_cons]
    exact ih (insertStr l a) (insertStr_sorted l a h)

theorem filter_length_mono (l : List String) (p q : String → Bool)
    (h : ∀ a, p a = true → q a = true) :
    (l.filter p).length ≤ (l.filter q).length := by
  induction l with
  | nil => exact Nat.le_refl 0
  | cons a t ih =>
    rw [List.filter_cons, List.filter_cons]
    by_cases hp : p a = true
    · rw [if_pos hp, if_pos (h a hp), List.length_cons, List.length_cons]
      exact Nat.succ_le_succ ih
    · rw [if_neg hp]
      by_cases hq : q a = true
      · rw [if_pos hq, List.length_cons]
        exact Nat.le_succ_of_le ih
      · rw [if_neg hq]
        exact ih

theorem filter_length_lt (l : List String) (p q : String → Bool)
    (h : ∀ a, p a = true → q a = true) (a0 : String) (ha0 : a0 ∈ l)
    (hq0 : q a0 = true) (hp0 : p a0 = false) :
    (l.filter p).length < (l.filter q).length := by
  induction l with
  | nil => exact absurd ha0 (List.not_mem_nil a0)
  | cons a t ih =>
    rw [List.filter_cons, List.filter_cons]
    by_cases haa : p a = true
    · rw [if_pos haa, if_pos (h a haa), List.length_cons, List.length_cons]
      have ha0t : a0 ∈ t := by
        rcases List.mem_cons.mp ha0 with rfl | h'
        · rw [hp0] at haa
          exact absurd haa (by simp)
        · exact h'
      exact Nat.succ_lt_succ (ih ha0t)
    · rw [if_neg haa]
      by_cases hqa : q a = true
      · rw [if_pos hqa, List.length_cons]
        exact Nat.lt_succ_of_le (filter_length_mono t p q h)
      · rw [if_neg hqa]
        have ha0t : a0 ∈ t := by
          rcases List.mem_cons.mp ha0 with rfl | h'
          · exact absurd hq0 hqa
          · exact h'
        exact ih ha0t

theorem mem_nodeNames (st : GraphState) (x : String) (g : GranteeNode)
    (hf : findNode st x = some g) : x ∈ nodeNames st := by
  rw [nodeNames]
  exact List.mem_map.mpr ⟨g, findNode_mem st x g hf, findNode_name st x g hf⟩

theorem succOf_length_le (st : GraphState) (down : Bool) (x : String) :
    (succOf st down x).length ≤ edgeBound st := by
  cases hf : findNode st x with
  | none =>
    simp only [succOf, hf]
    exact Nat.zero_le _
  | some g =>
    have hsum : g.roles.length + g.grantees.length ≤
        (st.map (fun g => g.roles.length + g.grantees.length)).sum :=
      List.single_le_sum (fun _ _ => Nat.zero_le _) _
        (List.mem_map_of_mem _ (findNode_mem st x g hf))
    simp only [succOf, hf, edgeBound]
    cases down with
    | false =>
      show g.roles.length ≤ _
      exact Nat.le_succ_of_le (le_trans (Nat.le_add_right _ _) hsum)
    | true =>
      cases hu : g.isUser with
      | true =>
        show (if true then ([] : List String) else g.grantees).length ≤ _
        exact Nat.zero_le _
      | false =>
        show (if false then ([] : List String) else g.grantees).length ≤ _
        exact Nat.le_succ_of_le (le_trans (Nat.le_add_left _ _) hsum)

theorem walkMeasure_pop (st : GraphState) (x : String)
    (stack visited : List String) :
    walkMeasure st stack visited + 1 = walkMeasure st (x :: stack) visited := by
  rw [walkMeasure, walkMeasure, List.length_cons]
  exact Nat.add_assoc _ _ _

theorem walkMeasure_push (st : GraphState) (down : Bool) (x : String)
    (stack visited : List String) (hxv : x ∉ visited) :
    walkMeasure st (succOf st down x ++ stack) (x :: visited) <
      walkMeasure st (x :: stack) visited := by
  rw [walkMeasure, walkMeasure, List.length_append, List.length_cons]
  have hmono : ∀ a : String, decide (a ∉ x :: visited) = true →
      decide (a ∉ visited) = true :=
    fun a ha => decide_eq_true
      (fun hv => absurd (List.mem_cons_of_mem x hv) (of_decide_eq_true ha))
  cases hf : findNode st x with
  | none =>
    have hsucc : succOf st down x = [] := by simp only [succOf, hf]
    rw [hsucc]
    have hm := filter_length_mono (nodeNames st).dedup _ _ hmono
    have h1 := Nat.mul_le_mul_left (edgeBound st + 1) hm
    simp only [List.length_nil]
    omega
  | some g =>
    have hxn : x ∈ (nodeNames st).dedup :=
      List.mem_dedup.mpr (mem_nodeNames st x g hf)
    have hlt := filter_length_lt (nodeNames st).dedup _ _ hmono x hxn
      (decide_eq_true hxv)
      (decide_eq_false (not_not_intro (List.mem_cons_self x visited)))
    have h1 : (edgeBound st + 1) *
        (((nodeNames st).dedup.filter
          (fun z => z ∉ x :: visited)).length + 1) ≤
        (edgeBound st + 1) *
          ((nodeNames st).dedup.filter (fun z => z ∉ visited)).length :=
      Nat.mul_le_mul_left _ hlt
    have h2 := succOf_length_le st down x
    have h3 : (edgeBound st + 1) *
        (((nodeNames st).dedup.filter
          (fun z => z ∉ x :: visited)).length + 1) =
        (edgeBound st + 1) *
          ((nodeNames st).dedup.filter
            (fun z => z ∉ x :: visited)).length + (edgeBound st + 1) :=
      Nat.mul_succ _ _
    omega

/-- The stack walk with enough fuel: the visited set grows, every stack
name is eventually processed, the visited set is closed under successors,
every visited name is reachable from the stack, the collected set is the
old one plus the successors of the newly processed names, and sortedness
of the collected set is preserved. -/
theorem walkF_spec (st : GraphState) (down : Bool) :
    ∀ (fuel : Nat) (stack visited acc : List String),
    walkMeasure st stack visited ≤ fuel →
    (∀ v ∈ visited, ∀ b, b ∈ succOf st down v → b ∈ visited ∨ b ∈ stack) →
    (∀ v ∈ visited, v ∈ (walkF st down fuel stack visited acc).1) ∧
    (∀ x ∈ stack, x ∈ (walkF st down fuel stack visited acc).1) ∧
    (∀ v ∈ (walkF st down fuel stack visited acc).1, ∀ b,
      b ∈ succOf st down v → b ∈ (walkF st down fuel stack visited acc).1) ∧
    (∀ v ∈ (walkF st down fuel stack visited acc).1,
      v ∈ visited ∨
        ∃ x ∈ stack, Relation.ReflTransGen (Rstep st down) x v) ∧
    (∀ z, z ∈ (walkF st down fuel stack visited acc).2 ↔
      z ∈ acc ∨ ∃ v, v ∈ (walkF st down fuel stack visited acc).1 ∧
        v ∉ visited ∧ z ∈ succOf st down v) ∧
    (List.Pairwise (fun a b => a < b) acc →
      List.Pairwise (fun a b => a < b)
        (walkF st down fuel stack visited acc).2) := by
  intro fuel
  induction fuel with
  | zero =>
    intro stack visited acc hfuel hclo
    cases stack with
    | nil =>
      rw [walkF]
      refine ⟨fun v hv => hv, fun x hx => absurd hx (List.not_mem_nil x),
        ?_, fun v hv => Or.inl hv, ?_, fun h => h⟩
      · intro v hv b hb
        rcases hclo v hv b hb with h | h
        · exact h
        · exact absurd h (List.not_mem_nil b)
      · intro z
        constructor
        · exact Or.inl
        · rintro (h | ⟨v, hv, hnv, _⟩)
          · exact h
          · exact absurd hv hnv
    | cons x s =>
      exfalso
      rw [walkMeasure, List.length_cons] at hfuel
      omega
  | succ fuel ih =>
    intro stack visited acc hfuel hclo
    cases stack with
    | nil =>
      rw [walkF]
      refine ⟨fun v hv => hv, fun x hx => absurd hx (List.not_mem_nil x),
        ?_, fun v hv => Or.inl hv, ?_, fun h => h⟩
      · intro v hv b hb
        rcases hclo v hv b hb with h | h
        · exact h
        · exact absurd h (List.not_mem_nil b)
      · intro z
        constructor
        · exact Or.inl
        · rintro (h | ⟨v, hv, hnv, _⟩)
          · exact h
          · exact absurd hv hnv
    | cons x stack =>
      rw [walkF]
      by_cases hxv : x ∈ visited
      · rw [if_pos hxv]
        have hfuel' : walkMeasure st stack visited ≤ fuel := by
          have := walkMeasure_pop st x stack visited
          omega
        have hclo' : ∀ v ∈ visited, ∀ b, b ∈ succOf st down v →
            b ∈ visited ∨ b ∈ stack := by
          intro v hv b hb
          rcases hclo v hv b hb with h | h
          · exact Or.inl h
          · rcases List.mem_cons.mp h with rfl | h
            · exact Or.inl hxv
            · exact Or.inr h
        obtain ⟨iA, iB, iC, iD, iE, iG⟩ := ih stack visited acc hfuel' hclo'
        refine ⟨iA, ?_, iC, ?_, iE, iG⟩
        · intro y hy
          rcases List.mem_cons.mp hy with rfl | hy
          · exact iA _ hxv
          · exact iB y hy
        · intro v hv
          rcases iD v hv with h | ⟨y, hy, hr⟩
          · exact Or.inl h
          · exact Or.inr ⟨y, List.mem_cons_of_mem x hy, hr⟩
      · rw [if_neg hxv]
        have hfuel' : walkMeasure st (succOf st down x ++ stack)
            (x :: visited) ≤ fuel := by
          have := walkMeasure_push st down x stack visited hxv
          omega
        have hclo' : ∀ v ∈ x :: visited, ∀ b, b ∈ succOf st down v →
            b ∈ x :: visited ∨ b ∈ succOf st down x ++ stack := by
          intro v hv b hb
          rcases List.mem_cons.mp hv with rfl | hv
          · exact Or.inr (List.mem_append.mpr (Or.inl hb))
          · rcases hclo v hv b hb with h | h
            · exact Or.inl (List.mem_cons_of_mem x h)
            · rcases List.mem_cons.mp h with hbx | h
              · exact Or.inl (List.mem_cons.mpr (Or.inl hbx))
              · exact Or.inr (List.mem_append.mpr (Or.inr h))
        obtain ⟨iA, iB, iC, iD, iE, iG⟩ := ih (succOf st down x ++ stack)
          (x :: visited) (insertAllStr acc (succOf st down x)) hfuel' hclo'
        refine ⟨?_, ?_, iC, ?_, ?_, ?_⟩
        · intro v hv
          exact iA v (List.mem_cons_of_mem x hv)
        · intro y hy
          rcases List.mem_cons.mp hy with hyx | hy
          · rw [hyx]
            exact iA _ (List.mem_cons_self x visited)
          · exact iB y (List.mem_append.mpr (Or.inr hy))
        · intro v hv
          rcases iD v hv with h | ⟨y, hy, hr⟩
          · rcases List.mem_cons.mp h with rfl | h
            · exact Or.inr ⟨v, List.mem_cons_self v stack,
                Relation.ReflTransGen.refl⟩
            · exact Or.inl h
          · rcases List.mem_append.mp hy with hy | hy
            · exact Or.inr ⟨x, List.mem_cons_self x stack,
                Relation.ReflTransGen.head (show Rstep st down x y from hy) hr⟩
            · exact Or.inr ⟨y, List.mem_cons_of_mem x hy, hr⟩
        · intro z
          rw [iE z]
          constructor
          · rintro (h | ⟨v, hv, hnv, hz⟩)
            · rcases (mem_insertAllStr (succOf st down x) acc z).mp h with
                h | h
              · exact Or.inl h
              · exact Or.inr ⟨x, iA _ (List.mem_cons_self x visited), hxv, h⟩
            · exact Or.inr
                ⟨v, hv, fun hvv => hnv (List.mem_cons_of_mem x hvv), hz⟩
          · rintro (h | ⟨v, hv, hnv, hz⟩)
            · exact Or.inl ((mem_insertAllStr _ _ _).mpr (Or.inl h))
            · by_cases hvx : v = x
              · exact Or.inl
                  ((mem_insertAllStr _ _ _).mpr (Or.inr (hvx ▸ hz)))
              · refine Or.inr ⟨v, hv, ?_, hz⟩
                intro hvm
                rcases List.mem_cons.mp hvm with h' | h'
                · exact hvx h'
                · exact hnv h'
        · intro hs
          exact iG (insertAllStr_sorted (succOf st down x) acc hs)

theorem walk_visited_iff (st : GraphState) (down : Bool) (n : String) :
    ∀ v, v ∈ (walkF st down (walkMeasure st [n] []) [n] [] []).1 ↔
      Relation.ReflTransGen (Rstep st down) n v := by
  obtain ⟨_, iB, iC, iD, _, _⟩ := walkF_spec st down (walkMeasure st [n] [])
    [n] [] [] (Nat.le_refl _) (fun v hv => absurd hv (List.not_mem_nil v))
  intro v
  constructor
  · intro hv
    rcases iD v hv with h | ⟨y, hy, hr⟩
    · exact absurd h (List.not_mem_nil v)
    · have hyn : y = n := by
        rcases List.mem_cons.mp hy with h | h
        · exact h
        · exact absurd h (List.not_mem_nil y)
      rw [← hyn]
      exact hr
  · intro hr
    induction hr with
    | refl => exact iB n (List.mem_cons_self n [])
    | tail hab h ihh => exact iC _ ihh _ h

theorem walk_acc_iff (st : GraphState) (down : Bool) (n : String) :
    ∀ z, z ∈ (walkF st down (walkMeasure st [n] []) [n] [] []).2 ↔
      Relation.TransGen (Rstep st down) n z := by
  obtain ⟨_, _, _, _, iE, _⟩ := walkF_spec st down (walkMeasure st [n] [])
    [n] [] [] (Nat.le_refl _) (fun v hv => absurd hv (List.not_mem_nil v))
  intro z
  rw [iE z]
  constructor
  · rintro (h | ⟨v, hv, _, hz⟩)
    · exact absurd h (List.not_mem_nil z)
    · exact Relation.TransGen.tail'
        ((walk_visited_iff st down n v).mp hv) (show Rstep st down v z from hz)
  · intro h
    have hdecomp : ∃ v, Relation.ReflTransGen (Rstep st down) n v ∧
        Rstep st down v z := by
      induction h with
      | single h => exact ⟨n, Relation.ReflTransGen.refl, h⟩
      | tail hab h _ => exact ⟨_, hab.to_reflTransGen, h⟩
    obtain ⟨v, hnv, hvz⟩ := hdecomp
    exact Or.inr ⟨v, (walk_visited_iff st down n v).mpr hnv,
      List.not_mem_nil v, hvz⟩

theorem walk_acc_sorted (st : GraphState) (down : Bool) (n : String) :
    List.Pairwise (fun a b => a < b)
      (walkF st down (walkMeasure st [n] []) [n] [] []).2 := by
  obtain ⟨_, _, _, _, _, iG⟩ := walkF_spec st down (walkMeasure st [n] [])
    [n] [] [] (Nat.le_refl _) (fun v hv => absurd hv (List.not_mem_nil v))
  exact iG List.Pairwise.nil

theorem checkCyclesDetect_iff (st : GraphState) (start newRole : String) :
    checkCyclesDetect st start newRole = true ↔
      (Relation.ReflTransGen (Rstep st true) start newRole ∧
        ∃ g, findNode st newRole = some g ∧ g.isUser = false) := by
  rw [checkCyclesDetect, List.any_eq_true]
  constructor
  · rintro ⟨x, hx, hcond⟩
    cases hf : findNode st x with
    | none =>
      simp only [hf] at hcond
      exact absurd hcond (by simp)
    | some g =>
      simp only [hf, Bool.and_eq_true] at hcond
      obtain ⟨hu, heq⟩ := hcond
      have hxn : x = newRole := by
        have := heq
        rw [beq_iff_eq] at this
        exact this
      have hu' : g.isUser = false := by
        rw [Bool.not_eq_true'] at hu
        exact hu
      rw [hxn] at hx hf
      exact ⟨(walk_visited_iff st true start newRole).mp hx, g, hf, hu'⟩
  · rintro ⟨hreach, g, hf, hu⟩
    refine ⟨newRole, (walk_visited_iff st true start newRole).mpr hreach, ?_⟩
    simp only [hf, hu]
    simp

theorem rstep_false_iff (st : GraphState) (a b : String) :
    Rstep st false a b ↔ stepUp st a b := by
  rw [Rstep, stepUp]
  cases hf : findNode st a with
  | none =>
    simp only [succOf, hf]
    constructor
    · intro h
      exact absurd h (List.not_mem_nil b)
    · rintro ⟨g, hg, _⟩
      exact Option.noConfusion hg
  | some g =>
    simp only [succOf, hf]
    constructor
    · intro h
      exact ⟨g, rfl, h⟩
    · rintro ⟨g', hg', hb⟩
      show b ∈ g.roles
      rw [Option.some.inj hg']
      exact hb

theorem rstep_true_iff (st : GraphState) (a b : String) :
    Rstep st true a b ↔ stepDown st a b := by
  rw [Rstep, stepDown]
  cases hf : findNode st a with
  | none => simp [succOf, hf]
  | some g =>
    cases hu : g.isUser with
    | true => simp [succOf, hf, hu]
    | false => simp [succOf, hf, hu]

/-- C10: `getRoles(true)` returns exactly the names of the directly granted
roles, sorted ascending; `getRoles(false)` returns the sorted names of
every role reachable through one or more upstream role edges. -/
theorem getRoles_spec (st : GraphState) (n : String) (g : GranteeNode)
    (hg : findNode st n = some g) :
    (∀ z, z ∈ getRolesOp st n true ↔ z ∈ g.roles) ∧
    List.Pairwise (fun a b => a < b) (getRolesOp st n true) ∧
    (∀ z, z ∈ getRolesOp st n false ↔ Relation.TransGen (stepUp st) n z) ∧
    List.Pairwise (fun a b => a < b) (getRolesOp st n false) := by
  have hdirect : getRolesOp st n true =
      insertAllStr [] (succOf st false n) := by
    rw [getRolesOp, if_pos rfl]
  have hfalse : getRolesOp st n false =
      (walkF st false (walkMeasure st [n] []) [n] [] []).2 := by
    rw [getRolesOp, if_neg Bool.false_ne_true]
  refine ⟨?_, ?_, ?_, ?_⟩
  · intro z
    rw [hdirect, mem_insertAllStr]
    constructor
    · rintro (h | h)
      · exact absurd h (List.not_mem_nil z)
      · simp only [succOf, hg] at h
        exact h
    · intro h
      refine Or.inr ?_
      simp only [succOf, hg]
      exact h
  · rw [hdirect]
    exact insertAllStr_sorted _ _ List.Pairwise.nil
  · intro z
    rw [hfalse, walk_acc_iff st false n z]
    constructor
    · intro h
      exact Relation.TransGen.mono
        (fun a b hab => (rstep_false_iff st a b).mp hab) h
    · intro h
      exact Relation.TransGen.mono
        (fun a b hab => (rstep_false_iff st a b).mpr hab) h
  · rw [hfalse]
    exact walk_acc_sorted st false n

/-- C10 witness: for the user `u0` holding role `r0`, the role name shows
up both in the direct and in the transitive listing. -/
theorem getRoles_spec_witness :
    "r0" ∈ getRolesOp [c5role, c5user] "u0" true ∧
    "r0" ∈ getRolesOp [c5role, c5user] "u0" false := by
  have h := getRoles_spec [c5role, c5user] "u0" c5user (by decide)
  refine ⟨(h.1 "r0").mpr (by decide), ?_⟩
  exact (h.2.2.1 "r0").mpr
    (Relation.TransGen.single ⟨c5user, by decide, by decide⟩)

theorem edgeRel_refl (o : Option GranteeNode) : edgeRel o o := by
  cases o with
  | none => exact trivial
  | some g => exact ⟨rfl, rfl, rfl, rfl⟩

theorem ranksOk_grantShape (st st2 : GraphState) (gname rname : String)
    (rank : String → Nat)
    (hdescr : ∀ mm, findNode st2 mm =
      (findNode st mm).map (grantShape gname rname mm))
    (hrank : RanksOk st rank) (hedge : rank gname < rank rname) :
    RanksOk st2 rank := by
  intro m x' hm hu c hc
  rw [hdescr m] at hm
  cases hx : findNode st m with
  | none => rw [hx] at hm; exact Option.noConfusion hm
  | some x =>
    rw [hx] at hm
    have hinj := Option.some.inj hm
    have hu' : x.isUser = false := by rw [← hinj] at hu; exact hu
    have hcg : c ∈ (if rname = m then insertName x.grantees gname
        else x.grantees) := by
      rw [← hinj] at hc; exact hc
    by_cases hrm : rname = m
    · rw [if_pos hrm] at hcg
      rcases mem_insertName _ _ _ hcg with hce | hcm
      · rw [hce, ← hrm]
        exact hedge
      · exact hrank m x hx hu' c hcm
    · rw [if_neg hrm] at hcg
      exact hrank m x hx hu' c hcg

theorem rolesResolve_grantShape (st st2 : GraphState) (gname rname : String)
    (r : GranteeNode)
    (hdescr : ∀ mm, findNode st2 mm =
      (findNode st mm).map (grantShape gname rname mm))
    (hrr : RolesResolve st) (hr : findNode st rname = some r)
    (hru : r.isUser = false) : RolesResolve st2 := by
  intro m x' hm rn hrn
  rw [hdescr m] at hm
  cases hx : findNode st m with
  | none => rw [hx] at hm; exact Option.noConfusion hm
  | some x =>
    rw [hx] at hm
    have hinj := Option.some.inj hm
    have hrn' : rn ∈ (if gname = m then insertName x.roles rname
        else x.roles) := by
      rw [← hinj] at hrn; exact hrn
    have hres : ∀ rr, findNode st rn = some rr → rr.isUser = false →
        ∃ r2, findNode st2 rn = some r2 ∧ r2.isUser = false := by
      intro rr hrr0 hru0
      refine ⟨grantShape gname rname rn rr, ?_, hru0⟩
      rw [hdescr rn, hrr0]
      rfl
    by_cases hgm : gname = m
    · rw [if_pos hgm] at hrn'
      rcases mem_insertName _ _ _ hrn' with hre | hrm
      · subst hre
        exact hres r hr hru
      · obtain ⟨rr, hrr0, hru0⟩ := hrr m x hx rn hrm
        exact hres rr hrr0 hru0
    · rw [if_neg hgm] at hrn'
      obtain ⟨rr, hrr0, hru0⟩ := hrr m x hx rn hrn'
      exact hres rr hrr0 hru0

theorem dirSorted_grantShape (st st2 : GraphState) (gname rname : String)
    (hdescr : ∀ mm, findNode st2 mm =
      (findNode st mm).map (grantShape gname rname mm))
    (hds : DirSorted st) : DirSorted st2 := by
  intro m x' hm
  rw [hdescr m] at hm
  cases hx : findNode st m with
  | none => rw [hx] at hm; exact Option.noConfusion hm
  | some x =>
    rw [hx] at hm
    rw [← Option.some.inj hm]
    exact hds m x hx

theorem effSorted_grantShape (st st2 : GraphState) (gname rname : String)
    (hdescr : ∀ mm, findNode st2 mm =
      (findNode st mm).map (grantShape gname rname mm))
    (hes : EffSorted st) : EffSorted st2 := by
  intro m x' hm
  rw [hdescr m] at hm
  cases hx : findNode st m with
  | none => rw [hx] at hm; exact Option.noConfusion hm
  | some x =>
    rw [hx] at hm
    rw [← Option.some.inj hm]
    exact hes m x hx

theorem dirCov_grantShape (st st2 : GraphState) (gname rname : String)
    (hdescr : ∀ mm, findNode st2 mm =
      (findNode st mm).map (grantShape gname rname mm))
    (hdc : DirCov st) : DirCov st2 := by
  intro m x' hm k hk
  rw [hdescr m] at hm
  cases hx : findNode st m with
  | none => rw [hx] at hm; exact Option.noConfusion hm
  | some x =>
    rw [hx] at hm
    have hinj := Option.some.inj hm
    have hk' : dirBits x k ≠ 0 := by rw [← hinj] at hk; exact hk
    rw [← hinj]
    exact hdc m x hx k hk'

/-- C4: `grantRole` throws when the role was already granted; otherwise it
throws the cycle error exactly when the role is already downstream of the
grantee (including the self-grant); on either failure the state is
untouched; otherwise it succeeds, inserts the edge on both endpoints
(leaving all other edges alone), and recomputes the effective privileges of
every node downstream of the grantee. The rank bounds — which hold exactly
when the new edge keeps the graph acyclic — are needed only for the
propagation on the success path; the two error branches hold for every
well-formed state. -/
theorem grantRole_spec (st : GraphState) (gname rname : String)
    (g r : GranteeNode) (rank : String → Nat)
    (hg : findNode st gname = some g) (hr : findNode st rname = some r)
    (hru : r.isUser = false) (hrank : RanksOk st rank) (hrr : RolesResolve st)
    (hb : BidirOk st) (hds : DirSorted st) (hes : EffSorted st)
    (hdc : DirCov st) :
    (rname ∈ g.roles →
      (grantRoleOp st gname rname).1 =
        some "Role have been granted already" ∧
      (grantRoleOp st gname rname).2 = st) ∧
    (rname ∉ g.roles →
      ((grantRoleOp st gname rname).1 =
          some "creates cycle in grantee graph" ↔
        Relation.ReflTransGen (Rstep st true) gname rname) ∧
      (Relation.ReflTransGen (Rstep st true) gname rname →
        (grantRoleOp st gname rname).2 = st)) ∧
    (rname ∉ g.roles → ¬Relation.ReflTransGen (Rstep st true) gname rname →
      rank gname < rank rname → rank gname ≤ st.length →
      (grantRoleOp st gname rname).1 = none ∧
      (∀ m, edgeRel ((findNode st m).map (grantShape gname rname m))
        (findNode (grantRoleOp st gname rname).2 m)) ∧
      (∀ m g', ReachDown (grantRoleOp st gname rname).2 gname m →
        findNode (grantRoleOp st gname rname).2 m = some g' →
        NodeValid (grantRoleOp st gname rname).2 g')) := by
  refine ⟨?_, ?_, ?_⟩
  · intro hnr
    have hop : grantRoleOp st gname rname =
        (some "Role have been granted already", st) := by
      unfold grantRoleOp
      simp only [hg, hr]
      rw [if_pos hnr]
    rw [hop]
    exact ⟨rfl, rfl⟩
  · intro hnr
    by_cases hreach : Relation.ReflTransGen (Rstep st true) gname rname
    · have hcy : checkCyclesDetect st gname rname = true :=
        (checkCyclesDetect_iff st gname rname).mpr ⟨hreach, r, hr, hru⟩
      have hop : grantRoleOp st gname rname =
          (some "creates cycle in grantee graph", st) := by
        unfold grantRoleOp
        simp only [hg, hr]
        rw [if_neg hnr, if_pos hcy]
      rw [hop]
      exact ⟨⟨fun _ => hreach, fun _ => rfl⟩, fun _ => rfl⟩
    · have hcy : checkCyclesDetect st gname rname = false := by
        cases hcb : checkCyclesDetect st gname rname
        · rfl
        · exact absurd ((checkCyclesDetect_iff st gname rname).mp hcb).1
            hreach
      have hgr : gname ∉ r.grantees :=
        fun hmem => hnr (hb.2 rname r hr gname hmem g hg)
      have hop : (grantRoleOp st gname rname).1 = none := by
        unfold grantRoleOp
        simp only [hg, hr]
        rw [if_neg hnr, hcy, if_neg Bool.false_ne_true, if_neg hgr]
      refine ⟨⟨fun hmsg => ?_, fun hre => absurd hre hreach⟩,
        fun hre => absurd hre hreach⟩
      rw [hop] at hmsg
      exact Option.noConfusion hmsg
  · intro hnr hreach hedge hlen
    have hcy : checkCyclesDetect st gname rname = false := by
      cases hcb : checkCyclesDetect st gname rname
      · rfl
      · exact absurd ((checkCyclesDetect_iff st gname rname).mp hcb).1 hreach
    have hgr : gname ∉ r.grantees :=
      fun hmem => hnr (hb.2 rname r hr gname hmem g hg)
    have hop1 : (grantRoleOp st gname rname).1 = none := by
      unfold grantRoleOp
      simp only [hg, hr]
      rw [if_neg hnr, hcy, if_neg Bool.false_ne_true, if_neg hgr]
    have hop : (grantRoleOp st gname rname).2 =
        updatePrivilegesProp
          ((updateNode (updateNode st gname
            (fun x => { x with roles := insertName x.roles rname }))
            rname
            (fun x =>
              { x with grantees := insertName x.grantees gname })).length + 1)
          (updateNode (updateNode st gname
            (fun x => { x with roles := insertName x.roles rname }))
            rname
            (fun x => { x with grantees := insertName x.grantees gname }))
          gname := by
      unfold grantRoleOp
      simp only [hg, hr]
      rw [if_neg hnr, hcy, if_neg Bool.false_ne_true, if_neg hgr]
    have hdescr := grant_st2_descr st gname rname
    have hprop := updatePrivilegesProp_spec
      ((updateNode (updateNode st gname
        (fun x => { x with roles := insertName x.roles rname }))
        rname
        (fun x =>
          { x with grantees := insertName x.grantees gname })).length + 1)
      (updateNode (updateNode st gname
        (fun x => { x with roles := insertName x.roles rname }))
        rname
        (fun x => { x with grantees := insertName x.grantees gname }))
      gname rank
      (ranksOk_grantShape st _ gname rname rank hdescr hrank hedge)
      (rolesResolve_grantShape st _ gname rname r hdescr hrr hr hru)
      (bidirOk_of_grantShape st _ gname rname
        (fun mm => by rw [hdescr mm]; exact edgeRel_refl _) hb)
      (dirSorted_grantShape st _ gname rname hdescr hds)
      (effSorted_grantShape st _ gname rname hdescr hes)
      (dirCov_grantShape st _ gname rname hdescr hdc)
      (by rw [updateNode_length, updateNode_length]; omega)
    have hskel := updatePrivilegesProp_skeleton
      ((updateNode (updateNode st gname
        (fun x => { x with roles := insertName x.roles rname }))
        rname
        (fun x =>
          { x with grantees := insertName x.grantees gname })).length + 1)
      (updateNode (updateNode st gname
        (fun x => { x with roles := insertName x.roles rname }))
        rname
        (fun x => { x with grantees := insertName x.grantees gname }))
      gname
    refine ⟨hop1,
      fun m => grantRoleOp_edges st gname rname g r hg hr hnr hcy hgr m, ?_⟩
    intro m g' hrd hfind
    rw [hop] at hrd hfind ⊢
    exact hprop.2.2.2 m g'
      ((ReachDown_skeleton _ _ hskel gname m).mpr hrd) hfind

/-- A role not yet granted to anybody. -/
def w4role : GranteeNode :=
  { name := "r1", isUser := false, roles := [], grantees := [],
    effectivePrivileges := [], directPrivileges := [] }

/-- A user without roles. -/
def w4user : GranteeNode :=
  { name := "u1", isUser := true, roles := [], grantees := [],
    effectivePrivileges := [], directPrivileges := [] }

/-- A role with no edges: granting it to itself must throw the cycle
error. -/
def w4cyc : GranteeNode :=
  { name := "a1", isUser := false, roles := [], grantees := [],
    effectivePrivileges := [], directPrivileges := [] }

/-- C4 witness: granting the fresh role `r1` to the fresh user `u1`
succeeds, while the self-grant of the role `a1` to itself throws the
cycle error and leaves the state untouched. -/
theorem grantRole_spec_witness :
    (grantRoleOp [w4role, w4user] "u1" "r1").1 = none ∧
    (grantRoleOp [w4cyc] "a1" "a1").1 =
      some "creates cycle in grantee graph" ∧
    (grantRoleOp [w4cyc] "a1" "a1").2 = [w4cyc] := by
  have hrank : RanksOk [w4role, w4user]
      (fun s => if s = "r1" then 1 else 0) := by
    intro m x hm hu c hc
    rcases findNode_pair _ _ _ _ hm with ⟨rfl, _⟩ | ⟨rfl, _⟩
    · exact absurd hc (List.not_mem_nil c)
    · exact absurd hc (List.not_mem_nil c)
  have hrr : RolesResolve [w4role, w4user] := by
    intro m x hm rn hrn
    rcases findNode_pair _ _ _ _ hm with ⟨rfl, _⟩ | ⟨rfl, _⟩
    · exact absurd hrn (List.not_mem_nil rn)
    · exact absurd hrn (List.not_mem_nil rn)
  have hb : BidirOk [w4role, w4user] := by
    constructor
    · intro m x hm rn hrn r hr
      rcases findNode_pair _ _ _ _ hm with ⟨rfl, _⟩ | ⟨rfl, _⟩
      · exact absurd hrn (List.not_mem_nil rn)
      · exact absurd hrn (List.not_mem_nil rn)
    · intro m x hm c hc y hy
      rcases findNode_pair _ _ _ _ hm with ⟨rfl, _⟩ | ⟨rfl, _⟩
      · exact absurd hc (List.not_mem_nil c)
      · exact absurd hc (List.not_mem_nil c)
  have hds : DirSorted [w4role, w4user] := by
    intro m x hm
    rcases findNode_pair _ _ _ _ hm with ⟨rfl, _⟩ | ⟨rfl, _⟩
    · exact List.Pairwise.nil
    · exact List.Pairwise.nil
  have hes : EffSorted [w4role, w4user] := by
    intro m x hm
    rcases findNode_pair _ _ _ _ hm with ⟨rfl, _⟩ | ⟨rfl, _⟩
    · exact List.Pairwise.nil
    · exact List.Pairwise.nil
  have hdc : DirCov [w4role, w4user] := by
    intro m x hm k hk
    rcases findNode_pair _ _ _ _ hm with ⟨rfl, _⟩ | ⟨rfl, _⟩
    · exact absurd rfl hk
    · exact absurd rfl hk
  have hnoreach :
      ¬Relation.ReflTransGen (Rstep [w4role, w4user] true) "u1" "r1" := by
    intro hreach
    rcases Relation.ReflTransGen.cases_head hreach with h | ⟨x, hstep, _⟩
    · exact absurd h (by decide)
    · have hempty : succOf [w4role, w4user] true "u1" = ([] : List String) :=
        by decide
      rw [Rstep, hempty] at hstep
      exact absurd hstep (List.not_mem_nil x)
  have h := grantRole_spec [w4role, w4user] "u1" "r1" w4user w4role
    (fun s => if s = "r1" then 1 else 0) (by decide) (by decide) (by decide)
    hrank hrr hb hds hes hdc
  have hrankC : RanksOk [w4cyc] (fun _ => 0) := by
    intro m x hm hu c hc
    obtain ⟨rfl, _⟩ := findNode_singleton _ _ _ hm
    exact absurd hc (List.not_mem_nil c)
  have hrrC : RolesResolve [w4cyc] := by
    intro m x hm rn hrn
    obtain ⟨rfl, _⟩ := findNode_singleton _ _ _ hm
    exact absurd hrn (List.not_mem_nil rn)
  have hbC : BidirOk [w4cyc] := by
    constructor
    · intro m x hm rn hrn r hr2
      obtain ⟨rfl, _⟩ := findNode_singleton _ _ _ hm
      exact absurd hrn (List.not_mem_nil rn)
    · intro m x hm c hc y hy
      obtain ⟨rfl, _⟩ := findNode_singleton _ _ _ hm
      exact absurd hc (List.not_mem_nil c)
  have hdsC : DirSorted [w4cyc] := by
    intro m x hm
    obtain ⟨rfl, _⟩ := findNode_singleton _ _ _ hm
    exact List.Pairwise.nil
  have hesC : EffSorted [w4cyc] := by
    intro m x hm
    obtain ⟨rfl, _⟩ := findNode_singleton _ _ _ hm
    exact List.Pairwise.nil
  have hdcC : DirCov [w4cyc] := by
    intro m x hm k hk
    obtain ⟨rfl, _⟩ := findNode_singleton _ _ _ hm
    exact absurd rfl hk
  have hC := grantRole_spec [w4cyc] "a1" "a1" w4cyc w4cyc
    (fun _ => 0) (by decide) (by decide) (by decide)
    hrankC hrrC hbC hdsC hesC hdcC
  have hcyc := hC.2.1 (by decide)
  exact ⟨(h.2.2 (by decide) hnoreach (by decide) (by decide)).1,
    hcyc.1.mpr Relation.ReflTransGen.refl,
    hcyc.2 Relation.ReflTransGen.refl⟩

/-- C6 counterexample state: a user holding bit `1` directly (and hence
effectively) on one key. -/
def c6node : GranteeNode :=
  { name := "carol", isUser := true, roles := [], grantees := [],
    effectivePrivileges := [(⟨1, 1, 9⟩, ⟨⟨1, 1, 9⟩, "t6", 0, ⟨1⟩⟩)],
    directPrivileges := [(⟨1, 1, 9⟩, ⟨⟨1, 1, 9⟩, "t6", 0, ⟨1⟩⟩)] }

/-- The object carrying the same bit `1` on the same key. -/
def c6obj : DBObject := ⟨⟨1, 1, 9⟩, "t6", 0, ⟨1⟩⟩

/-- `ldiff` through kernel-reducible operations, for evaluating concrete
instances. -/
theorem ldiff_eq_xor_land (a b : Nat) : Nat.ldiff a b = a ^^^ (a &&& b) := by
  apply Nat.eq_of_testBit_eq
  intro i
  rw [Nat.testBit_ldiff, Nat.testBit_xor, Nat.testBit_land]
  cases a.testBit i <;> cases b.testBit i <;> rfl

/-- C6 counterexample: when the granted bits overlap the existing direct
entry, the immediate revoke also removes the overlap, so the grantee's maps
do not return to their state before the grant. -/
theorem grant_revoke_not_roundtrip :
    (revokePrivilegesOp (grantPrivilegesOp [c6node] "carol" c6obj) "carol"
      c6obj).2.2 ≠ [c6node] := by
  have h1 : grantPrivilegesOp [c6node] "carol" c6obj = [c6node] := by decide
  rw [h1]
  have hrev : DBObject.revokePrivileges c6obj c6obj =
      (⟨⟨1, 1, 9⟩, "t6", 0, ⟨0⟩⟩ : DBObject) := by
    show ({ c6obj with privs :=
      ⟨Nat.ldiff c6obj.privs.privileges c6obj.privs.privileges⟩ } :
        DBObject) = _
    rw [show Nat.ldiff c6obj.privs.privileges c6obj.privs.privileges = 0
      from by rw [ldiff_eq_xor_land]; decide]
    rfl
  have hdir : revokeDirMap c6node.directPrivileges c6obj.objectKey
      (⟨⟨1, 1, 9⟩, "t6", 0, ⟨0⟩⟩ : DBObject) = [] := by
    rw [revokeDirMap,
      if_neg (show ¬((⟨⟨1, 1, 9⟩, "t6", 0, ⟨0⟩⟩ :
        DBObject).privs.hasAny = true) from by decide)]
    decide
  have heff : revokeEffMap c6node.effectivePrivileges c6obj.objectKey
      c6obj = [] := by
    rw [revokeEffMap]
    simp only [show mapLookup c6node.effectivePrivileges c6obj.objectKey =
      some c6obj from by decide]
    rw [if_pos (show c6obj.privs.hasAny = true from by decide), hrev,
      if_neg (show ¬((⟨⟨1, 1, 9⟩, "t6", 0, ⟨0⟩⟩ :
        DBObject).privs.hasAny = true) from by decide)]
    decide
  have hfinal : (revokePrivilegesOp [c6node] "carol" c6obj).2.2 =
      [{ name := "carol", isUser := true, roles := [], grantees := [],
         effectivePrivileges := [], directPrivileges := [] }] := by
    unfold revokePrivilegesOp
    simp only [show findNode [c6node] "carol" = some c6node from by decide,
      show mapLookup c6node.directPrivileges c6obj.objectKey = some c6obj
        from by decide,
      hrev, hdir, heff]
    rw [if_neg (show ¬(c6obj.privs.hasAny = false) from by decide)]
    decide
  rw [hfinal]
  intro h
  exact absurd h (by decide)

/-- A lone user holding the privilege bits `3` on one key, both directly
and effectively. -/
def c7node : GranteeNode :=
  { name := "dave", isUser := true, roles := [], grantees := [],
    effectivePrivileges := [(⟨1, 1, 7⟩, ⟨⟨1, 1, 7⟩, "t", 0, ⟨3⟩⟩)],
    directPrivileges := [(⟨1, 1, 7⟩, ⟨⟨1, 1, 7⟩, "t", 0, ⟨3⟩⟩)] }

/-- The request revoking bit `1` of the same key. -/
def c7obj : DBObject := ⟨⟨1, 1, 7⟩, "t", 0, ⟨1⟩⟩

/-- C7 witness: revoking bit `1` from the entry holding `3` succeeds and
returns the mutated entry now holding `2`. -/
theorem revokePrivileges_spec_witness :
    (revokePrivilegesOp [c7node] "dave" c7obj).1 = none ∧
    (revokePrivilegesOp [c7node] "dave" c7obj).2.1 =
      some (DBObject.revokePrivileges ⟨⟨1, 1, 7⟩, "t", 0, ⟨3⟩⟩ c7obj) := by
  have hfind : findNode [c7node] "dave" = some c7node := by decide
  have hR : RanksOk [c7node] (fun _ => 0) := by
    intro m g hm hu _ _
    obtain ⟨rfl, _⟩ := findNode_singleton _ _ _ hm
    exact absurd hu (by decide)
  have hRR : RolesResolve [c7node] := by
    intro m g hm rn hrn
    obtain ⟨rfl, _⟩ := findNode_singleton _ _ _ hm
    exact absurd hrn (List.not_mem_nil rn)
  have hB : BidirOk [c7node] := by
    constructor
    · intro m g hm rn hrn
      obtain ⟨rfl, _⟩ := findNode_singleton _ _ _ hm
      exact absurd hrn (List.not_mem_nil rn)
    · intro m g hm c hc
      obtain ⟨rfl, _⟩ := findNode_singleton _ _ _ hm
      exact absurd hc (List.not_mem_nil c)
  have hsingle : List.Pairwise
      (fun a b => DBObjectKey.lt a b = true) [(⟨1, 1, 7⟩ : DBObjectKey)] :=
    List.Pairwise.cons (fun b hb => absurd hb (List.not_mem_nil b))
      List.Pairwise.nil
  have hDS : DirSorted [c7node] := by
    intro m g hm
    obtain ⟨rfl, _⟩ := findNode_singleton _ _ _ hm
    exact hsingle
  have hES : EffSorted [c7node] := by
    intro m g hm
    obtain ⟨rfl, _⟩ := findNode_singleton _ _ _ hm
    exact hsingle
  have hVA : ValidAll [c7node] := by
    intro m g hm
    obtain ⟨rfl, _⟩ := findNode_singleton _ _ _ hm
    constructor
    · intro k
      by_cases hk : (⟨1, 1, 7⟩ : DBObjectKey) = k
      · rw [← hk]
        decide
      · show effBits c7node k = dirBits c7node k |||
          roleBits [c7node] c7node.roles k
        simp only [effBits, dirBits, roleBits, lookupBits, c7node, mapLookup,
          if_neg hk, List.foldr, Nat.zero_or]
    · decide
  obtain ⟨_, _, h3⟩ := revokePrivileges_spec [c7node] "dave" c7obj c7node
    (fun _ => 0) hfind hR hRR hB hDS hES hVA (by decide)
  obtain ⟨ha, hb', _, _⟩ := h3 ⟨⟨1, 1, 7⟩, "t", 0, ⟨3⟩⟩ (by decide) (by decide)
  refine ⟨ha, ?_⟩
  rw [hb', if_neg (by rw [ldiff_eq_xor_land]; decide)]

/-- C6 (amended): on a valid state, granting an object carrying at least
one bit, none of which the grantee already holds directly on that key, and
immediately revoking it restores both privilege maps of the grantee bit for
bit, and nothing is thrown. -/
theorem grant_revoke_roundtrip (st : GraphState) (n : String)
    (object : DBObject) (g : GranteeNode) (rank : String → Nat)
    (hg : findNode st n = some g) (hrank : RanksOk st rank)
    (hrr : RolesResolve st) (hb : BidirOk st) (hds : DirSorted st)
    (hes : EffSorted st) (hva : ValidAll st) (hrb : rank n ≤ st.length)
    (hbits : object.privs.privileges ≠ 0)
    (hdisj : dirBits g object.objectKey &&& object.privs.privileges = 0) :
    (revokePrivilegesOp (grantPrivilegesOp st n object) n object).1 = none ∧
    (∀ g', findNode
        (revokePrivilegesOp (grantPrivilegesOp st n object) n object).2.2
        n = some g' →
      (∀ k, dirBits g' k = dirBits g k) ∧
      (∀ k, effBits g' k = effBits g k)) := by
  obtain ⟨hex, hdesc, hunch, _, hedgesG, hdsG, hesG, _, hvaG⟩ :=
    grantPrivOp_descr st n object g rank hg hrank hrr hb hds hes hva hrb
  obtain ⟨gG, hgG⟩ := hex
  obtain ⟨hlookG, hothG, hrolG⟩ := hdesc gG hgG
  have hrankG : RanksOk (grantPrivilegesOp st n object) rank :=
    ranksOk_edges _ _ hedgesG rank hrank
  have hrrG := rolesResolve_edges _ _ hedgesG hrr
  have hbG := bidirOk_edges _ _ hedgesG hb
  have hrbG : rank n ≤ (grantPrivilegesOp st n object).length := by
    rw [grantPrivilegesOp_length]
    exact hrb
  suffices hmain : ∀ OG : DBObject,
      mapLookup gG.directPrivileges object.objectKey = some OG →
      OG.privs.privileges =
        dirBits g object.objectKey ||| object.privs.privileges →
      ((revokePrivilegesOp (grantPrivilegesOp st n object) n object).1 =
        none ∧
      (∀ g', findNode
          (revokePrivilegesOp (grantPrivilegesOp st n object) n object).2.2
          n = some g' →
        (∀ k, dirBits g' k = dirBits g k) ∧
        (∀ k, effBits g' k = effBits g k))) by
    cases hl : mapLookup g.directPrivileges object.objectKey with
    | none =>
      refine hmain object ?_ ?_
      · rw [hl] at hlookG
        exact hlookG
      · have hz : dirBits g object.objectKey = 0 := by
          rw [dirBits, lookupBits, hl]
        rw [hz, Nat.zero_or]
    | some o =>
      refine hmain (o.grantPrivileges object) ?_ ?_
      · rw [hl] at hlookG
        exact hlookG
      · have ho : dirBits g object.objectKey = o.privs.privileges := by
          rw [dirBits, lookupBits, hl]
        rw [ho]
        rfl
  intro OG hlookOG hOGbits
  have honeOG : OG.privs.privileges ≠ 0 := by
    rw [hOGbits, Nat.lor_comm]
    exact lor_ne_zero_left _ _ hbits
  obtain ⟨r0, _, rdesc, runch, rvalid, _, _, _, _, _⟩ :=
    revokePrivOp_full (grantPrivilegesOp st n object) n object gG OG rank
      hgG hrankG hrrG hbG hdsG hesG hvaG hrbG hlookOG honeOG
  refine ⟨r0, ?_⟩
  intro gR hgR
  obtain ⟨hdirR, hrolR⟩ := rdesc gR hgR
  have hnewbits : (OG.revokePrivileges object).privs.privileges =
      dirBits g object.objectKey := by
    show Nat.ldiff OG.privs.privileges object.privs.privileges = _
    rw [hOGbits]
    exact lor_ldiff_cancel _ _ hdisj
  have hdirBits : ∀ k, dirBits gR k = dirBits g k := by
    intro k
    show lookupBits gR.directPrivileges k = lookupBits g.directPrivileges k
    rw [hdirR, revokeDirMap]
    by_cases hkk : object.objectKey = k
    · subst hkk
      by_cases hna : (OG.revokePrivileges object).privs.hasAny = true
      · rw [if_pos hna, lookupBits, mapLookup_insert, if_pos rfl]
        show (OG.revokePrivileges object).privs.privileges =
          lookupBits g.directPrivileges object.objectKey
        rw [hnewbits]
        rfl
      · rw [if_neg hna, lookupBits, mapLookup_erase, if_pos rfl]
        have hz : (OG.revokePrivileges object).privs.privileges = 0 := by
          by_cases h : (OG.revokePrivileges object).privs.privileges = 0
          · exact h
          · exact absurd ((hasAny_iff _).mpr h) hna
        rw [hnewbits] at hz
        exact hz.symm
    · by_cases hna : (OG.revokePrivileges object).privs.hasAny = true
      · rw [if_pos hna, lookupBits, mapLookup_insert, if_neg hkk,
          hothG k (fun h => hkk h.symm)]
        rfl
      · rw [if_neg hna, lookupBits, mapLookup_erase, if_neg hkk,
          hothG k (fun h => hkk h.symm)]
        rfl
  have hvR : NodeValid
      (revokePrivilegesOp (grantPrivilegesOp st n object) n object).2.2
      gR :=
    rvalid n gR Relation.ReflTransGen.refl hgR
  have hrolAll : gR.roles = g.roles := hrolR.trans hrolG
  have hroleUnch : ∀ rn ∈ g.roles,
      findNode
        (revokePrivilegesOp (grantPrivilegesOp st n object) n object).2.2
        rn = findNode st rn := by
    intro rn hrn
    have hnr : ¬ReachDown st n rn := by
      intro hr
      obtain ⟨r, hrf, hru⟩ := hrr n g hg rn hrn
      have hmem : n ∈ r.grantees := hb.1 n g hg rn hrn r hrf
      have hlt : rank n < rank rn := hrank rn r hrf hru n hmem
      have hle := reach_rank st rank hrank n rn hr
      omega
    have hnrG : ¬ReachDown (grantPrivilegesOp st n object) n rn :=
      fun h => hnr ((ReachDown_edges _ _ hedgesG n rn).mpr h)
    rw [runch rn hnrG, hunch rn hnr]
  have heffBits : ∀ k, effBits gR k = effBits g k := by
    intro k
    rw [hvR.1 k, hrolAll,
      roleBits_congr st _ g.roles hroleUnch k, hdirBits k]
    exact ((hva n g hg).1 k).symm
  exact ⟨hdirBits, heffBits⟩

/-- A user holding bit `4` on one key, for the round-trip witness. -/
def c6wnode : GranteeNode :=
  { name := "erin", isUser := true, roles := [], grantees := [],
    effectivePrivileges := [(⟨1, 1, 11⟩, ⟨⟨1, 1, 11⟩, "t7", 0, ⟨4⟩⟩)],
    directPrivileges := [(⟨1, 1, 11⟩, ⟨⟨1, 1, 11⟩, "t7", 0, ⟨4⟩⟩)] }

/-- The disjoint single-bit object granted and revoked in the round-trip
witness. -/
def c6wobj : DBObject := ⟨⟨1, 1, 11⟩, "t7", 0, ⟨1⟩⟩

/-- C6 witness: granting bit `1` on top of a disjoint direct bit `4` and
revoking it again throws nothing. -/
theorem grant_revoke_roundtrip_witness :
    (revokePrivilegesOp (grantPrivilegesOp [c6wnode] "erin" c6wobj) "erin"
      c6wobj).1 = none := by
  have hfind : findNode [c6wnode] "erin" = some c6wnode := by decide
  have hR : RanksOk [c6wnode] (fun _ => 0) := by
    intro m g hm hu _ _
    obtain ⟨rfl, _⟩ := findNode_singleton _ _ _ hm
    exact absurd hu (by decide)
  have hRR : RolesResolve [c6wnode] := by
    intro m g hm rn hrn
    obtain ⟨rfl, _⟩ := findNode_singleton _ _ _ hm
    exact absurd hrn (List.not_mem_nil rn)
  have hB : BidirOk [c6wnode] := by
    constructor
    · intro m g hm rn hrn
      obtain ⟨rfl, _⟩ := findNode_singleton _ _ _ hm
      exact absurd hrn (List.not_mem_nil rn)
    · intro m g hm c hc
      obtain ⟨rfl, _⟩ := findNode_singleton _ _ _ hm
      exact absurd hc (List.not_mem_nil c)
  have hsingle : List.Pairwise
      (fun a b => DBObjectKey.lt a b = true) [(⟨1, 1, 11⟩ : DBObjectKey)] :=
    List.Pairwise.cons (fun b hb => absurd hb (List.not_mem_nil b))
      List.Pairwise.nil
  have hDS : DirSorted [c6wnode] := by
    intro m g hm
    obtain ⟨rfl, _⟩ := findNode_singleton _ _ _ hm
    exact hsingle
  have hES : EffSorted [c6wnode] := by
    intro m g hm
    obtain ⟨rfl, _⟩ := findNode_singleton _ _ _ hm
    exact hsingle
  have hVA : ValidAll [c6wnode] := by
    intro m g hm
    obtain ⟨rfl, _⟩ := findNode_singleton _ _ _ hm
    constructor
    · intro k
      by_cases hk : (⟨1, 1, 11⟩ : DBObjectKey) = k
      · rw [← hk]
        decide
      · show effBits c6wnode k = dirBits c6wnode k |||
          roleBits [c6wnode] c6wnode.roles k
        simp only [effBits, dirBits, roleBits, lookupBits, c6wnode,
          mapLookup, if_neg hk, List.foldr, Nat.zero_or]
    · decide
  exact (grant_revoke_roundtrip [c6wnode] "erin" c6wobj c6wnode
    (fun _ => 0) hfind hR hRR hB hDS hES hVA (by decide) (by decide)
    (by decide)).1

theorem edgesEq_refl (st : GraphState) : edgesEq st st :=
  fun _ => edgeRel_refl _

theorem updateNode_congr (st : GraphState) (n : String)
    (f1 f2 : GranteeNode → GranteeNode) (g : GranteeNode)
    (hg : findNode st n = some g) (hf : f1 g = f2 g) :
    updateNode st n f1 = updateNode st n f2 := by
  induction st with
  | nil => rfl
  | cons x t ih =>
    rw [findNode] at hg
    rw [updateNode, updateNode]
    by_cases hx : x.name = n
    · rw [if_pos hx] at hg
      rw [if_pos hx, if_pos hx]
      have hxg := Option.some.inj hg
      rw [hxg, hf]
    · rw [if_neg hx] at hg
      rw [if_neg hx, if_neg hx, ih hg]

theorem updateMapsProp_length (st : GraphState) (n : String)
    (eff dir : DBObjectMap) :
    (updateMapsProp st n eff dir).length = st.length := by
  unfold updateMapsProp
  rw [updatePrivilegesProp_length, updateNode_length]

theorem lookupBits_filter_ne_zero (m : DBObjectMap)
    (p : DBObjectKey × DBObject → Bool) (k : DBObjectKey)
    (hnd : (mapKeys m).Nodup)
    (h : lookupBits (m.filter p) k ≠ 0) :
    lookupBits m k ≠ 0 ∧ ∃ o, mapLookup m k = some o ∧ p (k, o) = true := by
  rw [lookupBits, mapLookup_filter m p k hnd] at h
  cases hl : mapLookup m k with
  | none => rw [hl] at h; exact absurd rfl h
  | some o =>
    rw [hl] at h
    have h2 : (match (if p (k, o) = true then some o else none) with
        | some o => o.privs.privileges
        | none => 0) ≠ 0 := h
    cases hp : p (k, o) with
    | false =>
      rw [if_neg (fun hc => Bool.noConfusion (hp.symm.trans hc))] at h2
      exact absurd rfl h2
    | true =>
      rw [if_pos hp] at h2
      exact ⟨by rw [lookupBits, hl]; exact h2, o, rfl, hp⟩

theorem mem_mapKeys_filter (m : DBObjectMap)
    (p : DBObjectKey × DBObject → Bool) (k : DBObjectKey)
    (hnd : (mapKeys m).Nodup) (o : DBObject)
    (hl : mapLookup m k = some o) (hp : p (k, o) = true) :
    k ∈ mapKeys (m.filter p) := by
  rw [mem_mapKeys_iff, mapLookup_filter m p k hnd, hl]
  show (if p (k, o) = true then some o else none).isSome = true
  rw [if_pos hp]
  rfl

/-- Dropping the entries of one database from both maps keeps every
remaining direct key covered by the remaining effective map. -/
theorem dbFilter_cov (g : GranteeNode) (dbId : Int)
    (hds : mapSorted g.directPrivileges)
    (hes : mapSorted g.effectivePrivileges)
    (hdc : ∀ k, dirBits g k ≠ 0 → k ∈ mapKeys g.effectivePrivileges) :
    ∀ k, lookupBits
        (g.directPrivileges.filter (fun kv => kv.1.dbId ≠ dbId)) k ≠ 0 →
      k ∈ mapKeys
        (g.effectivePrivileges.filter (fun kv => kv.1.dbId ≠ dbId)) := by
  intro k hk
  obtain ⟨hk0, o, hl, hp⟩ := lookupBits_filter_ne_zero _ _ k
    (mapSorted_nodup _ hds) hk
  have hkm : k ∈ mapKeys g.effectivePrivileges := hdc k hk0
  have hsome := (mem_mapKeys_iff _ k).mp hkm
  cases hle : mapLookup g.effectivePrivileges k with
  | none => rw [hle] at hsome; exact Bool.noConfusion hsome
  | some e => exact mem_mapKeys_filter _ _ k (mapSorted_nodup _ hes) e hle hp

theorem ranksOk_revokeShape (st st2 : GraphState) (gname rname : String)
    (rank : String → Nat)
    (hdescr : ∀ mm, findNode st2 mm =
      (findNode st mm).map (revokeShape gname rname mm))
    (hrank : RanksOk st rank) : RanksOk st2 rank := by
  intro m x' hm hu c hc
  rw [hdescr m] at hm
  cases hx : findNode st m with
  | none => rw [hx] at hm; exact Option.noConfusion hm
  | some x =>
    rw [hx] at hm
    have hinj := Option.some.inj hm
    have hu' : x.isUser = false := by rw [← hinj] at hu; exact hu
    have hcg : c ∈ (if rname = m then x.grantees.filter (fun z => z ≠ gname)
        else x.grantees) := by
      rw [← hinj] at hc; exact hc
    by_cases hrm : rname = m
    · rw [if_pos hrm] at hcg
      exact hrank m x hx hu' c (List.mem_of_mem_filter hcg)
    · rw [if_neg hrm] at hcg
      exact hrank m x hx hu' c hcg

theorem rolesResolve_revokeShape (st st2 : GraphState) (gname rname : String)
    (hdescr : ∀ mm, findNode st2 mm =
      (findNode st mm).map (revokeShape gname rname mm))
    (hrr : RolesResolve st) : RolesResolve st2 := by
  intro m x' hm rn hrn
  rw [hdescr m] at hm
  cases hx : findNode st m with
  | none => rw [hx] at hm; exact Option.noConfusion hm
  | some x =>
    rw [hx] at hm
    have hinj := Option.some.inj hm
    have hrn' : rn ∈ (if gname = m then x.roles.filter (fun z => z ≠ rname)
        else x.roles) := by
      rw [← hinj] at hrn; exact hrn
    have hmem : rn ∈ x.roles := by
      by_cases hgm : gname = m
      · rw [if_pos hgm] at hrn'
        exact List.mem_of_mem_filter hrn'
      · rw [if_neg hgm] at hrn'
        exact hrn'
    obtain ⟨rr, hrr0, hru0⟩ := hrr m x hx rn hmem
    refine ⟨revokeShape gname rname rn rr, ?_, hru0⟩
    rw [hdescr rn, hrr0]
    rfl

theorem dirSorted_revokeShape (st st2 : GraphState) (gname rname : String)
    (hdescr : ∀ mm, findNode st2 mm =
      (findNode st mm).map (revokeShape gname rname mm))
    (hds : DirSorted st) : DirSorted st2 := by
  intro m x' hm
  rw [hdescr m] at hm
  cases hx : findNode st m with
  | none => rw [hx] at hm; exact Option.noConfusion hm
  | some x =>
    rw [hx] at hm
    rw [← Option.some.inj hm]
    exact hds m x hx

theorem effSorted_revokeShape (st st2 : GraphState) (gname rname : String)
    (hdescr : ∀ mm, findNode st2 mm =
      (findNode st mm).map (revokeShape gname rname mm))
    (hes : EffSorted st) : EffSorted st2 := by
  intro m x' hm
  rw [hdescr m] at hm
  cases hx : findNode st m with
  | none => rw [hx] at hm; exact Option.noConfusion hm
  | some x =>
    rw [hx] at hm
    rw [← Option.some.inj hm]
    exact hes m x hx

theorem dirCov_revokeShape (st st2 : GraphState) (gname rname : String)
    (hdescr : ∀ mm, findNode st2 mm =
      (findNode st mm).map (revokeShape gname rname mm))
    (hdc : DirCov st) : DirCov st2 := by
  intro m x' hm k hk
  rw [hdescr m] at hm
  cases hx : findNode st m with
  | none => rw [hx] at hm; exact Option.noConfusion hm
  | some x =>
    rw [hx] at hm
    have hinj := Option.some.inj hm
    have hk' : dirBits x k ≠ 0 := by rw [← hinj] at hk; exact hk
    rw [← hinj]
    exact hdc m x hx k hk'

/-- The state after the two edge removals of `revokeRole`, node by node. -/
theorem revoke_st2_descr (st : GraphState) (gname rname : String) :
    ∀ mm, findNode
      (updateNode (updateNode st gname
        (fun x => { x with roles := x.roles.filter (fun z => z ≠ rname) }))
        rname
        (fun x =>
          { x with grantees := x.grantees.filter (fun z => z ≠ gname) })) mm =
      (findNode st mm).map (revokeShape gname rname mm) := by
  intro mm
  rw [findNode_update2 st gname rname
    (fun x => { x with roles := x.roles.filter (fun z => z ≠ rname) })
    (fun x => { x with grantees := x.grantees.filter (fun z => z ≠ gname) })
    (fun x => rfl) (fun x => rfl) mm]
  by_cases h2 : rname = mm
  · rw [if_pos h2]
    by_cases h1 : gname = mm
    · rw [if_pos h1]
      cases findNode st mm with
      | none => rfl
      | some x =>
        show (some _ : Option GranteeNode) = some (revokeShape gname rname mm x)
        rw [revokeShape, if_pos h1, if_pos h2]
    · rw [if_neg h1]
      cases findNode st mm with
      | none => rfl
      | some x =>
        show (some _ : Option GranteeNode) = some (revokeShape gname rname mm x)
        rw [revokeShape, if_neg h1, if_pos h2]
  · rw [if_neg h2]
    by_cases h1 : gname = mm
    · rw [if_pos h1]
      cases findNode st mm with
      | none => rfl
      | some x =>
        show (some _ : Option GranteeNode) = some (revokeShape gname rname mm x)
        rw [revokeShape, if_pos h1, if_neg h2]
    · rw [if_neg h1]
      cases hsm : findNode st mm with
      | none => rfl
      | some x =>
        show (some x : Option GranteeNode) = some (revokeShape gname rname mm x)
        rw [revokeShape, if_neg h1, if_neg h2]

/-- `revokeAllOnDatabase`, run with enough fuel on a well-formed state,
leaves nodes outside the downstream cone untouched, keeps every edge, keeps
both maps sorted, keeps the state length, and restores the
effective-privileges equation at every node. -/
theorem revokeAllOnDbOp_spec (fuel : Nat) :
    ∀ (st : GraphState) (n : String) (dbId : Int) (rank : String → Nat),
      RanksOk st rank → RolesResolve st → BidirOk st → DirSorted st →
      EffSorted st → ValidAll st → rank n < fuel → rank n ≤ st.length →
      (∀ m, ¬ReachDown st n m →
        findNode (revokeAllOnDbOp fuel st n dbId) m = findNode st m) ∧
      edgesEq st (revokeAllOnDbOp fuel st n dbId) ∧
      DirSorted (revokeAllOnDbOp fuel st n dbId) ∧
      EffSorted (revokeAllOnDbOp fuel st n dbId) ∧
      ValidAll (revokeAllOnDbOp fuel st n dbId) ∧
      (revokeAllOnDbOp fuel st n dbId).length = st.length := by
  induction fuel with
  | zero =>
    intro st n dbId rank _ _ _ _ _ _ hfu _
    exact absurd hfu (Nat.not_lt_zero _)
  | succ fuel ih =>
    intro st n dbId rank hrank hrr hb hds hes hva hfu hrb
    cases hgn : findNode st n with
    | none =>
      have hop : revokeAllOnDbOp (fuel + 1) st n dbId = st := by
        rw [revokeAllOnDbOp]
        simp only [hgn]
      rw [hop]
      exact ⟨fun m _ => rfl, edgesEq_refl st, hds, hes, hva, rfl⟩
    | some g =>
      have hupd : updateNode st n (fun x =>
          { x with
            effectivePrivileges :=
              x.effectivePrivileges.filter (fun kv => kv.1.dbId ≠ dbId),
            directPrivileges :=
              x.directPrivileges.filter (fun kv => kv.1.dbId ≠ dbId) }) =
          updateNode st n (fun x =>
          { x with
            effectivePrivileges :=
              g.effectivePrivileges.filter (fun kv => kv.1.dbId ≠ dbId),
            directPrivileges :=
              g.directPrivileges.filter (fun kv => kv.1.dbId ≠ dbId) }) :=
        updateNode_congr st n _ _ g hgn rfl
      have hop : revokeAllOnDbOp (fuel + 1) st n dbId =
          (if g.isUser = true then
            updateMapsProp st n
              (g.effectivePrivileges.filter (fun kv => kv.1.dbId ≠ dbId))
              (g.directPrivileges.filter (fun kv => kv.1.dbId ≠ dbId))
          else
            g.grantees.foldl (fun acc c => revokeAllOnDbOp fuel acc c dbId)
              (updateMapsProp st n
                (g.effectivePrivileges.filter (fun kv => kv.1.dbId ≠ dbId))
                (g.directPrivileges.filter
                  (fun kv => kv.1.dbId ≠ dbId)))) := by
        rw [revokeAllOnDbOp]
        simp only [hgn]
        rw [hupd]
        unfold updateMapsProp
        rfl
      obtain ⟨h0, h1, h2, h3, h4, h5, h6, h7, h8⟩ := updateMapsProp_descr st
        n g
        (g.effectivePrivileges.filter (fun kv => kv.1.dbId ≠ dbId))
        (g.directPrivileges.filter (fun kv => kv.1.dbId ≠ dbId))
        rank hgn hrank hrr hb hds hes (dirCov_of_validAll st hva) hrb
        (mapSorted_filter _ _ (hds n g hgn))
        (mapSorted_filter _ _ (hes n g hgn))
        (dbFilter_cov g dbId (hds n g hgn) (hes n g hgn)
          (fun k hk => dirCov_of_validAll st hva n g hgn k hk))
      have hva2 := h8 hva
      have hlen2 := updateMapsProp_length st n
        (g.effectivePrivileges.filter (fun kv => kv.1.dbId ≠ dbId))
        (g.directPrivileges.filter (fun kv => kv.1.dbId ≠ dbId))
      cases hgu : g.isUser with
      | true =>
        have hopT : revokeAllOnDbOp (fuel + 1) st n dbId =
            updateMapsProp st n
              (g.effectivePrivileges.filter (fun kv => kv.1.dbId ≠ dbId))
              (g.directPrivileges.filter (fun kv => kv.1.dbId ≠ dbId)) := by
          rw [hop, if_pos hgu]
        rw [hopT]
        exact ⟨h2, h4, h5, h6, hva2, hlen2⟩
      | false =>
        have hopF : revokeAllOnDbOp (fuel + 1) st n dbId =
            g.grantees.foldl (fun acc c => revokeAllOnDbOp fuel acc c dbId)
              (updateMapsProp st n
                (g.effectivePrivileges.filter (fun kv => kv.1.dbId ≠ dbId))
                (g.directPrivileges.filter (fun kv => kv.1.dbId ≠ dbId))) := by
          rw [hop, if_neg (fun h => Bool.noConfusion (hgu.symm.trans h))]
        have hfold : ∀ (l : List String), (∀ c ∈ l, stepDown st n c) →
            ∀ (acc : GraphState), edgesEq st acc → DirSorted acc →
              EffSorted acc → ValidAll acc → acc.length = st.length →
              (∀ m, ¬ReachDown st n m → findNode acc m = findNode st m) →
              edgesEq st
                (l.foldl (fun a c => revokeAllOnDbOp fuel a c dbId) acc) ∧
              DirSorted
                (l.foldl (fun a c => revokeAllOnDbOp fuel a c dbId) acc) ∧
              EffSorted
                (l.foldl (fun a c => revokeAllOnDbOp fuel a c dbId) acc) ∧
              ValidAll
                (l.foldl (fun a c => revokeAllOnDbOp fuel a c dbId) acc) ∧
              (l.foldl (fun a c => revokeAllOnDbOp fuel a c dbId)
                acc).length = st.length ∧
              (∀ m, ¬ReachDown st n m →
                findNode (l.foldl (fun a c => revokeAllOnDbOp fuel a c dbId)
                  acc) m = findNode st m) := by
          intro l
          induction l with
          | nil =>
            intro _ acc hae had haes hav hal hau
            exact ⟨hae, had, haes, hav, hal, hau⟩
          | cons c t ihl =>
            intro hsd acc hae had haes hav hal hau
            obtain ⟨gg, hgg, hggu, hcm⟩ := hsd c (List.mem_cons_self c t)
            have hrc : rank c < rank n := hrank n gg hgg hggu c hcm
            obtain ⟨iu, ie, ids, ies, iva, il⟩ := ih acc c dbId rank
              (ranksOk_edges st acc hae rank hrank)
              (rolesResolve_edges st acc hae hrr)
              (bidirOk_edges st acc hae hb)
              had haes hav (by omega) (by rw [hal]; omega)
            simp only [List.foldl_cons]
            refine ihl (fun c' hc' => hsd c' (List.mem_cons_of_mem c hc'))
              (revokeAllOnDbOp fuel acc c dbId)
              (edgesEq_trans st acc _ hae ie) ids ies iva
              (il.trans hal) ?_
            intro m hm
            have hnc : ¬ReachDown acc c m := fun h =>
              hm (Relation.ReflTransGen.head ⟨gg, hgg, hggu, hcm⟩
                ((ReachDown_edges st acc hae c m).mpr h))
            rw [iu m hnc]
            exact hau m hm
        obtain ⟨f1, f2, f3, f4, f5, f6⟩ := hfold g.grantees
          (fun c hc => ⟨g, hgn, hgu, hc⟩) _ h4 h5 h6 hva2 hlen2 h2
        rw [hopF]
        exact ⟨f6, f1, f2, f3, f4, f5⟩

/-- C3: after every top-level privilege-graph mutation returns —
`grantPrivileges`, `revokePrivileges` on its non-throwing path, `grantRole`
and `revokeRole` on their success paths, and `revokeAllOnDatabase` — every
node reachable downstream of the mutated grantee satisfies the
effective-privileges equation: at each key its effective bits equal its
direct bits ORed with each granted role's effective bits (absent entries
contributing `0`), and no effective entry holds an empty bitset. -/
theorem effective_privileges_invariant (st : GraphState)
    (rank : String → Nat) (hrank : RanksOk st rank) (hrr : RolesResolve st)
    (hb : BidirOk st) (hds : DirSorted st) (hes : EffSorted st)
    (hva : ValidAll st) :
    (∀ n g object, findNode st n = some g → rank n ≤ st.length →
      ∀ m g', ReachDown (grantPrivilegesOp st n object) n m →
        findNode (grantPrivilegesOp st n object) m = some g' →
        NodeValid (grantPrivilegesOp st n object) g') ∧
    (∀ n g object o, findNode st n = some g → rank n ≤ st.length →
      mapLookup g.directPrivileges object.objectKey = some o →
      o.privs.privileges ≠ 0 →
      ∀ m g', ReachDown (revokePrivilegesOp st n object).2.2 n m →
        findNode (revokePrivilegesOp st n object).2.2 m = some g' →
        NodeValid (revokePrivilegesOp st n object).2.2 g') ∧
    (∀ gname rname g r, findNode st gname = some g →
      findNode st rname = some r → r.isUser = false → rname ∉ g.roles →
      ¬Relation.ReflTransGen (Rstep st true) gname rname →
      rank gname < rank rname → rank gname ≤ st.length →
      ∀ m g', ReachDown (grantRoleOp st gname rname).2 gname m →
        findNode (grantRoleOp st gname rname).2 m = some g' →
        NodeValid (grantRoleOp st gname rname).2 g') ∧
    (∀ gname rname g r, findNode st gname = some g →
      findNode st rname = some r → gname ∈ r.grantees →
      rank gname ≤ st.length →
      ∀ m g', ReachDown (revokeRoleOp st gname rname).2 gname m →
        findNode (revokeRoleOp st gname rname).2 m = some g' →
        NodeValid (revokeRoleOp st gname rname).2 g') ∧
    (∀ fuel n dbId, rank n < fuel → rank n ≤ st.length →
      ∀ m g', ReachDown (revokeAllOnDbOp fuel st n dbId) n m →
        findNode (revokeAllOnDbOp fuel st n dbId) m = some g' →
        NodeValid (revokeAllOnDbOp fuel st n dbId) g') := by
  have hdc := dirCov_of_validAll st hva
  refine ⟨?_, ?_, ?_, ?_, ?_⟩
  · intro n g object hg hrb m g' _ hfind
    obtain ⟨_, _, _, _, _, _, _, _, hvaP⟩ :=
      grantPrivOp_descr st n object g rank hg hrank hrr hb hds hes hva hrb
    exact hvaP m g' hfind
  · intro n g object o hg hrb hlook hone m g' _ hfind
    obtain ⟨_, _, _, _, _, _, _, _, _, hvaP⟩ :=
      revokePrivOp_full st n object g o rank hg hrank hrr hb hds hes hva hrb
        hlook hone
    exact hvaP m g' hfind
  · intro gname rname g r hg hr hru hnr hreach hedge hlen m g' hrd hfind
    have hcy : checkCyclesDetect st gname rname = false := by
      cases hcb : checkCyclesDetect st gname rname
      · rfl
      · exact absurd ((checkCyclesDetect_iff st gname rname).mp hcb).1 hreach
    have hgr : gname ∉ r.grantees :=
      fun hmem => hnr (hb.2 rname r hr gname hmem g hg)
    have hop : (grantRoleOp st gname rname).2 =
        updatePrivilegesProp
          ((updateNode (updateNode st gname
            (fun x => { x with roles := insertName x.roles rname }))
            rname
            (fun x =>
              { x with grantees := insertName x.grantees gname })).length + 1)
          (updateNode (updateNode st gname
            (fun x => { x with roles := insertName x.roles rname }))
            rname
            (fun x => { x with grantees := insertName x.grantees gname }))
          gname := by
      unfold grantRoleOp
      simp only [hg, hr]
      rw [if_neg hnr, hcy, if_neg Bool.false_ne_true, if_neg hgr]
    have hdescr := grant_st2_descr st gname rname
    have hprop := updatePrivilegesProp_spec
      ((updateNode (updateNode st gname
        (fun x => { x with roles := insertName x.roles rname }))
        rname
        (fun x =>
          { x with grantees := insertName x.grantees gname })).length + 1)
      (updateNode (updateNode st gname
        (fun x => { x with roles := insertName x.roles rname }))
        rname
        (fun x => { x with grantees := insertName x.grantees gname }))
      gname rank
      (ranksOk_grantShape st _ gname rname rank hdescr hrank hedge)
      (rolesResolve_grantShape st _ gname rname r hdescr hrr hr hru)
      (bidirOk_of_grantShape st _ gname rname
        (fun mm => by rw [hdescr mm]; exact edgeRel_refl _) hb)
      (dirSorted_grantShape st _ gname rname hdescr hds)
      (effSorted_grantShape st _ gname rname hdescr hes)
      (dirCov_grantShape st _ gname rname hdescr hdc)
      (by rw [updateNode_length, updateNode_length]; omega)
    have hskel := updatePrivilegesProp_skeleton
      ((updateNode (updateNode st gname
        (fun x => { x with roles := insertName x.roles rname }))
        rname
        (fun x =>
          { x with grantees := insertName x.grantees gname })).length + 1)
      (updateNode (updateNode st gname
        (fun x => { x with roles := insertName x.roles rname }))
        rname
        (fun x => { x with grantees := insertName x.grantees gname }))
      gname
    rw [hop] at hrd hfind ⊢
    exact hprop.2.2.2 m g'
      ((ReachDown_skeleton _ _ hskel gname m).mpr hrd) hfind
  · intro gname rname g r hg hr hmem hlen m g' hrd hfind
    have hop : (revokeRoleOp st gname rname).2 =
        updatePrivilegesProp
          ((updateNode (updateNode st gname
            (fun x => { x with roles := x.roles.filter (fun z => z ≠ rname) }))
            rname
            (fun x => { x with
              grantees := x.grantees.filter (fun z => z ≠ gname) })).length + 1)
          (updateNode (updateNode st gname
            (fun x => { x with roles := x.roles.filter (fun z => z ≠ rname) }))
            rname
            (fun x => { x with
              grantees := x.grantees.filter (fun z => z ≠ gname) }))
          gname := by
      unfold revokeRoleOp
      simp only [hg, hr]
      rw [if_pos hmem]
    have hdescr := revoke_st2_descr st gname rname
    have hprop := updatePrivilegesProp_spec
      ((updateNode (updateNode st gname
        (fun x => { x with roles := x.roles.filter (fun z => z ≠ rname) }))
        rname
        (fun x => { x with
          grantees := x.grantees.filter (fun z => z ≠ gname) })).length + 1)
      (updateNode (updateNode st gname
        (fun x => { x with roles := x.roles.filter (fun z => z ≠ rname) }))
        rname
        (fun x => { x with
          grantees := x.grantees.filter (fun z => z ≠ gname) }))
      gname rank
      (ranksOk_revokeShape st _ gname rname rank hdescr hrank)
      (rolesResolve_revokeShape st _ gname rname hdescr hrr)
      (bidirOk_of_revokeShape st _ gname rname
        (fun mm => by rw [hdescr mm]; exact edgeRel_refl _) hb)
      (dirSorted_revokeShape st _ gname rname hdescr hds)
      (effSorted_revokeShape st _ gname rname hdescr hes)
      (dirCov_revokeShape st _ gname rname hdescr hdc)
      (by rw [updateNode_length, updateNode_length]; omega)
    have hskel := updatePrivilegesProp_skeleton
      ((updateNode (updateNode st gname
        (fun x => { x with roles := x.roles.filter (fun z => z ≠ rname) }))
        rname
        (fun x => { x with
          grantees := x.grantees.filter (fun z => z ≠ gname) })).length + 1)
      (updateNode (updateNode st gname
        (fun x => { x with roles := x.roles.filter (fun z => z ≠ rname) }))
        rname
        (fun x => { x with
          grantees := x.grantees.filter (fun z => z ≠ gname) }))
      gname
    rw [hop] at hrd hfind ⊢
    exact hprop.2.2.2 m g'
      ((ReachDown_skeleton _ _ hskel gname m).mpr hrd) hfind
  · intro fuel n dbId hfu hrb m g' _ hfind
    obtain ⟨_, _, _, _, hvaR, _⟩ :=
      revokeAllOnDbOp_spec fuel st n dbId rank hrank hrr hb hds hes hva hfu
        hrb
    exact hvaR m g' hfind

/-- A user holding bit `4` on one key of database `1`, for the C3
witness. -/
def c3node : GranteeNode :=
  { name := "dave", isUser := true, roles := [], grantees := [],
    effectivePrivileges := [(⟨1, 1, 13⟩, ⟨⟨1, 1, 13⟩, "t8", 0, ⟨4⟩⟩)],
    directPrivileges := [(⟨1, 1, 13⟩, ⟨⟨1, 1, 13⟩, "t8", 0, ⟨4⟩⟩)] }

/-- C3 witness: revoking everything on the unrelated database `2` keeps
`dave` valid — his effective entry still equals his direct entry. -/
theorem effective_privileges_invariant_witness :
    NodeValid (revokeAllOnDbOp 1 [c3node] "dave" 2) c3node := by
  have hR : RanksOk [c3node] (fun _ => 0) := by
    intro m g hm hu _ _
    obtain ⟨rfl, _⟩ := findNode_singleton _ _ _ hm
    exact absurd hu (by decide)
  have hRR : RolesResolve [c3node] := by
    intro m g hm rn hrn
    obtain ⟨rfl, _⟩ := findNode_singleton _ _ _ hm
    exact absurd hrn (List.not_mem_nil rn)
  have hB : BidirOk [c3node] := by
    constructor
    · intro m g hm rn hrn
      obtain ⟨rfl, _⟩ := findNode_singleton _ _ _ hm
      exact absurd hrn (List.not_mem_nil rn)
    · intro m g hm c hc
      obtain ⟨rfl, _⟩ := findNode_singleton _ _ _ hm
      exact absurd hc (List.not_mem_nil c)
  have hsingle : List.Pairwise
      (fun a b => DBObjectKey.lt a b = true) [(⟨1, 1, 13⟩ : DBObjectKey)] :=
    List.Pairwise.cons (fun b hb => absurd hb (List.not_mem_nil b))
      List.Pairwise.nil
  have hDS : DirSorted [c3node] := by
    intro m g hm
    obtain ⟨rfl, _⟩ := findNode_singleton _ _ _ hm
    exact hsingle
  have hES : EffSorted [c3node] := by
    intro m g hm
    obtain ⟨rfl, _⟩ := findNode_singleton _ _ _ hm
    exact hsingle
  have hVA : ValidAll [c3node] := by
    intro m g hm
    obtain ⟨rfl, _⟩ := findNode_singleton _ _ _ hm
    constructor
    · intro k
      by_cases hk : (⟨1, 1, 13⟩ : DBObjectKey) = k
      · rw [← hk]
        decide
      · show effBits c3node k = dirBits c3node k |||
          roleBits [c3node] c3node.roles k
        simp only [effBits, dirBits, roleBits, lookupBits, c3node,
          mapLookup, if_neg hk, List.foldr, Nat.zero_or]
    · decide
  exact (effective_privileges_invariant [c3node] (fun _ => 0) hR hRR hB hDS
    hES hVA).2.2.2.2 1 "dave" 2 (by decide) (by decide) "dave" c3node
    Relation.ReflTransGen.refl (by decide)

end OmniSci
